import Mathlib

/-!
Verification of the social-deduction simulation core of `omu_tui.py`:
map generation, world-state queries, A* pathfinding, the two-phase
movement arbiter, the impostor kill phase, the task-progress step and
meeting-vote resolution.  Python dictionaries are modelled as
association lists with unique keys, `heapq` as a multiset of entries
popped in lexicographic tuple order, and every use of `random` is an
explicit oracle parameter.
-/

namespace OmuTui

/-- Grid coordinates `(y, x)`, as in `Point = Tuple[int, int]`. -/
abbrev Pt := Int × Int

/-- Manhattan distance `abs(a.y-b.y) + abs(a.x-b.x)` used throughout the game. -/
def manhattan (a b : Pt) : Nat := (a.1 - b.1).natAbs + (a.2 - b.2).natAbs

theorem manhattan_comm (a b : Pt) : manhattan a b = manhattan b a := by
  unfold manhattan
  rw [← Int.natAbs_neg (a.1 - b.1), ← Int.natAbs_neg (a.2 - b.2), neg_sub, neg_sub]

theorem manhattan_self (a : Pt) : manhattan a a = 0 := by
  simp [manhattan]

theorem manhattan_triangle (a b c : Pt) :
    manhattan a c ≤ manhattan a b + manhattan b c := by
  unfold manhattan
  have h1 : (a.1 - c.1).natAbs ≤ (a.1 - b.1).natAbs + (b.1 - c.1).natAbs := by
    have h : a.1 - c.1 = (a.1 - b.1) + (b.1 - c.1) := by ring
    rw [h]; exact Int.natAbs_add_le _ _
  have h2 : (a.2 - c.2).natAbs ≤ (a.2 - b.2).natAbs + (b.2 - c.2).natAbs := by
    have h : a.2 - c.2 = (a.2 - b.2) + (b.2 - c.2) := by ring
    rw [h]; exact Int.natAbs_add_le _ _
  omega

/-- The game map: a list of rows of characters, with the declared
dimensions `self.height`, `self.width` (rows use `'#'`, `'.'`, `'T'`). -/
structure GameMap where
  height : Nat
  width : Nat
  map : List (List Char)

/-- Read the grid character at `(y, x)`; out-of-range reads default to a
wall (they are always guarded by `is_in_bounds` in the source). -/
def cellAt (g : GameMap) (y x : Int) : Char :=
  (((g.map.get? y.toNat).bind (fun row => row.get? x.toNat)).getD '#')

/-- `Game.is_in_bounds`. -/
def is_in_bounds (g : GameMap) (y x : Int) : Prop :=
  0 ≤ y ∧ y < g.height ∧ 0 ≤ x ∧ x < g.width

instance (g : GameMap) (y x : Int) : Decidable (is_in_bounds g y x) := by
  unfold is_in_bounds; infer_instance

/-- `Game.is_walkable`: in bounds and not a wall character. -/
def is_walkable (g : GameMap) (y x : Int) : Prop :=
  is_in_bounds g y x ∧ cellAt g y x ≠ '#'

instance (g : GameMap) (y x : Int) : Decidable (is_walkable g y x) := by
  unfold is_walkable; infer_instance

/-- `is_walkable` on a point. -/
def walkP (g : GameMap) (p : Pt) : Prop := is_walkable g p.1 p.2

instance (g : GameMap) (p : Pt) : Decidable (walkP g p) := by
  unfold walkP; infer_instance

/-! ## Association lists standing for Python dicts -/

/-- First-match lookup in an association list (Python `d[k]` / `d.get(k)`). -/
def alook {β : Type} : List (Pt × β) → Pt → Option β
  | [], _ => none
  | e :: t, k => if e.1 = k then some e.2 else alook t k

/-- Dict deletion `del d[k]`. -/
def adel {β : Type} : List (Pt × β) → Pt → List (Pt × β)
  | [], _ => []
  | e :: t, k => if e.1 = k then adel t k else e :: adel t k

/-- Dict update `d[k] = v`: replace the binding of `k`, keeping keys unique. -/
def aupd {β : Type} (m : List (Pt × β)) (k : Pt) (v : β) : List (Pt × β) :=
  (k, v) :: adel m k

theorem alook_adel_self {β : Type} (m : List (Pt × β)) (k : Pt) :
    alook (adel m k) k = none := by
  induction m with
  | nil => simp [alook, adel]
  | cons e t ih =>
    by_cases hek : e.1 = k
    · simpa [adel, hek] using ih
    · simpa [adel, alook, hek] using ih

theorem alook_adel_ne {β : Type} (m : List (Pt × β)) (k k' : Pt) (h : k' ≠ k) :
    alook (adel m k) k' = alook m k' := by
  have hkk : ¬ k = k' := fun hh => h hh.symm
  induction m with
  | nil => simp [adel]
  | cons e t ih =>
    by_cases hek : e.1 = k
    · simp [adel, alook, hek, hkk, ih]
    · by_cases he : e.1 = k'
      · simp [adel, alook, hek, he, h]
      · simp [adel, alook, hek, he, ih]

theorem alook_aupd_self {β : Type} (m : List (Pt × β)) (k : Pt) (v : β) :
    alook (aupd m k v) k = some v := by
  simp [aupd, alook]

theorem alook_aupd_ne {β : Type} (m : List (Pt × β)) (k k' : Pt) (v : β)
    (h : k' ≠ k) : alook (aupd m k v) k' = alook m k' := by
  have hkk : ¬ k = k' := fun hh => h hh.symm
  simp only [aupd, alook, if_neg hkk]
  exact alook_adel_ne m k k' h

/-! ## The player's task-progress step (`Game.update`, lines 332-345)

State touched by that block: `in_task`, `task_target`, `tasks`
(the registry, mapping cells to progress), the player position and the
grid.  The grid is carried through to record that the block never
writes to it. -/

/-- `self.task_progress_rate = 0.02`. -/
def task_progress_rate : ℚ := 2/100

structure TaskState where
  in_task : Bool
  task_target : Option Pt
  tasks : List (Pt × ℚ)
  playerPos : Pt
  map : GameMap

/-- The task-progress block at the top of `Game.update`. -/
def taskStep (s : TaskState) : TaskState :=
  if s.in_task then
    match s.task_target with
    | none => { s with in_task := false, task_target := none }
    | some pt =>
      match alook s.tasks pt with
      | none => { s with in_task := false, task_target := none }
      | some v =>
        if s.playerPos ≠ pt then { s with in_task := false, task_target := none }
        else
          let prog := v + task_progress_rate
          if 1 ≤ prog then
            { s with tasks := adel s.tasks pt, in_task := false, task_target := none }
          else
            { s with tasks := aupd s.tasks pt prog }
  else s

/-- C2 counterexample input: the player stands on task cell `(3, 4)` whose
progress `0.99` reaches `1` this step; the grid holds `'T'` there. -/
def c2Map : GameMap :=
  { height := 5, width := 6,
    map := [List.replicate 6 '#',
            List.replicate 6 '#',
            List.replicate 6 '#',
            ['#', '.', '.', '.', 'T', '#'],
            List.replicate 6 '#'] }

def c2State : TaskState :=
  { in_task := true, task_target := some (3, 4),
    tasks := [((3, 4), 99/100)], playerPos := (3, 4), map := c2Map }

/-- C2 (counterexample): completing the task at `(3, 4)` removes the
registry entry but the grid cell stays `'T'` — it is never converted to
Floor (`'.'`), contradicting the claimed Task-to-Floor transition. -/
theorem c2_grid_not_converted :
    alook (taskStep c2State).tasks (3, 4) = none ∧
    (taskStep c2State).map = c2State.map ∧
    cellAt (taskStep c2State).map 3 4 = 'T' := by
  have hstep : taskStep c2State =
      { c2State with tasks := adel c2State.tasks (3, 4),
                     in_task := false, task_target := none } := by
    unfold taskStep c2State
    norm_num [alook, task_progress_rate]
  refine ⟨?_, by rw [hstep], by rw [hstep]; rfl⟩
  rw [hstep]
  exact alook_adel_self _ _

/-- C2 (amended): whenever the player's task-progress step pushes a task's
progress to `1` or beyond, the entry is removed from the registry, and the
grid is left completely unchanged (no Task-to-Floor conversion happens). -/
theorem c2_task_completion_removes_entry_grid_unchanged
    (s : TaskState) (pt : Pt) (v : ℚ)
    (hin : s.in_task = true) (htg : s.task_target = some pt)
    (hv : alook s.tasks pt = some v) (hpos : s.playerPos = pt)
    (hdone : 1 ≤ v + task_progress_rate) :
    (taskStep s).tasks = adel s.tasks pt ∧
    alook (taskStep s).tasks pt = none ∧
    (taskStep s).map = s.map := by
  unfold taskStep
  rw [hin, htg]
  simp only [if_pos rfl]
  rw [hv]
  simp only [hpos, ne_eq, not_true_eq_false, if_false, ite_not]
  rw [if_pos hdone]
  exact ⟨rfl, alook_adel_self _ _, rfl⟩

/-- Witness for the amended C2 theorem at the concrete input above. -/
theorem c2_witness :
    c2State.in_task = true ∧ c2State.task_target = some (3, 4) ∧
    alook c2State.tasks (3, 4) = some (99/100) ∧ c2State.playerPos = (3, 4) ∧
    (1 : ℚ) ≤ 99/100 + task_progress_rate ∧
    ((taskStep c2State).tasks = adel c2State.tasks (3, 4) ∧
      alook (taskStep c2State).tasks (3, 4) = none ∧
      (taskStep c2State).map = c2State.map) := by
  refine ⟨rfl, rfl, by simp [c2State, alook], rfl,
    by norm_num [task_progress_rate], ?_⟩
  exact c2_task_completion_removes_entry_grid_unchanged c2State (3, 4) (99/100)
    rfl rfl (by simp [c2State, alook]) rfl (by norm_num [task_progress_rate])

end OmuTui

namespace OmuTui

/-! ## World state: player, NPCs, occupancy lookups

`Entity`/`NPC` fields that the occupancy and movement code reads:
position, alive flag, and for NPCs `last_pos` and `current_path`.
NPCs are identified by their index in `self.npcs`. -/

structure ANpc where
  y : Int
  x : Int
  alive : Bool
  last_pos : Option Pt := none
  current_path : List Pt := []

structure World where
  map : GameMap
  player_y : Int
  player_x : Int
  player_alive : Bool
  npcs : List ANpc
  in_task : Bool := false
  task_target : Option Pt := none

/-- Position of the NPC at index `i` (callers keep `i` in range). -/
def posOf (npcs : List ANpc) (i : Nat) : Pt :=
  match npcs.get? i with
  | some n => (n.y, n.x)
  | none => (0, 0)

/-- Index of the first living NPC at `(y, x)`, as scanned by the loops in
`Game.entity_at` and `Game.find_entity_at`. -/
def npcFirstAt : List ANpc → Int → Int → Option Nat
  | [], _, _ => none
  | n :: t, y, x =>
    if n.alive = true ∧ (y, x) = (n.y, n.x) then some 0
    else (npcFirstAt t y x).map (· + 1)

/-- A reference to an entity: `Sum.inl ()` is the player, `Sum.inr i` the
NPC at index `i`. -/
abbrev EntityRef := Unit ⊕ Nat

/-- `Game.entity_at` (player checked first, first living match wins). -/
def entity_at (s : World) (y x : Int) : Option EntityRef :=
  if s.player_alive = true ∧ (y, x) = (s.player_y, s.player_x) then some (Sum.inl ())
  else (npcFirstAt s.npcs y x).map Sum.inr

/-- `Game.find_entity_at` (same scan, point-argument form). -/
def find_entity_at (s : World) (p : Pt) : Option EntityRef :=
  if (s.player_y, s.player_x) = p ∧ s.player_alive = true then some (Sum.inl ())
  else (npcFirstAt s.npcs p.1 p.2).map Sum.inr

/-- The task-cancellation prefix of `Game.try_move_player`. -/
def cancelTask (s : World) : World :=
  if s.in_task then { s with in_task := false, task_target := none } else s

/-- `Game.try_move_player`. -/
def try_move_player (s : World) (dy dx : Int) : World :=
  if s.player_alive = false then s
  else if is_walkable s.map (s.player_y + dy) (s.player_x + dx) ∧
          entity_at (cancelTask s) (s.player_y + dy) (s.player_x + dx) = none then
    { cancelTask s with player_y := s.player_y + dy, player_x := s.player_x + dx }
  else cancelTask s

theorem cancelTask_player_y (s : World) : (cancelTask s).player_y = s.player_y := by
  unfold cancelTask; split <;> rfl

theorem cancelTask_player_x (s : World) : (cancelTask s).player_x = s.player_x := by
  unfold cancelTask; split <;> rfl

theorem cancelTask_player_alive (s : World) :
    (cancelTask s).player_alive = s.player_alive := by
  unfold cancelTask; split <;> rfl

theorem cancelTask_npcs (s : World) : (cancelTask s).npcs = s.npcs := by
  unfold cancelTask; split <;> rfl

theorem npcFirstAt_some {l : List ANpc} {y x : Int} {i : Nat}
    (h : npcFirstAt l y x = some i) :
    ∃ n, l.get? i = some n ∧ n.alive = true ∧ (y, x) = (n.y, n.x) := by
  induction l generalizing i with
  | nil => simp [npcFirstAt] at h
  | cons n t ih =>
    by_cases hc : n.alive = true ∧ (y, x) = (n.y, n.x)
    · simp only [npcFirstAt, if_pos hc] at h
      cases h
      exact ⟨n, rfl, hc.1, hc.2⟩
    · simp only [npcFirstAt, if_neg hc] at h
      match hrec : npcFirstAt t y x with
      | none => rw [hrec] at h; simp at h
      | some j =>
        rw [hrec] at h
        simp only [Option.map_some'] at h
        obtain ⟨m, hm, ha, hp⟩ := ih hrec
        refine ⟨m, ?_, ha, hp⟩
        injection h with h
        rw [← h]
        simpa using hm

/-- C10: occupancy carries only living entities, and dead entities never
block the player's movement.  Part (1): `entity_at` returns a reference
only when that entity is alive and at the queried cell; part (2): the same
for `find_entity_at`; part (3): if the destination is walkable and no
*living* entity stands there (dead NPCs or a dead player may), the player
commits the move. -/
theorem c10_occupancy_only_living (s : World) (y x : Int) (dy dx : Int) :
    (∀ i, entity_at s y x = some (Sum.inr i) →
      ∃ n, s.npcs.get? i = some n ∧ n.alive = true ∧ (y, x) = (n.y, n.x)) ∧
    (entity_at s y x = some (Sum.inl ()) →
      s.player_alive = true ∧ (y, x) = (s.player_y, s.player_x)) ∧
    (∀ i, find_entity_at s (y, x) = some (Sum.inr i) →
      ∃ n, s.npcs.get? i = some n ∧ n.alive = true ∧ (y, x) = (n.y, n.x)) ∧
    (find_entity_at s (y, x) = some (Sum.inl ()) →
      s.player_alive = true ∧ (s.player_y, s.player_x) = (y, x)) ∧
    (s.player_alive = true →
      is_walkable s.map (s.player_y + dy) (s.player_x + dx) →
      (∀ n ∈ s.npcs, n.alive = true →
        (s.player_y + dy, s.player_x + dx) ≠ (n.y, n.x)) →
      (s.player_y + dy, s.player_x + dx) ≠ (s.player_y, s.player_x) →
      (try_move_player s dy dx).player_y = s.player_y + dy ∧
      (try_move_player s dy dx).player_x = s.player_x + dx) := by
  refine ⟨?_, ?_, ?_, ?_, ?_⟩
  · intro i h
    unfold entity_at at h
    by_cases hp : s.player_alive = true ∧ (y, x) = (s.player_y, s.player_x)
    · rw [if_pos hp] at h; simp at h
    · rw [if_neg hp] at h
      match hf : npcFirstAt s.npcs y x with
      | none => rw [hf] at h; simp at h
      | some j =>
        rw [hf] at h
        simp only [Option.map_some', Option.some.injEq, Sum.inr.injEq] at h
        exact h ▸ npcFirstAt_some hf
  · intro h
    unfold entity_at at h
    by_cases hp : s.player_alive = true ∧ (y, x) = (s.player_y, s.player_x)
    · exact hp
    · rw [if_neg hp] at h
      match hf : npcFirstAt s.npcs y x with
      | none => rw [hf] at h; simp at h
      | some j => rw [hf] at h; simp at h
  · intro i h
    unfold find_entity_at at h
    by_cases hp : (s.player_y, s.player_x) = (y, x) ∧ s.player_alive = true
    · rw [if_pos hp] at h; simp at h
    · rw [if_neg hp] at h
      match hf : npcFirstAt s.npcs y x with
      | none => rw [hf] at h; simp at h
      | some j =>
        rw [hf] at h
        simp only [Option.map_some', Option.some.injEq, Sum.inr.injEq] at h
        exact h ▸ npcFirstAt_some hf
  · intro h
    unfold find_entity_at at h
    by_cases hp : (s.player_y, s.player_x) = (y, x) ∧ s.player_alive = true
    · exact ⟨hp.2, hp.1⟩
    · rw [if_neg hp] at h
      match hf : npcFirstAt s.npcs y x with
      | none => rw [hf] at h; simp at h
      | some j => rw [hf] at h; simp at h
  · intro halive hwalk hnone hself
    unfold try_move_player
    rw [if_neg (by rw [halive]; simp)]
    have hs1 : ∀ s1 : World, s1.player_y = s.player_y → s1.player_x = s.player_x →
        s1.player_alive = s.player_alive → s1.npcs = s.npcs →
        entity_at s1 (s.player_y + dy) (s.player_x + dx) = none := by
      intro s1 h1 h2 h3 h4
      unfold entity_at
      rw [if_neg (by rw [h1, h2, h3]; exact fun hc => hself hc.2)]
      rw [h4]
      match hf : npcFirstAt s.npcs (s.player_y + dy) (s.player_x + dx) with
      | none => simp
      | some j =>
        obtain ⟨n, hn, ha, hp⟩ := npcFirstAt_some hf
        exact absurd hp.symm (by
          intro hc
          exact hnone n (s.npcs.get?_mem hn) ha (by rw [hc]))
    rw [if_pos ⟨hwalk, hs1 (cancelTask s) (cancelTask_player_y s)
      (cancelTask_player_x s) (cancelTask_player_alive s) (cancelTask_npcs s)⟩]
    exact ⟨rfl, rfl⟩

/-- Witness for C10: a world with one dead NPC on the destination cell;
the player at `(3, 1)` moves right onto the corpse cell `(3, 2)`. -/
def c10World : World :=
  { map := c2Map, player_y := 3, player_x := 1, player_alive := true,
    npcs := [{ y := 3, x := 2, alive := false }] }

theorem c10_witness :
    (c10World.player_alive = true) ∧
    is_walkable c10World.map (c10World.player_y + 0) (c10World.player_x + 1) ∧
    (∀ n ∈ c10World.npcs, n.alive = true →
      (c10World.player_y + 0, c10World.player_x + 1) ≠ (n.y, n.x)) ∧
    ((try_move_player c10World 0 1).player_y = c10World.player_y + 0 ∧
      (try_move_player c10World 0 1).player_x = c10World.player_x + 1) := by
  refine ⟨rfl, by decide, by decide, ?_⟩
  exact (c10_occupancy_only_living c10World 0 0 0 1).2.2.2.2
    rfl (by decide) (by decide) (by decide)

end OmuTui

namespace OmuTui

/-! ## Movement arbiter (`Game.update`, lines 398-438)

Phase-1 output is the `intents` dict: NPC index to desired next cell,
listed in processing order (dead or interval-gated NPCs are absent).
`random.shuffle` on a claimant list is an oracle `sig` whose output,
for reachable behaviour, is a permutation of its input. -/

/-- Rewrite of intents aimed at the player's cell: such an NPC is forced
to stay (`intents[npc] = (npc.y, npc.x)`). -/
def blockPlayer (s : World) (intents : List (Nat × Pt)) : List (Nat × Pt) :=
  intents.map fun ip =>
    if ip.2 = (s.player_y, s.player_x) then (ip.1, posOf s.npcs ip.1) else ip

/-- Key list of the reverse map `dest_map` (one entry per desired cell). -/
def destCells (intents : List (Nat × Pt)) : List Pt :=
  (intents.map (·.2)).dedup

/-- `dest_map[c]`: the NPCs that proposed cell `c`, in dict order. -/
def claimants (intents : List (Nat × Pt)) (c : Pt) : List Nat :=
  (intents.filter (fun ip => decide (ip.2 = c))).map (·.1)

/-- `staying_positions`: cells of NPCs that proposed to remain in place. -/
def stayingPositions (npcs : List ANpc) (intents : List (Nat × Pt)) : List Pt :=
  (intents.filter (fun ip => decide (ip.2 = posOf npcs ip.1))).map (·.2)

/-- `intents.get(npc, default)`. -/
def lookupIntent : List (Nat × Pt) → Nat → Pt → Pt
  | [], _, d => d
  | ip :: t, i, d => if ip.1 = i then ip.2 else lookupIntent t i d

/-- The `len(claimants) == 1` case of the resolution loop: the staying
check, then the head-on swap check against the occupant of the cell. -/
def approveSingle (s : World) (intents : List (Nat × Pt)) (c : Pt)
    (i : Nat) : Option Nat :=
  if c ∈ stayingPositions s.npcs intents ∧ c ≠ posOf s.npcs i then none
  else
    match find_entity_at s c with
    | some (Sum.inr j) =>
      if lookupIntent intents j (posOf s.npcs j) = posOf s.npcs i then none
      else some i
    | _ => some i

/-- The approval decision for one desired cell (the body of the
`for pos, claimants in dest_map.items()` loop). -/
def approveAt (s : World) (intents : List (Nat × Pt))
    (sig : List Nat → List Nat) (c : Pt) : Option Nat :=
  match claimants intents c with
  | [] => none
  | [i] => approveSingle s intents c i
  | cl => (sig cl).head?

/-- The `approved` set of NPC indices. -/
def approvedMoves (s : World) (intents : List (Nat × Pt))
    (sig : List Nat → List Nat) : List Nat :=
  (destCells intents).filterMap (approveAt s intents sig)

/-- Commit for a single NPC (the body of the phase-3 loop). -/
def commitNpc (s : World) (intents : List (Nat × Pt)) (approved : List Nat)
    (i : Nat) (n : ANpc) : ANpc :=
  if n.alive = false then n
  else
    let desired := lookupIntent intents i (n.y, n.x)
    if i ∈ approved ∧ desired ≠ (n.y, n.x) then
      { n with last_pos := some (n.y, n.x), y := desired.1, x := desired.2,
               current_path :=
                 match n.current_path with
                 | [] => []
                 | st :: t => if st = desired then t else st :: t }
    else n

/-- Index-aware map used to model the in-place commit loop. -/
def mapIdxFrom (f : Nat → ANpc → ANpc) : Nat → List ANpc → List ANpc
  | _, [] => []
  | k, n :: t => f k n :: mapIdxFrom f (k + 1) t

/-- Phase 2 and 3 of `Game.update`: block moves onto the player, build the
reverse map, approve, and commit. -/
def resolveNpcMoves (s : World) (intents0 : List (Nat × Pt))
    (sig : List Nat → List Nat) : World :=
  let intents := blockPlayer s intents0
  let approved := approvedMoves s intents sig
  { s with npcs := mapIdxFrom (commitNpc s intents approved) 0 s.npcs }

theorem mapIdxFrom_get? (f : Nat → ANpc → ANpc) :
    ∀ (l : List ANpc) (k i : Nat),
      (mapIdxFrom f k l).get? i = (l.get? i).map (f (k + i)) := by
  intro l
  induction l with
  | nil => intro k i; simp [mapIdxFrom]
  | cons n t ih =>
    intro k i
    cases i with
    | zero => simp [mapIdxFrom]
    | succ j =>
      simp only [mapIdxFrom, List.get?_cons_succ, ih (k + 1) j]
      have h : k + 1 + j = k + (j + 1) := by omega
      rw [h]

end OmuTui

namespace OmuTui

/-- C1 failing input: NPC 0 stays on `(2, 2)` (its intent is its own cell)
while NPC 1 proposes `(2, 2)`; both claim the cell, so the multi-claimant
branch shuffles and approves one claimant.  `List.reverse` is one possible
outcome of `random.shuffle [0, 1]`. -/
def c1World : World :=
  { map := c2Map, player_y := 0, player_x := 0, player_alive := true,
    npcs := [{ y := 2, x := 2, alive := true }, { y := 2, x := 3, alive := true }] }

def c1Intents : List (Nat × Pt) := [(0, (2, 2)), (1, (2, 2))]

/-- C1: starting from pairwise-distinct cells, the arbiter can approve a
mover onto another NPC's staying cell — after commit, both living NPCs
occupy `(2, 2)`.  The multi-claimant branch never re-checks the staying
occupant, so the claimed distinctness invariant fails. -/
theorem c1_two_npcs_end_on_same_cell :
    posOf c1World.npcs 0 ≠ posOf c1World.npcs 1 ∧
    posOf (resolveNpcMoves c1World c1Intents List.reverse).npcs 0 = (2, 2) ∧
    posOf (resolveNpcMoves c1World c1Intents List.reverse).npcs 1 = (2, 2) ∧
    (resolveNpcMoves c1World c1Intents List.reverse).npcs.map (·.alive) =
      [true, true] := by
  refine ⟨by decide, ?_, ?_, ?_⟩ <;> rfl

/-- `(py, px)` never appears as a value of the rewritten intents. -/
theorem lookupIntent_blockPlayer_ne (s : World) (l : List (Nat × Pt))
    (i : Nat) (d : Pt) (hd : d ≠ (s.player_y, s.player_x))
    (hpos : posOf s.npcs i ≠ (s.player_y, s.player_x)) :
    lookupIntent (blockPlayer s l) i d ≠ (s.player_y, s.player_x) := by
  induction l with
  | nil => simpa [blockPlayer, lookupIntent] using hd
  | cons ip t ih =>
    by_cases hpp : ip.2 = (s.player_y, s.player_x)
    · by_cases hk : ip.1 = i
      · simpa [blockPlayer, lookupIntent, hpp, hk] using hpos
      · simpa [blockPlayer, lookupIntent, hpp, hk] using ih
    · by_cases hk : ip.1 = i
      · simpa [blockPlayer, lookupIntent, hpp, hk] using hpp
      · simpa [blockPlayer, lookupIntent, hpp, hk] using ih

/-- C8: if at the start of the tick no living NPC stands on the player's
cell, then after intent resolution and commit no living NPC stands on the
player's cell: intents aimed there are rewritten to stay, and fallback
positions are the NPCs' own cells. -/
theorem c8_no_npc_ends_on_player_cell
    (s : World) (intents0 : List (Nat × Pt)) (sig : List Nat → List Nat)
    (hdist : ∀ n ∈ s.npcs, n.alive = true → (n.y, n.x) ≠ (s.player_y, s.player_x)) :
    ∀ i n', (resolveNpcMoves s intents0 sig).npcs.get? i = some n' →
      n'.alive = true → (n'.y, n'.x) ≠ (s.player_y, s.player_x) := by
  intro i n' hget halive
  unfold resolveNpcMoves at hget
  simp only at hget
  rw [mapIdxFrom_get?] at hget
  match hn : s.npcs.get? i with
  | none => rw [hn] at hget; simp at hget
  | some n =>
    rw [hn] at hget
    simp only [Option.map_some', Option.some.injEq] at hget
    have hmem : n ∈ s.npcs := s.npcs.get?_mem hn
    have hzero : 0 + i = i := Nat.zero_add i
    rw [hzero] at hget
    by_cases hal : n.alive = false
    · rw [← hget, commitNpc, if_pos hal] at halive ⊢
      exact absurd halive (by rw [hal]; simp)
    · have haln : n.alive = true := by
        cases hna : n.alive
        · exact absurd hna hal
        · rfl
      have hnp : (n.y, n.x) ≠ (s.player_y, s.player_x) := hdist n hmem haln
      have hposOf : posOf s.npcs i = (n.y, n.x) := by rw [posOf, hn]
      rw [← hget, commitNpc, if_neg hal]
      simp only
      by_cases hc : i ∈ approvedMoves s (blockPlayer s intents0) sig ∧
          lookupIntent (blockPlayer s intents0) i (n.y, n.x) ≠ (n.y, n.x)
      · rw [if_pos hc]
        simp only
        have hlook := lookupIntent_blockPlayer_ne s intents0 i (n.y, n.x) hnp
          (hposOf ▸ hnp)
        intro hcontra
        exact hlook (by rw [← hcontra])
      · rw [if_neg hc]
        exact hnp

/-- Witness input for C8: one living NPC away from the player. -/
def c8World : World :=
  { map := c2Map, player_y := 0, player_x := 0, player_alive := true,
    npcs := [{ y := 1, x := 1, alive := true }] }

theorem c8_witness :
    (∀ n ∈ c8World.npcs, n.alive = true →
      (n.y, n.x) ≠ (c8World.player_y, c8World.player_x)) ∧
    (∀ i n', (resolveNpcMoves c8World [(0, (0, 0))] id).npcs.get? i = some n' →
      n'.alive = true → (n'.y, n'.x) ≠ (c8World.player_y, c8World.player_x)) := by
  refine ⟨by decide, ?_⟩
  exact c8_no_npc_ends_on_player_cell c8World [(0, (0, 0))] id (by decide)

end OmuTui

namespace OmuTui

theorem filter_eq_single {α : Type} (P : α → Bool) :
    ∀ (l : List α), l.Nodup → ∀ e, e ∈ l → P e = true →
      (∀ x ∈ l, P x = true → x = e) → l.filter P = [e] := by
  intro l
  induction l with
  | nil => intro _ e he; exact absurd he (List.not_mem_nil e)
  | cons h t ih =>
    intro hnd e he hPe huniq
    rcases List.mem_cons.mp he with rfl | het
    · rw [List.filter_cons_of_pos hPe]
      have ht : t.filter P = [] := by
        rw [List.filter_eq_nil]
        intro x hx hPx
        have hxe := huniq x (List.mem_cons_of_mem _ hx) hPx
        exact (List.nodup_cons.mp hnd).1 (hxe ▸ hx)
      rw [ht]
    · have hPh : ¬ P h = true := by
        intro hPh
        have hhe := huniq h (List.mem_cons_self h t) hPh
        exact (List.nodup_cons.mp hnd).1 (hhe ▸ het)
      rw [List.filter_cons_of_neg hPh]
      exact ih (List.nodup_cons.mp hnd).2 e het hPe
        (fun x hx hPx => huniq x (List.mem_cons_of_mem _ hx) hPx)

theorem eq_of_mem_keysNodup {α β : Type} :
    ∀ (l : List (α × β)), (l.map Prod.fst).Nodup →
      ∀ e1 e2, e1 ∈ l → e2 ∈ l → e1.1 = e2.1 → e1 = e2 := by
  intro l
  induction l with
  | nil => intro _ e1 _ h1; exact absurd h1 (List.not_mem_nil e1)
  | cons h t ih =>
    intro hnd e1 e2 h1 h2 hk
    rw [List.map_cons] at hnd
    have hnd' := List.nodup_cons.mp hnd
    rcases List.mem_cons.mp h1 with rfl | h1t
    · rcases List.mem_cons.mp h2 with rfl | h2t
      · rfl
      · exact absurd (by rw [hk]; exact List.mem_map_of_mem Prod.fst h2t) hnd'.1
    · rcases List.mem_cons.mp h2 with rfl | h2t
      · exact absurd (by rw [← hk]; exact List.mem_map_of_mem Prod.fst h1t) hnd'.1
      · exact ih hnd'.2 e1 e2 h1t h2t hk

theorem lookupIntent_eq_of_mem :
    ∀ (l : List (Nat × Pt)), (l.map Prod.fst).Nodup →
      ∀ (k : Nat) (v d : Pt), (k, v) ∈ l → lookupIntent l k d = v := by
  intro l
  induction l with
  | nil => intro _ k v d hmem; exact absurd hmem (List.not_mem_nil _)
  | cons e t ih =>
    intro hnd k v d hmem
    rw [List.map_cons] at hnd
    have hnd' := List.nodup_cons.mp hnd
    rcases List.mem_cons.mp hmem with heq | ht
    · rw [← heq]
      simp [lookupIntent]
    · have hek : ¬ e.1 = k := by
        intro hek
        exact hnd'.1 (by rw [hek]; exact List.mem_map_of_mem Prod.fst ht)
      rw [lookupIntent, if_neg hek]
      exact ih hnd'.2 k v d ht

theorem npcFirstAt_eq_of_unique (y x : Int) :
    ∀ (l : List ANpc) (b : Nat) (B : ANpc), l.get? b = some B →
      B.alive = true → (y, x) = (B.y, B.x) →
      (∀ j nj, l.get? j = some nj → nj.alive = true → (y, x) = (nj.y, nj.x) → j = b) →
      npcFirstAt l y x = some b := by
  intro l
  induction l with
  | nil => intro b B hB; simp at hB
  | cons n t ih =>
    intro b B hB halive hpos huniq
    cases b with
    | zero =>
      have hn : n = B := by simpa using hB
      rw [npcFirstAt, if_pos ⟨hn ▸ halive, hn ▸ hpos⟩]
    | succ j =>
      have hcond : ¬ (n.alive = true ∧ (y, x) = (n.y, n.x)) := by
        intro hc
        exact Nat.succ_ne_zero j (huniq 0 n rfl hc.1 hc.2).symm
      rw [npcFirstAt, if_neg hcond]
      have hrec : npcFirstAt t y x = some j := by
        refine ih j B (by simpa using hB) halive hpos ?_
        intro j' nj hj' ha hp
        have := huniq (j' + 1) nj (by simpa using hj') ha hp
        omega
      rw [hrec]
      rfl

theorem blockPlayer_keys (s : World) (l : List (Nat × Pt)) :
    (blockPlayer s l).map Prod.fst = l.map Prod.fst := by
  induction l with
  | nil => rfl
  | cons ip t ih =>
    by_cases hpp : ip.2 = (s.player_y, s.player_x) <;>
      simp [blockPlayer, hpp] at ih ⊢ <;> exact ih

theorem blockPlayer_mem_of_ne (s : World) (l : List (Nat × Pt))
    (a : Nat) (v : Pt) (hv : v ≠ (s.player_y, s.player_x))
    (hmem : (a, v) ∈ l) : (a, v) ∈ blockPlayer s l := by
  have h : (a, v) = (if v = (s.player_y, s.player_x)
      then (a, posOf s.npcs a) else (a, v)) := by rw [if_neg hv]
  rw [h]
  exact List.mem_map_of_mem _ hmem

theorem blockPlayer_mem_inv (s : World) (l : List (Nat × Pt)) (ip : Nat × Pt)
    (hmem : ip ∈ blockPlayer s l) :
    ∃ ip0 ∈ l, ip.1 = ip0.1 ∧
      (ip = ip0 ∨ (ip0.2 = (s.player_y, s.player_x) ∧ ip.2 = posOf s.npcs ip0.1)) := by
  obtain ⟨ip0, h0, heq⟩ := List.mem_map.mp hmem
  by_cases hpp : ip0.2 = (s.player_y, s.player_x)
  · rw [if_pos hpp] at heq
    exact ⟨ip0, h0, by rw [← heq], Or.inr ⟨hpp, by rw [← heq]⟩⟩
  · rw [if_neg hpp] at heq
    exact ⟨ip0, h0, by rw [← heq], Or.inl heq.symm⟩

theorem claimants_mem (intents : List (Nat × Pt)) (c : Pt) (a : Nat)
    (h : a ∈ claimants intents c) : ∃ ip ∈ intents, ip.1 = a ∧ ip.2 = c := by
  obtain ⟨ip, hip, hk⟩ := List.mem_map.mp h
  have := List.mem_filter.mp hip
  exact ⟨ip, this.1, hk, by simpa using this.2⟩

theorem approveAt_some_mem (s : World) (intents : List (Nat × Pt))
    (sig : List Nat → List Nat) (hsig : ∀ l, (sig l).Perm l) (c : Pt) (i : Nat)
    (h : approveAt s intents sig c = some i) : i ∈ claimants intents c := by
  unfold approveAt at h
  match hcl : claimants intents c with
  | [] => rw [hcl] at h; simp at h
  | [j] =>
    rw [hcl] at h
    have h' : approveSingle s intents c j = some i := h
    have hij : i = j := by
      unfold approveSingle at h'
      by_cases hc1 : c ∈ stayingPositions s.npcs intents ∧ c ≠ posOf s.npcs j
      · rw [if_pos hc1] at h'; simp at h'
      · rw [if_neg hc1] at h'
        match hf : find_entity_at s c with
        | some (Sum.inr k) =>
          rw [hf] at h'
          have h2 : (if lookupIntent intents k (posOf s.npcs k) = posOf s.npcs j
              then none else some j) = some i := h'
          by_cases hc2 : lookupIntent intents k (posOf s.npcs k) = posOf s.npcs j
          · rw [if_pos hc2] at h2; simp at h2
          · rw [if_neg hc2] at h2; simpa using h2.symm
        | some (Sum.inl u) =>
          rw [hf] at h'
          have h2 : (some j : Option Nat) = some i := h'
          simpa using h2.symm
        | none =>
          rw [hf] at h'
          have h2 : (some j : Option Nat) = some i := h'
          simpa using h2.symm
    rw [hij]; exact List.mem_singleton.mpr rfl
  | j1 :: j2 :: t =>
    rw [hcl] at h
    have h' : (sig (j1 :: j2 :: t)).head? = some i := h
    exact (hsig (j1 :: j2 :: t)).mem_iff.mp (List.mem_of_mem_head? h')

end OmuTui

namespace OmuTui

/-- One direction of swap blocking: if NPC `a` proposes `b`'s cell, `b`
proposes `a`'s cell, and no other NPC proposes `b`'s cell, then `a` is not
approved (the occupant check sees `b` moving into `a`'s cell). -/
theorem swap_side_not_approved
    (s : World) (intents0 : List (Nat × Pt)) (sig : List Nat → List Nat)
    (hsig : ∀ l, (sig l).Perm l)
    (a b : Nat) (A B : ANpc)
    (ha : s.npcs.get? a = some A) (hb : s.npcs.get? b = some B)
    (hA : A.alive = true) (hB : B.alive = true)
    (hkeys : (intents0.map Prod.fst).Nodup)
    (hdom : ∀ ip ∈ intents0, ∃ n, s.npcs.get? ip.1 = some n ∧ n.alive = true)
    (hIA : (a, (B.y, B.x)) ∈ intents0)
    (hIB : (b, (A.y, A.x)) ∈ intents0)
    (honlyB : ∀ ip ∈ intents0, ip.2 = (B.y, B.x) → ip.1 = a)
    (hdistinct : ∀ i j ni nj, s.npcs.get? i = some ni → s.npcs.get? j = some nj →
      ni.alive = true → nj.alive = true → (ni.y, ni.x) = (nj.y, nj.x) → i = j)
    (hplayer : ∀ n ∈ s.npcs, n.alive = true → (n.y, n.x) ≠ (s.player_y, s.player_x))
    (hne : (A.y, A.x) ≠ (B.y, B.x)) :
    a ∉ approvedMoves s (blockPlayer s intents0) sig := by
  have hppA : (A.y, A.x) ≠ (s.player_y, s.player_x) :=
    hplayer A (s.npcs.get?_mem ha) hA
  have hppB : (B.y, B.x) ≠ (s.player_y, s.player_x) :=
    hplayer B (s.npcs.get?_mem hb) hB
  have hkeysI : ((blockPlayer s intents0).map Prod.fst).Nodup := by
    rw [blockPlayer_keys]; exact hkeys
  have hndI : (blockPlayer s intents0).Nodup := hkeysI.of_map
  have hIA' : (a, (B.y, B.x)) ∈ blockPlayer s intents0 :=
    blockPlayer_mem_of_ne s intents0 a _ hppB hIA
  have hIB' : (b, (A.y, A.x)) ∈ blockPlayer s intents0 :=
    blockPlayer_mem_of_ne s intents0 b _ hppA hIB
  have honlyB' : ∀ ip ∈ blockPlayer s intents0, ip.2 = (B.y, B.x) →
      ip = (a, (B.y, B.x)) := by
    intro ip hip hv
    obtain ⟨ip0, h0, hkeq, hor⟩ := blockPlayer_mem_inv s intents0 ip hip
    rcases hor with heq | ⟨hpp0, hval⟩
    · have hk : ip.1 = a := by
        rw [hkeq]
        exact honlyB ip0 h0 (by rw [← heq]; exact hv)
      calc ip = (ip.1, ip.2) := rfl
        _ = (a, (B.y, B.x)) := by rw [hk, hv]
    · obtain ⟨n, hn, hnal⟩ := hdom ip0 h0
      have hposOf : posOf s.npcs ip0.1 = (n.y, n.x) := by rw [posOf, hn]
      have hnpos : (n.y, n.x) = (B.y, B.x) := by
        rw [← hposOf, ← hval]; exact hv
      have hk0 : ip0.1 = b := hdistinct ip0.1 b n B hn hb hnal hB hnpos
      have hip0eq : ip0 = (b, (A.y, A.x)) :=
        eq_of_mem_keysNodup intents0 hkeys ip0 (b, (A.y, A.x)) h0 hIB hk0
      rw [hip0eq] at hpp0
      exact absurd hpp0 hppA
  have hclB : claimants (blockPlayer s intents0) (B.y, B.x) = [a] := by
    unfold claimants
    have hfilter : (blockPlayer s intents0).filter
        (fun ip => decide (ip.2 = (B.y, B.x))) = [(a, (B.y, B.x))] :=
      filter_eq_single _ _ hndI (a, (B.y, B.x)) hIA' (by simp)
        (fun x hx hPx => honlyB' x hx (by simpa using hPx))
    rw [hfilter]
    rfl
  have happB : approveAt s (blockPlayer s intents0) sig (B.y, B.x) = none := by
    unfold approveAt
    rw [hclB]
    show approveSingle s (blockPlayer s intents0) (B.y, B.x) a = none
    unfold approveSingle
    by_cases hstay : (B.y, B.x) ∈ stayingPositions s.npcs (blockPlayer s intents0) ∧
        (B.y, B.x) ≠ posOf s.npcs a
    · rw [if_pos hstay]
    · rw [if_neg hstay]
      have hfind : find_entity_at s (B.y, B.x) = some (Sum.inr b) := by
        unfold find_entity_at
        rw [if_neg (fun hc => hppB hc.1.symm)]
        have hfa : npcFirstAt s.npcs B.y B.x = some b := by
          refine npcFirstAt_eq_of_unique B.y B.x s.npcs b B hb hB rfl ?_
          intro j nj hj hjal hjpos
          exact hdistinct j b nj B hj hb hjal hB hjpos.symm
        rw [hfa]
        rfl
      rw [hfind]
      show (if lookupIntent (blockPlayer s intents0) b (posOf s.npcs b) =
          posOf s.npcs a then none else some a) = none
      have hlook : lookupIntent (blockPlayer s intents0) b (posOf s.npcs b) =
          (A.y, A.x) :=
        lookupIntent_eq_of_mem _ hkeysI b _ _ hIB'
      have hposa : posOf s.npcs a = (A.y, A.x) := by rw [posOf, ha]
      rw [if_pos (by rw [hlook, hposa])]
  intro hmem
  obtain ⟨c, hcdest, hcap⟩ := List.mem_filterMap.mp hmem
  have hclaim := approveAt_some_mem s (blockPlayer s intents0) sig hsig c a hcap
  obtain ⟨ip, hip, hk, hv⟩ := claimants_mem _ c a hclaim
  have hipeq : ip = (a, (B.y, B.x)) :=
    eq_of_mem_keysNodup _ hkeysI ip (a, (B.y, B.x)) hip hIA' hk
  have hc : c = (B.y, B.x) := by rw [← hv, hipeq]
  rw [hc, happB] at hcap
  exact Option.noConfusion hcap

/-- C4: two living NPCs on adjacent cells that propose to move into each
other's current cells, with no other NPC proposing either cell, are both
rejected by the arbiter — after commit they are completely unchanged. -/
theorem c4_headon_swap_blocked
    (s : World) (intents0 : List (Nat × Pt)) (sig : List Nat → List Nat)
    (hsig : ∀ l, (sig l).Perm l)
    (a b : Nat) (A B : ANpc)
    (ha : s.npcs.get? a = some A) (hb : s.npcs.get? b = some B)
    (hA : A.alive = true) (hB : B.alive = true)
    (hadj : manhattan (A.y, A.x) (B.y, B.x) = 1)
    (hkeys : (intents0.map Prod.fst).Nodup)
    (hdom : ∀ ip ∈ intents0, ∃ n, s.npcs.get? ip.1 = some n ∧ n.alive = true)
    (hIA : (a, (B.y, B.x)) ∈ intents0)
    (hIB : (b, (A.y, A.x)) ∈ intents0)
    (honlyA : ∀ ip ∈ intents0, ip.2 = (A.y, A.x) → ip.1 = b)
    (honlyB : ∀ ip ∈ intents0, ip.2 = (B.y, B.x) → ip.1 = a)
    (hdistinct : ∀ i j ni nj, s.npcs.get? i = some ni → s.npcs.get? j = some nj →
      ni.alive = true → nj.alive = true → (ni.y, ni.x) = (nj.y, nj.x) → i = j)
    (hplayer : ∀ n ∈ s.npcs, n.alive = true →
      (n.y, n.x) ≠ (s.player_y, s.player_x)) :
    (resolveNpcMoves s intents0 sig).npcs.get? a = some A ∧
    (resolveNpcMoves s intents0 sig).npcs.get? b = some B := by
  have hne : (A.y, A.x) ≠ (B.y, B.x) := by
    intro hc
    rw [hc, manhattan_self] at hadj
    exact Nat.zero_ne_one hadj
  have hnA := swap_side_not_approved s intents0 sig hsig a b A B ha hb hA hB
    hkeys hdom hIA hIB honlyB hdistinct hplayer hne
  have hnB := swap_side_not_approved s intents0 sig hsig b a B A hb ha hB hA
    hkeys hdom hIB hIA honlyA hdistinct hplayer (fun hc => hne hc.symm)
  have hcommit : ∀ (i : Nat) (N : ANpc), s.npcs.get? i = some N →
      i ∉ approvedMoves s (blockPlayer s intents0) sig →
      (resolveNpcMoves s intents0 sig).npcs.get? i = some N := by
    intro i N hN hnap
    unfold resolveNpcMoves
    simp only
    rw [mapIdxFrom_get?, hN]
    simp only [Option.map_some', Option.some.injEq, Nat.zero_add]
    unfold commitNpc
    by_cases hal : N.alive = false
    · rw [if_pos hal]
    · rw [if_neg hal]
      simp only
      rw [if_neg (fun hc => hnap hc.1)]
  exact ⟨hcommit a A ha hnA, hcommit b B hb hnB⟩

/-- Witness input for C4: NPCs 0 and 1 adjacent at `(2, 2)`, `(2, 3)`,
each proposing the other's cell. -/
def c4World : World :=
  { map := c2Map, player_y := 0, player_x := 0, player_alive := true,
    npcs := [{ y := 2, x := 2, alive := true }, { y := 2, x := 3, alive := true }] }

def c4Intents : List (Nat × Pt) := [(0, (2, 3)), (1, (2, 2))]

theorem c4_witness :
    (∀ l : List Nat, (id l).Perm l) ∧
    ((resolveNpcMoves c4World c4Intents id).npcs.get? 0 =
      some { y := 2, x := 2, alive := true } ∧
     (resolveNpcMoves c4World c4Intents id).npcs.get? 1 =
      some { y := 2, x := 3, alive := true }) := by
  refine ⟨fun l => List.Perm.refl l, ?_⟩
  refine c4_headon_swap_blocked c4World c4Intents id (fun l => List.Perm.refl l)
    0 1 _ _ rfl rfl rfl rfl (by decide) (by decide) ?_ (by decide) (by decide)
    (by decide) (by decide) ?_ (by decide)
  · intro ip hip
    rcases List.mem_cons.mp hip with rfl | hip1
    · exact ⟨_, rfl, rfl⟩
    · rcases List.mem_cons.mp hip1 with rfl | hip2
      · exact ⟨_, rfl, rfl⟩
      · exact absurd hip2 (List.not_mem_nil ip)
  · intro i j ni nj hi hj hali halj hpos
    have hi2 : i < 2 := by
      by_contra hlt
      push_neg at hlt
      rw [List.get?_eq_none.mpr (by simpa using hlt)] at hi
      exact Option.noConfusion hi
    have hj2 : j < 2 := by
      by_contra hlt
      push_neg at hlt
      rw [List.get?_eq_none.mpr (by simpa using hlt)] at hj
      exact Option.noConfusion hj
    interval_cases i <;> interval_cases j <;> simp_all [c4World] <;>
      (rw [← hi, ← hj] at hpos; exact absurd hpos (by decide))

end OmuTui

namespace OmuTui

/-! ## Impostor kill phase (`Game.update`, lines 440-457; `kill_entity`,
lines 761-763)

The entities carry the fields this phase reads: name, position, alive
flag, role and kill cooldown.  `random.choice(victims)` is the oracle
`pick`, reduced modulo the victims-list length. -/

structure KEnt where
  name : String
  y : Int
  x : Int
  alive : Bool

structure KNpc where
  name : String
  y : Int
  x : Int
  alive : Bool
  role : String
  kill_cooldown : ℚ

structure Corpse where
  victim_name : String
  y : Int
  x : Int
  discovered : Bool := false

structure KillState where
  player : KEnt
  npcs : List KNpc
  corpses : List Corpse

def impostor_kill_range : Nat := 1

def impostor_kill_cooldown_time : ℚ := 7

/-- Update the element at one index of a list (field mutation on one
Python object held in a list). -/
def listSet {α : Type} : List α → Nat → (α → α) → List α
  | [], _, _ => []
  | n :: t, 0, f => f n :: t
  | n :: t, j + 1, f => n :: listSet t j f

def entAliveK (s : KillState) : Unit ⊕ Nat → Bool
  | Sum.inl _ => s.player.alive
  | Sum.inr j =>
    match s.npcs.get? j with
    | some n => n.alive
    | none => false

def entPosK (s : KillState) : Unit ⊕ Nat → Pt
  | Sum.inl _ => (s.player.y, s.player.x)
  | Sum.inr j =>
    match s.npcs.get? j with
    | some n => (n.y, n.x)
    | none => (0, 0)

def entNameK (s : KillState) : Unit ⊕ Nat → String
  | Sum.inl _ => s.player.name
  | Sum.inr j =>
    match s.npcs.get? j with
    | some n => n.name
    | none => ""

/-- `isinstance(ent, NPC) and ent.role == "impostor"`. -/
def entIsImpostorNpc (s : KillState) : Unit ⊕ Nat → Bool
  | Sum.inl _ => false
  | Sum.inr j =>
    match s.npcs.get? j with
    | some n => decide (n.role = "impostor")
    | none => false

/-- The victim candidates of the impostor at index `i`: every living
non-impostor entity other than itself within Manhattan distance 1,
scanned in `[self.player] + self.npcs` order. -/
def victims (s : KillState) (i : Nat) (npc : KNpc) : List (Unit ⊕ Nat) :=
  (Sum.inl () :: (List.range s.npcs.length).map Sum.inr).filter
    (fun e =>
      decide (e ≠ Sum.inr i) && entAliveK s e && !(entIsImpostorNpc s e) &&
      decide (manhattan (entPosK s e) (npc.y, npc.x) ≤ impostor_kill_range))

/-- `Game.kill_entity`: mark dead, emit a corpse at the entity's position. -/
def kill_entity (s : KillState) (e : Unit ⊕ Nat) : KillState :=
  match e with
  | Sum.inl _ =>
    { s with player := { s.player with alive := false },
             corpses := s.corpses ++
               [{ victim_name := s.player.name, y := s.player.y, x := s.player.x }] }
  | Sum.inr j =>
    { s with npcs := listSet s.npcs j (fun n => { n with alive := false }),
             corpses := s.corpses ++
               [{ victim_name := entNameK s (Sum.inr j),
                  y := (entPosK s (Sum.inr j)).1, x := (entPosK s (Sum.inr j)).2 }] }

/-- The victim selected by `random.choice(victims)` under the oracle
`pick` (reduced modulo the list length, so any element is selectable). -/
def chosenVictim (s : KillState) (pick : Nat → Nat) (i : Nat) (npc : KNpc) :
    Unit ⊕ Nat :=
  (victims s i npc).getD (pick i % (victims s i npc).length) (Sum.inl ())

/-- The body of the kill loop for the NPC at index `i`. -/
def killStep (pick : Nat → Nat) (s : KillState) (i : Nat) : KillState :=
  match s.npcs.get? i with
  | none => s
  | some npc =>
    if ¬ (npc.alive = true ∧ npc.role = "impostor") then s
    else if 0 < npc.kill_cooldown then s
    else if victims s i npc = [] then s
    else
      let s' := kill_entity s (chosenVictim s pick i npc)
      let rearm := fun n : KNpc => { n with kill_cooldown := impostor_kill_cooldown_time }
      { s' with npcs := listSet s'.npcs i rearm }

/-- The kill phase: the loop over `self.npcs` after movement has committed. -/
def killPhase (s : KillState) (pick : Nat → Nat) : KillState :=
  (List.range s.npcs.length).foldl (killStep pick) s

theorem listSet_get?_self {α : Type} (l : List α) (j : Nat) (f : α → α) :
    (listSet l j f).get? j = (l.get? j).map f := by
  induction l generalizing j with
  | nil => simp [listSet]
  | cons n t ih =>
    cases j with
    | zero => simp [listSet]
    | succ k => simpa [listSet] using ih k

theorem listSet_get?_ne {α : Type} (l : List α) (j k : Nat) (f : α → α)
    (h : k ≠ j) : (listSet l j f).get? k = l.get? k := by
  induction l generalizing j k with
  | nil => simp [listSet]
  | cons n t ih =>
    cases j with
    | zero =>
      cases k with
      | zero => exact absurd rfl h
      | succ k' => simp [listSet]
    | succ j' =>
      cases k with
      | zero => simp [listSet]
      | succ k' => simpa [listSet] using ih j' k' (fun hc => h (by rw [hc]))

end OmuTui

namespace OmuTui

theorem killStep_eq (pick : Nat → Nat) (s : KillState) (i : Nat) (npc : KNpc)
    (hi : s.npcs.get? i = some npc) :
    killStep pick s i =
      if ¬ (npc.alive = true ∧ npc.role = "impostor") then s
      else if 0 < npc.kill_cooldown then s
      else if victims s i npc = [] then s
      else
        { kill_entity s (chosenVictim s pick i npc) with
          npcs := listSet (kill_entity s (chosenVictim s pick i npc)).npcs i
            (fun n => { n with kill_cooldown := impostor_kill_cooldown_time }) } := by
  unfold killStep
  rw [hi]

theorem killStep_id (pick : Nat → Nat) (s : KillState) (j : Nat)
    (h : ∀ nj, s.npcs.get? j = some nj →
      ¬ (nj.alive = true ∧ nj.role = "impostor")) :
    killStep pick s j = s := by
  match hj : s.npcs.get? j with
  | none => unfold killStep; rw [hj]
  | some nj => rw [killStep_eq pick s j nj hj, if_pos (h nj hj)]

theorem foldl_killStep_id (pick : Nat → Nat) :
    ∀ (l : List Nat) (s : KillState),
      (∀ j ∈ l, ∀ nj, s.npcs.get? j = some nj →
        ¬ (nj.alive = true ∧ nj.role = "impostor")) →
      l.foldl (killStep pick) s = s := by
  intro l
  induction l with
  | nil => intro s _; rfl
  | cons j t ih =>
    intro s h
    rw [List.foldl_cons, killStep_id pick s j (h j (List.mem_cons_self j t))]
    exact ih s (fun j' hj' => h j' (List.mem_cons_of_mem _ hj'))

theorem victims_mem (s : KillState) (i : Nat) (npc : KNpc) (e : Unit ⊕ Nat)
    (he : e ∈ victims s i npc) :
    e ≠ Sum.inr i ∧ entAliveK s e = true ∧
    (e = Sum.inl () ∨ ∃ k, e = Sum.inr k ∧ k < s.npcs.length) := by
  unfold victims at he
  have h1 := List.mem_filter.mp he
  have h2 := h1.2
  simp only [Bool.and_eq_true, decide_eq_true_eq] at h2
  refine ⟨h2.1.1.1, h2.1.1.2, ?_⟩
  rcases List.mem_cons.mp h1.1 with heq | hmap
  · exact Or.inl heq
  · obtain ⟨k, hk, heq⟩ := List.mem_map.mp hmap
    exact Or.inr ⟨k, heq.symm, List.mem_range.mp hk⟩

theorem getD_mem_of_lt {α : Type} :
    ∀ (l : List α) (n : Nat) (d : α), n < l.length → l.getD n d ∈ l := by
  intro l
  induction l with
  | nil => intro n d h; simp at h
  | cons a t ih =>
    intro n d h
    cases n with
    | zero => simp [List.getD]
    | succ m =>
      have := ih m d (by simpa using h)
      simp only [List.getD] at this ⊢
      simpa using Or.inr this

theorem chosenVictim_mem (s : KillState) (pick : Nat → Nat) (i : Nat)
    (npc : KNpc) (hne : victims s i npc ≠ []) :
    chosenVictim s pick i npc ∈ victims s i npc := by
  unfold chosenVictim
  have hpos : 0 < (victims s i npc).length := List.length_pos.mpr hne
  exact getD_mem_of_lt _ _ _ (Nat.mod_lt _ hpos)

/-- C7: in the post-movement kill phase, the unique living impostor with
no remaining cooldown kills exactly the chosen victim when one is in
range, emitting one corpse at the victim's position and rearming to 7
seconds; with no victim in range, or with positive cooldown, the phase
changes nothing. -/
theorem c7_impostor_kill_phase
    (s : KillState) (pick : Nat → Nat) (i : Nat) (npc : KNpc)
    (hi : s.npcs.get? i = some npc)
    (halive : npc.alive = true) (himp : npc.role = "impostor")
    (hunique : ∀ j nj, s.npcs.get? j = some nj → nj.alive = true →
      nj.role = "impostor" → j = i) :
    (0 < npc.kill_cooldown → killPhase s pick = s) ∧
    (npc.kill_cooldown ≤ 0 → victims s i npc = [] → killPhase s pick = s) ∧
    (npc.kill_cooldown ≤ 0 → victims s i npc ≠ [] →
      chosenVictim s pick i npc ∈ victims s i npc ∧
      killPhase s pick =
        { kill_entity s (chosenVictim s pick i npc) with
          npcs := listSet (kill_entity s (chosenVictim s pick i npc)).npcs i
            (fun n => { n with kill_cooldown := impostor_kill_cooldown_time }) } ∧
      entAliveK (killPhase s pick) (chosenVictim s pick i npc) = false ∧
      (killPhase s pick).corpses = s.corpses ++
        [{ victim_name := entNameK s (chosenVictim s pick i npc),
           y := (entPosK s (chosenVictim s pick i npc)).1,
           x := (entPosK s (chosenVictim s pick i npc)).2 }] ∧
      (∃ n', (killPhase s pick).npcs.get? i = some n' ∧
        n'.kill_cooldown = impostor_kill_cooldown_time)) := by
  have hlen : i < s.npcs.length := by
    rcases List.get?_eq_some.mp hi with ⟨h, _⟩
    exact h
  have hmuniq : ∀ (st : KillState) (j : Nat), j ≠ i →
      (∀ nj', st.npcs.get? j = some nj' →
        (∃ nj, s.npcs.get? j = some nj ∧ nj'.role = nj.role ∧
          (nj'.alive = true → nj.alive = true))) →
      ∀ nj', st.npcs.get? j = some nj' →
        ¬ (nj'.alive = true ∧ nj'.role = "impostor") := by
    intro st j hji hrel nj' hj' hc
    obtain ⟨nj, hj, hrole, halv⟩ := hrel nj' hj'
    exact hji (hunique j nj hj (halv hc.1) (hrole ▸ hc.2))
  have hdecomp : List.range s.npcs.length =
      (List.range i ++ [i]) ++
        (List.range (s.npcs.length - i - 1)).map (fun x => (i + 1) + x) := by
    have h1 : s.npcs.length = (i + 1) + (s.npcs.length - i - 1) := by omega
    conv_lhs => rw [h1]
    rw [List.range_add, List.range_succ]
  have hpreid : (List.range i).foldl (killStep pick) s = s := by
    refine foldl_killStep_id pick _ s ?_
    intro j hj nj hjn hc
    have hji : j ≠ i := by
      have := List.mem_range.mp hj
      omega
    exact hji (hunique j nj hjn hc.1 hc.2)
  have hkp : killPhase s pick =
      ((List.range (s.npcs.length - i - 1)).map (fun x => (i + 1) + x)).foldl
        (killStep pick) (killStep pick s i) := by
    unfold killPhase
    rw [hdecomp, List.foldl_append, List.foldl_append, hpreid]
    rfl
  have hpostid : ∀ st : KillState,
      (∀ j, j ≠ i → ∀ nj', st.npcs.get? j = some nj' →
        (∃ nj, s.npcs.get? j = some nj ∧ nj'.role = nj.role ∧
          (nj'.alive = true → nj.alive = true))) →
      ((List.range (s.npcs.length - i - 1)).map (fun x => (i + 1) + x)).foldl
        (killStep pick) st = st := by
    intro st hrel
    refine foldl_killStep_id pick _ st ?_
    intro j hj nj' hjn
    obtain ⟨x, _, hx⟩ := List.mem_map.mp hj
    have hji : j ≠ i := by omega
    exact hmuniq st j hji (fun nj'' hjn'' => hrel j hji nj'' hjn'') nj' hjn
  refine ⟨?_, ?_, ?_⟩
  · intro hcd
    rw [hkp, killStep_eq pick s i npc hi, if_neg (fun hc => hc ⟨halive, himp⟩),
      if_pos hcd]
    exact hpostid s (fun j hji nj' hjn => ⟨nj', hjn, rfl, fun h => h⟩)
  · intro hcd hv
    rw [hkp, killStep_eq pick s i npc hi, if_neg (fun hc => hc ⟨halive, himp⟩),
      if_neg (not_lt.mpr hcd), if_pos hv]
    exact hpostid s (fun j hji nj' hjn => ⟨nj', hjn, rfl, fun h => h⟩)
  · intro hcd hv
    have hvic := chosenVictim_mem s pick i npc hv
    obtain ⟨hvicne, hvicalive, hviccase⟩ := victims_mem s i npc _ hvic
    have hstep : killStep pick s i =
        { kill_entity s (chosenVictim s pick i npc) with
          npcs := listSet (kill_entity s (chosenVictim s pick i npc)).npcs i
            (fun n => { n with kill_cooldown := impostor_kill_cooldown_time }) } := by
      rw [killStep_eq pick s i npc hi, if_neg (fun hc => hc ⟨halive, himp⟩),
        if_neg (not_lt.mpr hcd), if_neg hv]
    have hkenpcs : ∀ j, j ≠ i → ∀ nj',
        (kill_entity s (chosenVictim s pick i npc)).npcs.get? j = some nj' →
        (∃ nj, s.npcs.get? j = some nj ∧ nj'.role = nj.role ∧
          (nj'.alive = true → nj.alive = true)) := by
      intro j hji nj' hjn
      rcases hviccase with heq | ⟨k, heq, hk⟩
      · rw [heq] at hjn
        exact ⟨nj', hjn, rfl, fun h => h⟩
      · rw [heq] at hjn
        unfold kill_entity at hjn
        simp only at hjn
        by_cases hjk : j = k
        · rw [hjk, listSet_get?_self] at hjn
          match hjk2 : s.npcs.get? k with
          | none => rw [hjk2] at hjn; exact Option.noConfusion hjn
          | some nk =>
            rw [hjk2] at hjn
            simp only [Option.map_some', Option.some.injEq] at hjn
            refine ⟨nk, by rw [hjk]; exact hjk2, ?_, ?_⟩
            · rw [← hjn]
            · rw [← hjn]
              intro hfalse
              exact absurd hfalse (by simp)
        · rw [listSet_get?_ne _ _ _ _ hjk] at hjn
          exact ⟨nj', hjn, rfl, fun h => h⟩
    have hs2npcs : ∀ j, j ≠ i → ∀ nj',
        (killStep pick s i).npcs.get? j = some nj' →
        (∃ nj, s.npcs.get? j = some nj ∧ nj'.role = nj.role ∧
          (nj'.alive = true → nj.alive = true)) := by
      intro j hji nj' hjn
      rw [hstep] at hjn
      simp only at hjn
      rw [listSet_get?_ne _ _ _ _ hji] at hjn
      exact hkenpcs j hji nj' hjn
    have hfinal : killPhase s pick = killStep pick s i := by
      rw [hkp]
      exact hpostid (killStep pick s i) hs2npcs
    refine ⟨hvic, by rw [hfinal, hstep], ?_, ?_, ?_⟩
    · rw [hfinal, hstep]
      rcases hviccase with heq | ⟨k, heq, hk⟩
      · rw [heq]
        rfl
      · rw [heq]
        show entAliveK _ (Sum.inr k) = false
        have hkne : k ≠ i := fun hc => hvicne (by rw [heq, hc])
        unfold entAliveK
        simp only
        rw [listSet_get?_ne _ _ _ _ hkne]
        unfold kill_entity
        simp only
        rw [listSet_get?_self]
        match hks : s.npcs.get? k with
        | none => rfl
        | some nk => rfl
    · rw [hfinal, hstep]
      rcases hviccase with heq | ⟨k, heq, hk⟩
      · rw [heq]
        rfl
      · rw [heq]
        rfl
    · rw [hfinal, hstep]
      simp only
      rw [listSet_get?_self]
      have hke_i : (kill_entity s (chosenVictim s pick i npc)).npcs.get? i =
          some npc := by
        rcases hviccase with heq | ⟨k, heq, hk⟩
        · rw [heq]
          exact hi
        · have hkne : k ≠ i := fun hc => hvicne (by rw [heq, hc])
          rw [heq]
          unfold kill_entity
          simp only
          rw [listSet_get?_ne _ _ _ _ (fun hc => hkne hc.symm)]
          exact hi
      rw [hke_i]
      exact ⟨_, rfl, rfl⟩

end OmuTui

namespace OmuTui

/-- Witness input for C7: the impostor at `(0, 1)` with zero cooldown,
and the player at `(0, 0)` in kill range. -/
def c7State : KillState :=
  { player := { name := "You", y := 0, x := 0, alive := true },
    npcs := [{ name := "Red", y := 0, x := 1, alive := true, role := "impostor",
               kill_cooldown := 0 }],
    corpses := [] }

def c7Npc : KNpc :=
  { name := "Red", y := 0, x := 1, alive := true, role := "impostor",
    kill_cooldown := 0 }

theorem c7_witness :
    c7State.npcs.get? 0 = some c7Npc ∧ c7Npc.alive = true ∧
    c7Npc.role = "impostor" ∧
    ((0 < c7Npc.kill_cooldown → killPhase c7State (fun _ => 0) = c7State) ∧
     (c7Npc.kill_cooldown ≤ 0 → victims c7State 0 c7Npc = [] →
       killPhase c7State (fun _ => 0) = c7State) ∧
     (c7Npc.kill_cooldown ≤ 0 → victims c7State 0 c7Npc ≠ [] →
       chosenVictim c7State (fun _ => 0) 0 c7Npc ∈ victims c7State 0 c7Npc ∧
       killPhase c7State (fun _ => 0) =
         { kill_entity c7State (chosenVictim c7State (fun _ => 0) 0 c7Npc) with
           npcs := listSet (kill_entity c7State
               (chosenVictim c7State (fun _ => 0) 0 c7Npc)).npcs 0
             (fun n => { n with kill_cooldown := impostor_kill_cooldown_time }) } ∧
       entAliveK (killPhase c7State (fun _ => 0))
         (chosenVictim c7State (fun _ => 0) 0 c7Npc) = false ∧
       (killPhase c7State (fun _ => 0)).corpses = c7State.corpses ++
         [{ victim_name := entNameK c7State (chosenVictim c7State (fun _ => 0) 0 c7Npc),
            y := (entPosK c7State (chosenVictim c7State (fun _ => 0) 0 c7Npc)).1,
            x := (entPosK c7State (chosenVictim c7State (fun _ => 0) 0 c7Npc)).2 }] ∧
       (∃ n', (killPhase c7State (fun _ => 0)).npcs.get? 0 = some n' ∧
         n'.kill_cooldown = impostor_kill_cooldown_time))) := by
  have huniq : ∀ j nj, c7State.npcs.get? j = some nj → nj.alive = true →
      nj.role = "impostor" → j = 0 := by
    intro j nj hj h1 h2
    cases j with
    | zero => rfl
    | succ m => exact Option.noConfusion hj
  refine ⟨rfl, rfl, rfl, ?_⟩
  exact c7_impostor_kill_phase c7State (fun _ => 0) 0 c7Npc rfl rfl rfl huniq

end OmuTui

namespace OmuTui

/-! ## Meeting-vote resolution (`Game.resolve_meeting_vote`, lines 584-633)

Candidates are NPC indices in `meeting_candidates` order (shuffled at
trigger time).  Each voter's `random.random()` draw is `rs t` for the
`t`-th voter, and the tie-breaking `random.random()` key of the `n`-th
tally entry is `kap n`. -/

structure MNpc where
  name : String
  alive : Bool
  role : String

structure MeetingState where
  npcs : List MNpc
  meeting_candidates : List Nat
  meeting_selection_idx : Nat
  corpses : List Corpse
  meeting_mode : Bool
  meeting_message : String
  running : Bool

def mroleOf (npcs : List MNpc) (i : Nat) : String :=
  match npcs.get? i with
  | some n => n.role
  | none => ""

def mnameOf (npcs : List MNpc) (i : Nat) : String :=
  match npcs.get? i with
  | some n => n.name
  | none => ""

/-- The weight of one option: `0.9` for Skip (`none`), `1.0 + 0.4` for an
Impostor candidate, `1.0` otherwise. -/
def voteWeight (npcs : List MNpc) : Option Nat → ℚ
  | none => 9/10
  | some c => 1 + (if mroleOf npcs c = "impostor" then 4/10 else 0)

def totalWeight (npcs : List MNpc) (cps : List (Option Nat)) : ℚ :=
  (cps.map (voteWeight npcs)).sum

/-- The cumulative-weights scan: the first option whose running total
reaches the draw `r`; `none` if the scan falls through. -/
def pickChoice (npcs : List MNpc) :
    List (Option Nat) → ℚ → ℚ → Option (Option Nat)
  | [], _, _ => none
  | c :: rest, r, cum =>
    let cum' := cum + voteWeight npcs c
    if r ≤ cum' then some c else pickChoice npcs rest r cum'

/-- `votes[key] += 1` on a `defaultdict(int)` in insertion order. -/
def addVote : List (Option Nat × Nat) → Option Nat → List (Option Nat × Nat)
  | [], c => [(c, 1)]
  | e :: t, c => if e.1 = c then (e.1, e.2 + 1) :: t else e :: addVote t c

/-- The living NPCs (`voters`), by index in `self.npcs` order. -/
def livingIndices (npcs : List MNpc) : List Nat :=
  (List.range npcs.length).filter
    (fun j =>
      match npcs.get? j with
      | some n => n.alive
      | none => false)

/-- The NPC voter loop: voter `t` draws `rs t`, scaled by the summed
weights, and the picked option's tally is incremented. -/
def voterFold (npcs : List MNpc) (cps : List (Option Nat)) (rs : Nat → ℚ) :
    List Nat → Nat → List (Option Nat × Nat) → List (Option Nat × Nat)
  | [], _, votes => votes
  | _ :: rest, t, votes =>
    let r := rs t * totalWeight npcs cps
    let key := (pickChoice npcs cps r 0).getD none
    voterFold npcs cps rs rest (t + 1) (addVote votes key)

/-- `sorted(votes.items(), key=lambda kv: (-kv[1], random()))[0][0]`: the
entry with the strictly best `(count, tie-key)` pair, earliest on exact
ties (Python's sort is stable). -/
def selectWinnerGo (kap : Nat → ℚ) :
    List (Option Nat × Nat) → Nat → (Option Nat × Nat) → Nat → Option Nat
  | [], _, best, _ => best.1
  | e :: rest, idx, best, bidx =>
    if best.2 < e.2 ∨ (e.2 = best.2 ∧ kap idx < kap bidx) then
      selectWinnerGo kap rest (idx + 1) e idx
    else
      selectWinnerGo kap rest (idx + 1) best bidx

def selectWinner (items : List (Option Nat × Nat)) (kap : Nat → ℚ) :
    Option Nat :=
  match items with
  | [] => none
  | e :: rest => selectWinnerGo kap rest 1 e 0

/-- The winning option of the tally (the candidate index, or `none` for
Skip): player vote first, then the weighted NPC votes, then the
randomized-tie sort's first entry. -/
def meetingWinner (g : MeetingState) (rs : Nat → ℚ) (kap : Nat → ℚ) :
    Option Nat :=
  let player_vote_skip := g.meeting_selection_idx = g.meeting_candidates.length
  let voted_out : Option Nat :=
    if ¬ player_vote_skip ∧ g.meeting_candidates ≠ [] then
      g.meeting_candidates.get? g.meeting_selection_idx
    else none
  let voters := livingIndices g.npcs
  let cps : List (Option Nat) := g.meeting_candidates.map some ++ [none]
  let votes0 := addVote [] (if player_vote_skip then none else voted_out)
  let votes := voterFold g.npcs cps rs voters 0 votes0
  selectWinner votes kap

/-- `Game.resolve_meeting_vote`. -/
def resolveMeetingVote (g : MeetingState) (rs : Nat → ℚ) (kap : Nat → ℚ) :
    MeetingState :=
  match meetingWinner g rs kap with
  | none =>
    { g with meeting_message := "No one was ejected (skipped).",
             corpses := [], meeting_mode := false }
  | some c =>
    if mroleOf g.npcs c = "impostor" then
      { g with npcs := listSet g.npcs c (fun n => { n with alive := false }),
               meeting_message := mnameOf g.npcs c ++ " was an Impostor. Crewmates win!",
               running := false }
    else
      { g with npcs := listSet g.npcs c (fun n => { n with alive := false }),
               meeting_message := mnameOf g.npcs c ++ " was not an Impostor.",
               corpses := [], meeting_mode := false }

/-- C3 (amended): a meeting-vote resolution whose winning option is Skip
or a non-Impostor candidate clears the corpse list, leaves meeting mode,
and keeps the game running as it was; the Impostor-ejection outcome
instead ends the game on the spot (`running := false`), returning early
with the corpse list and meeting mode untouched. -/
theorem c3_resolution_clears_corpses_or_ends_game
    (g : MeetingState) (rs kap : Nat → ℚ) :
    (meetingWinner g rs kap = none →
      (resolveMeetingVote g rs kap).corpses = [] ∧
      (resolveMeetingVote g rs kap).meeting_mode = false ∧
      (resolveMeetingVote g rs kap).running = g.running) ∧
    (∀ c, meetingWinner g rs kap = some c →
      mroleOf g.npcs c ≠ "impostor" →
      (resolveMeetingVote g rs kap).corpses = [] ∧
      (resolveMeetingVote g rs kap).meeting_mode = false ∧
      (resolveMeetingVote g rs kap).running = g.running) ∧
    (∀ c, meetingWinner g rs kap = some c →
      mroleOf g.npcs c = "impostor" →
      (resolveMeetingVote g rs kap).running = false ∧
      (resolveMeetingVote g rs kap).corpses = g.corpses ∧
      (resolveMeetingVote g rs kap).meeting_mode = g.meeting_mode) := by
  refine ⟨?_, ?_, ?_⟩
  · intro h
    have hred : resolveMeetingVote g rs kap =
        { g with
          meeting_message := "No one was ejected (skipped).",
          corpses := [], meeting_mode := false } := by
      unfold resolveMeetingVote
      rw [h]
    rw [hred]
    exact ⟨rfl, rfl, rfl⟩
  · intro c h hrole
    have hred : resolveMeetingVote g rs kap =
        { g with
          npcs := listSet g.npcs c (fun n => { n with alive := false }),
          meeting_message := mnameOf g.npcs c ++ " was not an Impostor.",
          corpses := [], meeting_mode := false } := by
      unfold resolveMeetingVote
      rw [h]
      show (if mroleOf g.npcs c = "impostor" then _ else _) = _
      rw [if_neg hrole]
    rw [hred]
    exact ⟨rfl, rfl, rfl⟩
  · intro c h hrole
    have hred : resolveMeetingVote g rs kap =
        { g with
          npcs := listSet g.npcs c (fun n => { n with alive := false }),
          meeting_message := mnameOf g.npcs c ++ " was an Impostor. Crewmates win!",
          running := false } := by
      unfold resolveMeetingVote
      rw [h]
      show (if mroleOf g.npcs c = "impostor" then _ else _) = _
      rw [if_pos hrole]
    rw [hred]
    exact ⟨rfl, rfl, rfl⟩

end OmuTui

namespace OmuTui

/-- C3 counterexample input: one living NPC (the Impostor) as the sole
candidate, the player's cursor on it, one undiscovered corpse. -/
def c3State : MeetingState :=
  { npcs := [{ name := "Cyan", alive := true, role := "impostor" }],
    meeting_candidates := [0], meeting_selection_idx := 0,
    corpses := [{ victim_name := "Lime", y := 3, x := 3 }],
    meeting_mode := true, meeting_message := "", running := true }

theorem c3_winner : meetingWinner c3State (fun _ => 0) (fun _ => 0) = some 0 := by
  unfold meetingWinner c3State
  norm_num [livingIndices, voterFold, totalWeight, voteWeight, mroleOf,
    pickChoice, addVote, selectWinner, selectWinnerGo]

/-- C3 (counterexample): resolving the vote that ejects the Impostor
returns early — the corpse list is left non-empty and meeting mode stays
on (the game ends instead, `running = false`), contradicting the claim
that every resolution empties the corpses and returns to Idle. -/
theorem c3_impostor_ejection_skips_cleanup :
    (resolveMeetingVote c3State (fun _ => 0) (fun _ => 0)).corpses ≠ [] ∧
    (resolveMeetingVote c3State (fun _ => 0) (fun _ => 0)).meeting_mode = true ∧
    (resolveMeetingVote c3State (fun _ => 0) (fun _ => 0)).running = false := by
  have hres : resolveMeetingVote c3State (fun _ => 0) (fun _ => 0) =
      { c3State with
        npcs := listSet c3State.npcs 0 (fun n => { n with alive := false }),
        meeting_message := mnameOf c3State.npcs 0 ++ " was an Impostor. Crewmates win!",
        running := false } := by
    unfold resolveMeetingVote
    rw [c3_winner]
    show (if mroleOf c3State.npcs 0 = "impostor" then _ else _) = _
    rw [if_pos (show mroleOf c3State.npcs 0 = "impostor" from rfl)]
  refine ⟨?_, ?_, ?_⟩
  · rw [hres]
    exact List.cons_ne_nil _ _
  · rw [hres]
    rfl
  · rw [hres]

/-- C3 witness input: a lone living crew NPC as the only candidate, the
player's cursor on it, one pending corpse. -/
def c3CrewState : MeetingState :=
  { npcs := [{ name := "Red", alive := true, role := "crew" }],
    meeting_candidates := [0], meeting_selection_idx := 0,
    corpses := [{ victim_name := "Lime", y := 3, x := 3 }],
    meeting_mode := true, meeting_message := "", running := true }

theorem c3_crew_winner :
    meetingWinner c3CrewState (fun _ => 0) (fun _ => 0) = some 0 := by
  unfold meetingWinner c3CrewState
  norm_num [livingIndices, voterFold, totalWeight, voteWeight, mroleOf,
    pickChoice, addVote, selectWinner, selectWinnerGo,
    show ("crew" : String) ≠ "impostor" by decide]

theorem c3_witness :
    meetingWinner c3CrewState (fun _ => 0) (fun _ => 0) = some 0 ∧
    mroleOf c3CrewState.npcs 0 ≠ "impostor" ∧
    ((resolveMeetingVote c3CrewState (fun _ => 0) (fun _ => 0)).corpses = [] ∧
     (resolveMeetingVote c3CrewState (fun _ => 0) (fun _ => 0)).meeting_mode =
       false ∧
     (resolveMeetingVote c3CrewState (fun _ => 0) (fun _ => 0)).running =
       c3CrewState.running) :=
  ⟨c3_crew_winner, by decide,
    (c3_resolution_clears_corpses_or_ends_game c3CrewState (fun _ => 0)
      (fun _ => 0)).2.1 0 c3_crew_winner (by decide)⟩


end OmuTui

namespace OmuTui

/-! ## A* pathfinding (`Game.astar_path`, lines 512-560)

`heapq` stores tuples `(f, g, (y, x))` compared lexicographically;
`heappop` returns the least tuple of the multiset, so the heap is a list
with a remove-minimum operation.  Dicts `came_from` and `g_score` are the
association lists from above. -/

/-- A heap entry `(f, g, (y, x))`. -/
abbrev Entry := Nat × Nat × Pt

/-- Lexicographic tuple order of `heapq` entries. -/
def entryLe (a b : Entry) : Prop :=
  a.1 < b.1 ∨ (a.1 = b.1 ∧ (a.2.1 < b.2.1 ∨ (a.2.1 = b.2.1 ∧
    (a.2.2.1 < b.2.2.1 ∨ (a.2.2.1 = b.2.2.1 ∧ a.2.2.2 ≤ b.2.2.2)))))

instance (a b : Entry) : Decidable (entryLe a b) := by
  unfold entryLe; infer_instance

/-- The least entry among `m :: l`. -/
def heapMinVal : Entry → List Entry → Entry
  | m, [] => m
  | m, e :: t => if entryLe e m then heapMinVal e t else heapMinVal m t

/-- `heapq.heappop`: the least tuple and the remaining multiset. -/
def popMin (l : List Entry) : Option (Entry × List Entry) :=
  match l with
  | [] => none
  | e :: t => some (heapMinVal e t, (e :: t).erase (heapMinVal e t))

/-- `g_score.get(p, 1_000_000_000)`. -/
def gscoreD (m : List (Pt × Nat)) (p : Pt) : Nat := (alook m p).getD 1000000000

/-- Neighbour offsets, in source order. -/
def nb4 : List Pt := [(-1, 0), (1, 0), (0, -1), (0, 1)]

structure AState where
  heap : List Entry
  came : List (Pt × Option Pt)
  gsc : List (Pt × Nat)
  closed : List Pt

/-- One neighbour relaxation of the popped node `cur` with entry g-value
`g` (`nxt` is `(cur.1 + d.1, cur.2 + d.2)`). -/
def expandOne (G : GameMap) (goal : Pt) (blocked : List Pt) (cur : Pt)
    (g : Nat) (st : AState) (d : Pt) : AState :=
  if ¬ is_walkable G (cur.1 + d.1) (cur.2 + d.2) then st
  else if (cur.1 + d.1, cur.2 + d.2) ∈ blocked ∧ (cur.1 + d.1, cur.2 + d.2) ≠ goal then st
  else if g + 1 < gscoreD st.gsc (cur.1 + d.1, cur.2 + d.2) then
    { heap := (g + 1 + manhattan (cur.1 + d.1, cur.2 + d.2) goal, g + 1,
        (cur.1 + d.1, cur.2 + d.2)) :: st.heap,
      came := aupd st.came (cur.1 + d.1, cur.2 + d.2) (some cur),
      gsc := aupd st.gsc (cur.1 + d.1, cur.2 + d.2) (g + 1),
      closed := st.closed }
  else st

/-- The `while open_heap` loop, with explicit fuel (`none` = ran out). -/
def astarLoop (G : GameMap) (goal : Pt) (blocked : List Pt) :
    Nat → AState → Option AState
  | 0, _ => none
  | fuel + 1, st =>
    match popMin st.heap with
    | none => some st
    | some (e, heap') =>
      if e.2.2 ∈ st.closed then
        astarLoop G goal blocked fuel { st with heap := heap' }
      else if e.2.2 = goal then
        some { st with heap := heap', closed := e.2.2 :: st.closed }
      else
        astarLoop G goal blocked fuel
          (nb4.foldl (expandOne G goal blocked e.2.2 e.2.1)
            { st with heap := heap', closed := e.2.2 :: st.closed })

/-- Path reconstruction (`while cur is not None and cur != start`),
accumulating in reverse so `acc` ends as the step-after-start..goal list. -/
def reconstruct (cf : List (Pt × Option Pt)) (start : Pt) :
    Nat → Option Pt → List Pt → Option (List Pt)
  | 0, _, _ => none
  | _ + 1, none, acc => some acc
  | fuel + 1, some cur, acc =>
    if cur = start then some acc
    else
      match alook cf cur with
      | none => none
      | some par => reconstruct cf start fuel par (cur :: acc)

/-- `Game.astar_path`. -/
def astar_path (G : GameMap) (start goal : Pt) (blocked : List Pt)
    (fuel : Nat) : Option (List Pt) :=
  if start = goal then some []
  else if ¬ is_walkable G goal.1 goal.2 then some []
  else
    match astarLoop G goal blocked fuel
      { heap := [(manhattan start goal, 0, start)],
        came := [(start, none)], gsc := [(start, 0)], closed := [] } with
    | none => none
    | some st =>
      if (alook st.came goal).isNone then some []
      else reconstruct st.came start fuel (some goal) []

end OmuTui

namespace OmuTui

theorem entryLe_total (a b : Entry) : entryLe a b ∨ entryLe b a := by
  unfold entryLe; omega

theorem entryLe_trans {a b c : Entry} (h1 : entryLe a b) (h2 : entryLe b c) :
    entryLe a c := by
  unfold entryLe at h1 h2 ⊢; omega

theorem entryLe_refl (a : Entry) : entryLe a a := by
  unfold entryLe; omega

theorem heapMinVal_cases (m : Entry) (l : List Entry) :
    heapMinVal m l = m ∨ heapMinVal m l ∈ l := by
  induction l generalizing m with
  | nil => exact Or.inl rfl
  | cons e t ih =>
    unfold heapMinVal
    by_cases hc : entryLe e m
    · rw [if_pos hc]
      rcases ih e with h | h
      · exact Or.inr (by rw [h]; exact List.mem_cons_self e t)
      · exact Or.inr (List.mem_cons_of_mem e h)
    · rw [if_neg hc]
      rcases ih m with h | h
      · exact Or.inl h
      · exact Or.inr (List.mem_cons_of_mem e h)

theorem heapMinVal_le (m : Entry) (l : List Entry) :
    entryLe (heapMinVal m l) m ∧ ∀ x ∈ l, entryLe (heapMinVal m l) x := by
  induction l generalizing m with
  | nil => exact ⟨entryLe_refl m, by simp⟩
  | cons e t ih =>
    unfold heapMinVal
    by_cases hc : entryLe e m
    · rw [if_pos hc]
      obtain ⟨h1, h2⟩ := ih e
      refine ⟨entryLe_trans h1 hc, ?_⟩
      intro x hx
      rcases List.mem_cons.mp hx with rfl | hx
      · exact h1
      · exact h2 x hx
    · rw [if_neg hc]
      obtain ⟨h1, h2⟩ := ih m
      have hme : entryLe m e := (entryLe_total m e).resolve_right
        (fun h => hc h)
      refine ⟨h1, ?_⟩
      intro x hx
      rcases List.mem_cons.mp hx with rfl | hx
      · exact entryLe_trans h1 hme
      · exact h2 x hx

theorem popMin_none_iff (l : List Entry) : popMin l = none ↔ l = [] := by
  cases l with
  | nil => simp [popMin]
  | cons e t => simp [popMin]

theorem popMin_spec (l : List Entry) (e : Entry) (l' : List Entry)
    (h : popMin l = some (e, l')) :
    e ∈ l ∧ l' = l.erase e ∧ (∀ x ∈ l, entryLe e x) := by
  cases l with
  | nil => simp [popMin] at h
  | cons a t =>
    have hh : heapMinVal a t = e ∧ (a :: t).erase (heapMinVal a t) = l' := by
      simpa [popMin] using h
    obtain ⟨h1, h2⟩ := hh
    have hmem : e ∈ a :: t := by
      rcases heapMinVal_cases a t with hm | hm
      · rw [← h1, hm]; exact List.mem_cons_self a t
      · rw [← h1]; exact List.mem_cons_of_mem a hm
    have hle := heapMinVal_le a t
    refine ⟨hmem, by rw [← h2, h1], ?_⟩
    intro x hx
    rcases List.mem_cons.mp hx with rfl | hx
    · rw [← h1]; exact hle.1
    · rw [← h1]; exact hle.2 x hx

theorem mem_erase_of_ne_val {l : List Entry} {a b : Entry}
    (hne : a ≠ b) (ha : a ∈ l) : a ∈ l.erase b := by
  rw [List.mem_erase_of_ne hne]
  exact ha

/-! ### Association-list bookkeeping for `aupd` -/

theorem alook_eq_none_iff {β : Type} :
    ∀ (m : List (Pt × β)) (k : Pt), alook m k = none ↔ k ∉ m.map Prod.fst := by
  intro m
  induction m with
  | nil => intro k; simp [alook]
  | cons e t ih =>
    intro k
    by_cases he : e.1 = k
    · simp [alook, he]
    · simp only [alook, if_neg he, List.map_cons, List.mem_cons, ih]
      constructor
      · intro h hc
        rcases hc with hc | hc
        · exact he hc.symm
        · exact h hc
      · intro h hc
        exact h (Or.inr hc)

theorem adel_map_fst {β : Type} :
    ∀ (m : List (Pt × β)) (k : Pt),
      (adel m k).map Prod.fst = (m.map Prod.fst).filter (fun x => decide (¬ x = k)) := by
  intro m
  induction m with
  | nil => intro k; rfl
  | cons e t ih =>
    intro k
    by_cases he : e.1 = k
    · simp [adel, he, List.filter_cons, ih]
    · simp [adel, he, List.filter_cons, ih]

theorem adel_eq_self_of_not_mem {β : Type} :
    ∀ (m : List (Pt × β)) (k : Pt), k ∉ m.map Prod.fst → adel m k = m := by
  intro m
  induction m with
  | nil => intro k _; rfl
  | cons e t ih =>
    intro k hk
    rw [List.map_cons, List.mem_cons] at hk
    push_neg at hk
    rw [adel, if_neg (fun hc => hk.1 hc.symm)]
    rw [ih k hk.2]

theorem aupd_keys_nodup {β : Type} (m : List (Pt × β)) (k : Pt) (v : β)
    (h : (m.map Prod.fst).Nodup) : ((aupd m k v).map Prod.fst).Nodup := by
  unfold aupd
  rw [List.map_cons, List.nodup_cons, adel_map_fst]
  constructor
  · intro hc
    have := (List.mem_filter.mp hc).2
    simp at this
  · exact h.filter _

theorem nodup_length_le_filter_ne (k : Pt) :
    ∀ (l : List Pt), l.Nodup →
      l.length ≤ 1 + (l.filter (fun x => decide (¬ x = k))).length := by
  intro l
  induction l with
  | nil => intro _; simp
  | cons a t ih =>
    intro hnd
    rw [List.nodup_cons] at hnd
    by_cases ha : a = k
    · have hkt : ∀ x ∈ t, ¬ x = k := by
        intro x hx hc
        exact hnd.1 (by rw [ha, ← hc]; exact hx)
      have : t.filter (fun x => decide (¬ x = k)) = t :=
        List.filter_eq_self.mpr (fun x hx => by simpa using hkt x hx)
      rw [List.filter_cons, if_neg (by simpa using ha), this]
      simp
      omega
    · rw [List.filter_cons, if_pos (by simpa using ha)]
      have := ih hnd.2
      simp only [List.length_cons]
      omega

theorem aupd_length_ge {β : Type} (m : List (Pt × β)) (k : Pt) (v : β)
    (hnd : (m.map Prod.fst).Nodup) : m.length ≤ (aupd m k v).length := by
  have h1 : (aupd m k v).length = 1 + (adel m k).length := by
    simp [aupd]
    omega
  have h2 : (adel m k).length = ((m.map Prod.fst).filter
      (fun x => decide (¬ x = k))).length := by
    rw [← adel_map_fst, List.length_map]
  have h3 : m.length = (m.map Prod.fst).length := (List.length_map _ _).symm
  rw [h1, h2, h3]
  exact nodup_length_le_filter_ne k _ hnd

theorem aupd_length_new {β : Type} (m : List (Pt × β)) (k : Pt) (v : β)
    (habs : alook m k = none) : (aupd m k v).length = m.length + 1 := by
  unfold aupd
  rw [adel_eq_self_of_not_mem m k ((alook_eq_none_iff m k).mp habs)]
  simp

end OmuTui

namespace OmuTui

/-- A cell a step may enter: walkable and not blocked (the goal being
exempt from the blocked set, per the `nxt != goal` guard). -/
def allowedP (G : GameMap) (goal : Pt) (blocked : List Pt) (p : Pt) : Prop :=
  walkP G p ∧ (p ∉ blocked ∨ p = goal)

instance (G : GameMap) (goal : Pt) (blocked : List Pt) (p : Pt) :
    Decidable (allowedP G goal blocked p) := by
  unfold allowedP; infer_instance

/-- Reachability from `a` through cells satisfying `allow`, by unit
4-neighbour steps (`a` itself is unconstrained, matching the search's
treatment of `start`). -/
inductive Reach (allow : Pt → Prop) : Pt → Pt → Prop
  | refl (a : Pt) : Reach allow a a
  | tail {a b c : Pt} : Reach allow a b → manhattan b c = 1 → allow c →
      Reach allow a c

theorem nb4_manhattan (p : Pt) (d : Pt) (hd : d ∈ nb4) :
    manhattan p (p.1 + d.1, p.2 + d.2) = 1 := by
  have hcases : d = (-1, 0) ∨ d = (1, 0) ∨ d = (0, -1) ∨ d = (0, 1) := by
    simpa [nb4] using hd
  rcases hcases with rfl | rfl | rfl | rfl <;> (unfold manhattan; simp)

theorem adjacent_iff_nb4 (p q : Pt) (h : manhattan p q = 1) :
    ∃ d ∈ nb4, q = (p.1 + d.1, p.2 + d.2) := by
  unfold manhattan at h
  have hq : q = (q.1, q.2) := rfl
  have h1 : (q.1 = p.1 - 1 ∧ q.2 = p.2) ∨ (q.1 = p.1 + 1 ∧ q.2 = p.2) ∨
      (q.1 = p.1 ∧ q.2 = p.2 - 1) ∨ (q.1 = p.1 ∧ q.2 = p.2 + 1) := by
    omega
  rcases h1 with ⟨h1, h2⟩ | ⟨h1, h2⟩ | ⟨h1, h2⟩ | ⟨h1, h2⟩
  · refine ⟨(-1, 0), by simp [nb4], ?_⟩
    rw [hq, h1, h2]
    show ((p.1 - 1, p.2) : Pt) = (p.1 + -1, p.2 + 0)
    rw [add_zero, Int.add_neg_one]
  · refine ⟨(1, 0), by simp [nb4], ?_⟩
    rw [hq, h1, h2]
    show ((p.1 + 1, p.2) : Pt) = (p.1 + 1, p.2 + 0)
    rw [add_zero]
  · refine ⟨(0, -1), by simp [nb4], ?_⟩
    rw [hq, h1, h2]
    show ((p.1, p.2 - 1) : Pt) = (p.1 + 0, p.2 + -1)
    rw [add_zero, Int.add_neg_one]
  · refine ⟨(0, 1), by simp [nb4], ?_⟩
    rw [hq, h1, h2]
    show ((p.1, p.2 + 1) : Pt) = (p.1 + 0, p.2 + 1)
    rw [add_zero]

/-- All in-bounds cells (`h*w` of them). -/
def allCells (G : GameMap) : List Pt :=
  (List.range (G.height * G.width)).map
    (fun n => ((↑(n / G.width) : Int), (↑(n % G.width) : Int)))

theorem allCells_length (G : GameMap) :
    (allCells G).length = G.height * G.width := by
  simp [allCells]

theorem mem_allCells (G : GameMap) (p : Pt)
    (h : is_in_bounds G p.1 p.2) : p ∈ allCells G := by
  obtain ⟨h1, h2, h3, h4⟩ := h
  have hw : 0 < G.width := by
    rcases Nat.eq_zero_or_pos G.width with hz | hp
    · rw [hz] at h4; omega
    · exact hp
  refine List.mem_map.mpr ⟨p.1.toNat * G.width + p.2.toNat, ?_, ?_⟩
  · rw [List.mem_range]
    have hy : p.1.toNat < G.height := by omega
    have hx : p.2.toNat < G.width := by omega
    calc p.1.toNat * G.width + p.2.toNat < p.1.toNat * G.width + G.width := by omega
      _ = (p.1.toNat + 1) * G.width := by ring
      _ ≤ G.height * G.width := Nat.mul_le_mul_right _ (by omega)
  · have hx : p.2.toNat < G.width := by omega
    have hdiv : (p.1.toNat * G.width + p.2.toNat) / G.width = p.1.toNat := by
      rw [Nat.mul_comm p.1.toNat G.width]
      rw [Nat.mul_add_div hw, Nat.div_eq_of_lt hx]
      omega
    have hmod : (p.1.toNat * G.width + p.2.toNat) % G.width = p.2.toNat := by
      rw [Nat.mul_comm p.1.toNat G.width, Nat.mul_add_mod, Nat.mod_eq_of_lt hx]
    rw [hdiv, hmod]
    have : (↑p.1.toNat : Int) = p.1 := Int.toNat_of_nonneg h1
    have h2' : (↑p.2.toNat : Int) = p.2 := Int.toNat_of_nonneg h3
    rw [this, h2']

/-- The obstacle-free grid of C5. -/
def allFloor (h w : Nat) : GameMap :=
  { height := h, width := w, map := List.replicate h (List.replicate w '.') }

theorem cellAt_allFloor (h w : Nat) (y x : Int) (hy : 0 ≤ y) (hy2 : y < (h : Int))
    (hx : 0 ≤ x) (hx2 : x < (w : Int)) : cellAt (allFloor h w) y x = '.' := by
  unfold cellAt allFloor
  simp only
  have hyl : y.toNat < (List.replicate h (List.replicate w '.')).length := by
    simp
    omega
  rw [List.get?_eq_get hyl]
  simp only [List.get_replicate, Option.some_bind]
  have hxl : x.toNat < (List.replicate w '.').length := by
    simp
    omega
  rw [List.get?_eq_get hxl]
  simp [List.get_replicate]

theorem allFloor_walk (h w : Nat) (p : Pt)
    (hb : is_in_bounds (allFloor h w) p.1 p.2) : walkP (allFloor h w) p := by
  refine ⟨hb, ?_⟩
  obtain ⟨h1, h2, h3, h4⟩ := hb
  have hh : ((allFloor h w).height : Int) = (h : Int) := rfl
  have hww : ((allFloor h w).width : Int) = (w : Int) := rfl
  rw [hh] at h2
  rw [hww] at h4
  rw [cellAt_allFloor h w p.1 p.2 h1 h2 h3 h4]
  simp

theorem allFloor_allowed_iff (h w : Nat) (goal : Pt) (p : Pt) :
    allowedP (allFloor h w) goal [] p ↔ is_in_bounds (allFloor h w) p.1 p.2 := by
  constructor
  · intro ha
    exact ha.1.1
  · intro hb
    exact ⟨allFloor_walk h w p hb, Or.inl (List.not_mem_nil p)⟩

end OmuTui

namespace OmuTui

/-- Every allowed neighbour of `p` has been discovered. -/
def ExpandedAt (G : GameMap) (goal : Pt) (blocked : List Pt)
    (gsc : List (Pt × Nat)) (p : Pt) : Prop :=
  ∀ d ∈ nb4, allowedP G goal blocked (p.1 + d.1, p.2 + d.2) →
    (alook gsc (p.1 + d.1, p.2 + d.2)).isSome

/-- The search invariant: heap entries carry `f = g + h` with `g` at
least the Manhattan lower bound and at least the current g-score of
their cell; discovered cells have a parent chain with strictly
decreasing g-scores over allowed cells; every open (non-closed)
discovered cell keeps its current-score entry in the heap; all scores
are bounded by the number of discovered cells. -/
structure CoreInv (G : GameMap) (start goal : Pt) (blocked : List Pt)
    (st : AState) : Prop where
  hEntry : ∀ e ∈ st.heap, manhattan start e.2.2 ≤ e.2.1 ∧
    e.1 = e.2.1 + manhattan e.2.2 goal ∧
    ∃ gs, alook st.gsc e.2.2 = some gs ∧ gs ≤ e.2.1
  gLower : ∀ p gs, alook st.gsc p = some gs → manhattan start p ≤ gs
  gStart : alook st.gsc start = some 0
  cStart : alook st.came start = some none
  domEq : ∀ p, (alook st.gsc p).isSome ↔ (alook st.came p).isSome
  cameOk : ∀ p op, alook st.came p = some op → p ≠ start →
    ∃ q gp gq, op = some q ∧ manhattan q p = 1 ∧
      alook st.gsc p = some gp ∧ alook st.gsc q = some gq ∧ gq + 1 ≤ gp ∧
      (alook st.came q).isSome ∧ allowedP G goal blocked p
  openH : ∀ p gs, alook st.gsc p = some gs → p ∉ st.closed →
    (gs + manhattan p goal, gs, p) ∈ st.heap
  gBound : ∀ p gs, alook st.gsc p = some gs → gs ≤ st.gsc.length
  hBound : ∀ e ∈ st.heap, e.2.1 ≤ st.gsc.length
  keysDom : ∀ p, (alook st.gsc p).isSome → p = start ∨ allowedP G goal blocked p
  keysNodup : (st.gsc.map Prod.fst).Nodup
  closedSub : ∀ p ∈ st.closed, (alook st.gsc p).isSome

/-- Every closed cell other than the goal is fully expanded. -/
def ClosedExp (G : GameMap) (goal : Pt) (blocked : List Pt)
    (st : AState) : Prop :=
  ∀ p ∈ st.closed, p ≠ goal → ExpandedAt G goal blocked st.gsc p

/-- `ClosedExp` with the neighbours of `cur` along the still-unprocessed
offsets `ds` exempted (the state in the middle of the relaxation fold). -/
def ClosedExpExcept (G : GameMap) (goal : Pt) (blocked : List Pt)
    (st : AState) (cur : Pt) (ds : List Pt) : Prop :=
  ∀ p ∈ st.closed, p ≠ goal → ∀ d ∈ nb4, (p = cur → d ∉ ds) →
    allowedP G goal blocked (p.1 + d.1, p.2 + d.2) →
    (alook st.gsc (p.1 + d.1, p.2 + d.2)).isSome

/-- The loop variant: heap size plus total remaining g-score potential. -/
def potential (st : AState) (cells : List Pt) : Nat :=
  st.heap.length + (cells.map (gscoreD st.gsc)).sum

theorem gsc_length_le (G : GameMap) (start goal : Pt) (blocked : List Pt)
    (st : AState) (hc : CoreInv G start goal blocked st) :
    st.gsc.length ≤ 1 + G.height * G.width := by
  have hsub : (st.gsc.map Prod.fst) ⊆ start :: allCells G := by
    intro x hx
    have hxs : (alook st.gsc x).isSome := by
      match hxx : alook st.gsc x with
      | some v => rfl
      | none => exact absurd hx ((alook_eq_none_iff st.gsc x).mp hxx)
    rcases hc.keysDom x hxs with rfl | hall
    · exact List.mem_cons_self _ _
    · exact List.mem_cons_of_mem _ (mem_allCells G x hall.1.1)
  have hlen := (hc.keysNodup.subperm hsub).length_le
  rw [List.length_map] at hlen
  rw [List.length_cons, allCells_length] at hlen
  omega

theorem sum_map_le_sum_map (f g : Pt → Nat) :
    ∀ (l : List Pt), (∀ x ∈ l, f x ≤ g x) →
      (l.map f).sum ≤ (l.map g).sum := by
  intro l
  induction l with
  | nil => intro _; simp
  | cons a t ih =>
    intro h
    simp only [List.map_cons, List.sum_cons]
    have h1 := h a (List.mem_cons_self a t)
    have h2 := ih (fun x hx => h x (List.mem_cons_of_mem a hx))
    omega

theorem sum_map_lt_sum_map (f g : Pt → Nat) :
    ∀ (l : List Pt), (∀ x ∈ l, f x ≤ g x) →
      ∀ y ∈ l, f y < g y → (l.map f).sum < (l.map g).sum := by
  intro l
  induction l with
  | nil => intro _ y hy; exact absurd hy (List.not_mem_nil y)
  | cons a t ih =>
    intro h y hy hfy
    simp only [List.map_cons, List.sum_cons]
    rcases List.mem_cons.mp hy with hya | hyt
    · rw [hya] at hfy
      have h2 := sum_map_le_sum_map f g t (fun x hx => h x (List.mem_cons_of_mem _ hx))
      omega
    · have h1 := h _ (List.mem_cons_self _ _)
      have h2 := ih (fun x hx => h x (List.mem_cons_of_mem _ hx)) y hyt hfy
      omega

end OmuTui

namespace OmuTui

/-- What one relaxation step preserves and provides. -/
structure ExpandStep (G : GameMap) (start goal : Pt) (blocked : List Pt)
    (st st2 : AState) : Prop where
  inv : CoreInv G start goal blocked st2
  closedEq : st2.closed = st.closed
  domMono : ∀ p, (alook st.gsc p).isSome → (alook st2.gsc p).isSome
  valMono : ∀ p v, alook st.gsc p = some v →
    ∃ v2, alook st2.gsc p = some v2 ∧ v2 ≤ v
  gsdMono : ∀ p, gscoreD st2.gsc p ≤ gscoreD st.gsc p
  heapSub : ∀ e ∈ st.heap, e ∈ st2.heap
  lenMono : st.gsc.length ≤ st2.gsc.length
  potLe : ∀ cells, (∀ p, walkP G p → p ∈ cells) →
    potential st2 cells ≤ potential st cells

theorem ExpandStep.of_eq (G : GameMap) (start goal : Pt) (blocked : List Pt)
    (st : AState) (h : CoreInv G start goal blocked st) :
    ExpandStep G start goal blocked st st :=
  ⟨h, rfl, fun _ hp => hp, fun _ v hv => ⟨v, hv, Nat.le_refl v⟩,
    fun _ => Nat.le_refl _, fun _ he => he, Nat.le_refl _,
    fun _ _ => Nat.le_refl _⟩

theorem ExpandStep.comp (G : GameMap) (start goal : Pt) (blocked : List Pt)
    (s1 s2 s3 : AState) (h1 : ExpandStep G start goal blocked s1 s2)
    (h2 : ExpandStep G start goal blocked s2 s3) :
    ExpandStep G start goal blocked s1 s3 := by
  refine ⟨h2.inv, h2.closedEq.trans h1.closedEq, ?_, ?_, ?_, ?_, ?_, ?_⟩
  · exact fun p hp => h2.domMono p (h1.domMono p hp)
  · intro p v hv
    obtain ⟨v2, hv2, hle2⟩ := h1.valMono p v hv
    obtain ⟨v3, hv3, hle3⟩ := h2.valMono p v2 hv2
    exact ⟨v3, hv3, Nat.le_trans hle3 hle2⟩
  · exact fun p => Nat.le_trans (h2.gsdMono p) (h1.gsdMono p)
  · exact fun e he => h2.heapSub e (h1.heapSub e he)
  · exact Nat.le_trans h1.lenMono h2.lenMono
  · exact fun cells hcells =>
      Nat.le_trans (h2.potLe cells hcells) (h1.potLe cells hcells)

theorem expandOne_spec (G : GameMap) (start goal : Pt) (blocked : List Pt)
    (cur : Pt) (g : Nat) (st : AState) (d : Pt) (hd : d ∈ nb4)
    (hc : CoreInv G start goal blocked st)
    (gc : Nat) (hgc : alook st.gsc cur = some gc) (hgcg : gc ≤ g)
    (hman : manhattan start cur ≤ g) (hgb : g ≤ st.gsc.length)
    (hbig : g + 1 < 1000000000) :
    ExpandStep G start goal blocked st (expandOne G goal blocked cur g st d) ∧
    (allowedP G goal blocked (cur.1 + d.1, cur.2 + d.2) →
      ∃ v, alook (expandOne G goal blocked cur g st d).gsc
        (cur.1 + d.1, cur.2 + d.2) = some v ∧ v ≤ g + 1) := by
  by_cases hw : ¬ is_walkable G (cur.1 + d.1) (cur.2 + d.2)
  · rw [expandOne, if_pos hw]
    exact ⟨ExpandStep.of_eq G start goal blocked st hc,
      fun hall => absurd hall.1 hw⟩
  · rw [expandOne, if_neg hw]
    by_cases hbl : (cur.1 + d.1, cur.2 + d.2) ∈ blocked ∧
        (cur.1 + d.1, cur.2 + d.2) ≠ goal
    · rw [if_pos hbl]
      refine ⟨ExpandStep.of_eq G start goal blocked st hc, fun hall => ?_⟩
      rcases hall.2 with hnb | hg
      · exact absurd hbl.1 hnb
      · exact absurd hg hbl.2
    · rw [if_neg hbl]
      have hallowed : allowedP G goal blocked (cur.1 + d.1, cur.2 + d.2) := by
        refine ⟨not_not.mp hw, ?_⟩
        by_cases hin : (cur.1 + d.1, cur.2 + d.2) ∈ blocked
        · right
          by_contra hng
          exact hbl ⟨hin, hng⟩
        · exact Or.inl hin
      have hmnxt : manhattan cur (cur.1 + d.1, cur.2 + d.2) = 1 :=
        nb4_manhattan cur d hd
      have hncur : (cur.1 + d.1, cur.2 + d.2) ≠ cur := by
        intro hcontra
        rw [hcontra, manhattan_self] at hmnxt
        exact Nat.zero_ne_one hmnxt
      have hmstart : manhattan start (cur.1 + d.1, cur.2 + d.2) ≤ g + 1 := by
        have := manhattan_triangle start cur (cur.1 + d.1, cur.2 + d.2)
        omega
      by_cases hgd : g + 1 < gscoreD st.gsc (cur.1 + d.1, cur.2 + d.2)
      · rw [if_pos hgd]
        have hnstart : (cur.1 + d.1, cur.2 + d.2) ≠ start := by
          intro hcontra
          rw [hcontra] at hgd
          unfold gscoreD at hgd
          rw [hc.gStart] at hgd
          simp at hgd
        have hlen : st.gsc.length ≤
            (aupd st.gsc (cur.1 + d.1, cur.2 + d.2) (g + 1)).length :=
          aupd_length_ge st.gsc _ _ hc.keysNodup
        have hlenval : g + 1 ≤ (aupd st.gsc (cur.1 + d.1, cur.2 + d.2) (g + 1)).length := by
          match hold : alook st.gsc (cur.1 + d.1, cur.2 + d.2) with
          | none =>
            rw [aupd_length_new st.gsc _ _ hold]
            omega
          | some v =>
            have hv : v ≤ st.gsc.length := hc.gBound _ v hold
            have : gscoreD st.gsc (cur.1 + d.1, cur.2 + d.2) = v := by
              unfold gscoreD
              rw [hold]
              rfl
            omega
        constructor
        · refine ⟨?inv, rfl, ?dom, ?val, ?gsd, ?hsub, hlen, ?pot⟩
          case dom =>
            intro p hp
            by_cases hp2 : p = (cur.1 + d.1, cur.2 + d.2)
            · rw [hp2]
              simp only
              rw [alook_aupd_self]
              rfl
            · simp only
              rw [alook_aupd_ne _ _ _ _ hp2]
              exact hp
          case val =>
            intro p v hv
            by_cases hp2 : p = (cur.1 + d.1, cur.2 + d.2)
            · refine ⟨g + 1, ?_, ?_⟩
              · rw [hp2]
                simp only
                rw [alook_aupd_self]
              · have : gscoreD st.gsc (cur.1 + d.1, cur.2 + d.2) = v := by
                  unfold gscoreD
                  rw [← hp2, hv]
                  rfl
                omega
            · refine ⟨v, ?_, Nat.le_refl v⟩
              simp only
              rw [alook_aupd_ne _ _ _ _ hp2]
              exact hv
          case gsd =>
            intro p
            by_cases hp2 : p = (cur.1 + d.1, cur.2 + d.2)
            · rw [hp2]
              unfold gscoreD
              simp only
              rw [alook_aupd_self]
              unfold gscoreD at hgd
              simp only [Option.getD_some]
              omega
            · unfold gscoreD
              simp only
              rw [alook_aupd_ne _ _ _ _ hp2]
          case hsub =>
            intro e he
            exact List.mem_cons_of_mem _ he
          case pot =>
            intro cells hcells
            unfold potential
            simp only [List.length_cons]
            have hstrict : (cells.map (gscoreD (aupd st.gsc
                (cur.1 + d.1, cur.2 + d.2) (g + 1)))).sum <
                (cells.map (gscoreD st.gsc)).sum := by
              refine sum_map_lt_sum_map _ _ cells ?_ (cur.1 + d.1, cur.2 + d.2)
                (hcells _ hallowed.1) ?_
              · intro x hx
                by_cases hp2 : x = (cur.1 + d.1, cur.2 + d.2)
                · rw [hp2]
                  unfold gscoreD
                  rw [alook_aupd_self]
                  unfold gscoreD at hgd
                  simp only [Option.getD_some]
                  omega
                · unfold gscoreD
                  rw [alook_aupd_ne _ _ _ _ hp2]
              · unfold gscoreD
                rw [alook_aupd_self]
                unfold gscoreD at hgd
                simp only [Option.getD_some]
                omega
            omega
          case inv =>
            refine ⟨?_, ?_, ?_, ?_, ?_, ?_, ?_, ?_, ?_, ?_, ?_, ?_⟩
            · -- hEntry
              intro e he
              rcases List.mem_cons.mp he with rfl | he
              · refine ⟨hmstart, rfl, g + 1, ?_, Nat.le_refl _⟩
                simp only
                rw [alook_aupd_self]
              · obtain ⟨h1, h2, gs, h3, h4⟩ := hc.hEntry e he
                refine ⟨h1, h2, ?_⟩
                by_cases hp2 : e.2.2 = (cur.1 + d.1, cur.2 + d.2)
                · refine ⟨g + 1, ?_, ?_⟩
                  · rw [hp2]
                    simp only
                    rw [alook_aupd_self]
                  · rw [hp2] at h3
                    have : gscoreD st.gsc (cur.1 + d.1, cur.2 + d.2) = gs := by
                      unfold gscoreD
                      rw [h3]
                      rfl
                    omega
                · refine ⟨gs, ?_, h4⟩
                  simp only
                  rw [alook_aupd_ne _ _ _ _ hp2]
                  exact h3
            · -- gLower
              intro p gs hgs
              by_cases hp2 : p = (cur.1 + d.1, cur.2 + d.2)
              · rw [hp2] at hgs ⊢
                simp only at hgs
                rw [alook_aupd_self] at hgs
                cases hgs
                exact hmstart
              · simp only at hgs
                rw [alook_aupd_ne _ _ _ _ hp2] at hgs
                exact hc.gLower p gs hgs
            · -- gStart
              simp only
              rw [alook_aupd_ne _ _ _ _ (fun hcontra => hnstart hcontra.symm)]
              exact hc.gStart
            · -- cStart
              simp only
              rw [alook_aupd_ne _ _ _ _ (fun hcontra => hnstart hcontra.symm)]
              exact hc.cStart
            · -- domEq
              intro p
              by_cases hp2 : p = (cur.1 + d.1, cur.2 + d.2)
              · rw [hp2]
                simp only
                rw [alook_aupd_self, alook_aupd_self]
                simp
              · simp only
                rw [alook_aupd_ne _ _ _ _ hp2, alook_aupd_ne _ _ _ _ hp2]
                exact hc.domEq p
            · -- cameOk
              intro p op hop hps
              by_cases hp2 : p = (cur.1 + d.1, cur.2 + d.2)
              · rw [hp2] at hop ⊢
                simp only at hop
                rw [alook_aupd_self] at hop
                cases hop
                refine ⟨cur, g + 1, gc, rfl, hmnxt, ?_, ?_, by omega, ?_, hallowed⟩
                · simp only
                  rw [alook_aupd_self]
                · simp only
                  rw [alook_aupd_ne _ _ _ _ (fun hcontra => hncur hcontra.symm)]
                  exact hgc
                · simp only
                  rw [alook_aupd_ne _ _ _ _ (fun hcontra => hncur hcontra.symm)]
                  exact (hc.domEq cur).mp (by rw [hgc]; rfl)
              · simp only at hop
                rw [alook_aupd_ne _ _ _ _ hp2] at hop
                obtain ⟨q, gp, gq, h1, h2, h3, h4, h5, h6, h7⟩ :=
                  hc.cameOk p op hop hps
                by_cases hq2 : q = (cur.1 + d.1, cur.2 + d.2)
                · refine ⟨q, gp, g + 1, h1, h2, ?_, ?_, ?_, ?_, h7⟩
                  · simp only
                    rw [alook_aupd_ne _ _ _ _ hp2]
                    exact h3
                  · rw [hq2]
                    simp only
                    rw [alook_aupd_self]
                  · rw [hq2] at h4
                    have : gscoreD st.gsc (cur.1 + d.1, cur.2 + d.2) = gq := by
                      unfold gscoreD
                      rw [h4]
                      rfl
                    omega
                  · rw [hq2]
                    simp only
                    rw [alook_aupd_self]
                    rfl
                · refine ⟨q, gp, gq, h1, h2, ?_, ?_, h5, ?_, h7⟩
                  · simp only
                    rw [alook_aupd_ne _ _ _ _ hp2]
                    exact h3
                  · simp only
                    rw [alook_aupd_ne _ _ _ _ hq2]
                    exact h4
                  · simp only
                    rw [alook_aupd_ne _ _ _ _ hq2]
                    exact h6
            · -- openH
              intro p gs hgs hncl
              simp only at hgs hncl ⊢
              by_cases hp2 : p = (cur.1 + d.1, cur.2 + d.2)
              · rw [hp2] at hgs ⊢
                rw [alook_aupd_self] at hgs
                cases hgs
                exact List.mem_cons_self _ _
              · rw [alook_aupd_ne _ _ _ _ hp2] at hgs
                exact List.mem_cons_of_mem _ (hc.openH p gs hgs hncl)
            · -- gBound
              intro p gs hgs
              simp only at hgs ⊢
              by_cases hp2 : p = (cur.1 + d.1, cur.2 + d.2)
              · rw [hp2] at hgs
                rw [alook_aupd_self] at hgs
                cases hgs
                exact hlenval
              · rw [alook_aupd_ne _ _ _ _ hp2] at hgs
                exact Nat.le_trans (hc.gBound p gs hgs) hlen
            · -- hBound
              intro e he
              simp only at he ⊢
              rcases List.mem_cons.mp he with rfl | he
              · exact hlenval
              · exact Nat.le_trans (hc.hBound e he) hlen
            · -- keysDom
              intro p hp
              simp only at hp
              by_cases hp2 : p = (cur.1 + d.1, cur.2 + d.2)
              · rw [hp2]
                exact Or.inr hallowed
              · rw [alook_aupd_ne _ _ _ _ hp2] at hp
                exact hc.keysDom p hp
            · -- keysNodup
              exact aupd_keys_nodup st.gsc _ _ hc.keysNodup
            · -- closedSub
              intro p hp
              simp only at hp ⊢
              by_cases hp2 : p = (cur.1 + d.1, cur.2 + d.2)
              · rw [hp2]
                rw [alook_aupd_self]
                rfl
              · rw [alook_aupd_ne _ _ _ _ hp2]
                exact hc.closedSub p hp
        · intro _
          refine ⟨g + 1, ?_, Nat.le_refl _⟩
          simp only
          rw [alook_aupd_self]
      · rw [if_neg hgd]
        refine ⟨ExpandStep.of_eq G start goal blocked st hc, fun _ => ?_⟩
        push_neg at hgd
        match hold : alook st.gsc (cur.1 + d.1, cur.2 + d.2) with
        | some v =>
          refine ⟨v, rfl, ?_⟩
          have : gscoreD st.gsc (cur.1 + d.1, cur.2 + d.2) = v := by
            unfold gscoreD
            rw [hold]
            rfl
          omega
        | none =>
          have : gscoreD st.gsc (cur.1 + d.1, cur.2 + d.2) = 1000000000 := by
            unfold gscoreD
            rw [hold]
            rfl
          omega

end OmuTui

namespace OmuTui

theorem expandFold_spec (G : GameMap) (start goal : Pt) (blocked : List Pt)
    (cur : Pt) (g : Nat)
    (hman : manhattan start cur ≤ g) (hbig : g + 1 < 1000000000) :
    ∀ (ds : List Pt), (∀ d ∈ ds, d ∈ nb4) →
      ∀ st : AState, CoreInv G start goal blocked st →
        (∃ gc, alook st.gsc cur = some gc ∧ gc ≤ g) →
        g ≤ st.gsc.length →
        ExpandStep G start goal blocked st
          (ds.foldl (expandOne G goal blocked cur g) st) ∧
        (∀ d ∈ ds, allowedP G goal blocked (cur.1 + d.1, cur.2 + d.2) →
          ∃ v, alook (ds.foldl (expandOne G goal blocked cur g) st).gsc
            (cur.1 + d.1, cur.2 + d.2) = some v ∧ v ≤ g + 1) := by
  intro ds
  induction ds with
  | nil =>
    intro _ st hc _ _
    exact ⟨ExpandStep.of_eq G start goal blocked st hc,
      fun d hd => absurd hd (List.not_mem_nil d)⟩
  | cons d ds ih =>
    intro hds st hc hgc hgb
    obtain ⟨gc, hgc1, hgc2⟩ := hgc
    have hd : d ∈ nb4 := hds d (List.mem_cons_self d ds)
    obtain ⟨step1, e3d⟩ := expandOne_spec G start goal blocked cur g st d hd
      hc gc hgc1 hgc2 hman hgb hbig
    obtain ⟨gc1, hgc1', hgc1le⟩ := step1.valMono cur gc hgc1
    have hib := ih (fun d' hd' => hds d' (List.mem_cons_of_mem d hd'))
      (expandOne G goal blocked cur g st d) step1.inv
      ⟨gc1, hgc1', Nat.le_trans hgc1le hgc2⟩ (Nat.le_trans hgb step1.lenMono)
    obtain ⟨step2, e3s⟩ := hib
    rw [List.foldl_cons]
    refine ⟨ExpandStep.comp G start goal blocked _ _ _ step1 step2, ?_⟩
    intro d' hd' hall
    rcases List.mem_cons.mp hd' with rfl | hd's
    · obtain ⟨v, hv1, hv2⟩ := e3d hall
      obtain ⟨v2, hv21, hv22⟩ := step2.valMono _ v hv1
      exact ⟨v2, hv21, Nat.le_trans hv22 hv2⟩
    · exact e3s d' hd's hall

end OmuTui

namespace OmuTui

theorem popped_g_eq_gsc (G : GameMap) (start goal : Pt) (blocked : List Pt)
    (st : AState) (e : Entry) (heap2 : List Entry)
    (hc : CoreInv G start goal blocked st)
    (hpop : popMin st.heap = some (e, heap2)) (hncl : e.2.2 ∉ st.closed) :
    alook st.gsc e.2.2 = some e.2.1 := by
  obtain ⟨hmem, _, hmin⟩ := popMin_spec st.heap e heap2 hpop
  obtain ⟨_, hf, gs, hgs, hgsle⟩ := hc.hEntry e hmem
  have hopen := hc.openH e.2.2 gs hgs hncl
  have hle := hmin _ hopen
  unfold entryLe at hle
  simp only at hle
  have : e.2.1 = gs := by omega
  rw [hgs, this]

theorem skip_step_inv (G : GameMap) (start goal : Pt) (blocked : List Pt)
    (st : AState) (e : Entry) (heap2 : List Entry)
    (hc : CoreInv G start goal blocked st)
    (hpop : popMin st.heap = some (e, heap2)) (hcl : e.2.2 ∈ st.closed) :
    CoreInv G start goal blocked { st with heap := heap2 } := by
  obtain ⟨hmem, herase, hmin⟩ := popMin_spec st.heap e heap2 hpop
  refine ⟨?_, hc.gLower, hc.gStart, hc.cStart, hc.domEq, hc.cameOk, ?_,
    hc.gBound, ?_, hc.keysDom, hc.keysNodup, hc.closedSub⟩
  · intro x hx
    exact hc.hEntry x (List.mem_of_mem_erase (herase ▸ hx))
  · intro p gs hgs hncl
    have hne : (gs + manhattan p goal, gs, p) ≠ e := by
      intro hcontra
      apply hncl
      have : p = e.2.2 := by rw [← hcontra]
      rw [this]
      exact hcl
    rw [show ({ st with heap := heap2 } : AState).heap = heap2 from rfl, herase]
    exact mem_erase_of_ne_val hne (hc.openH p gs hgs hncl)
  · intro x hx
    exact hc.hBound x (List.mem_of_mem_erase (herase ▸ hx))

theorem close_step_inv (G : GameMap) (start goal : Pt) (blocked : List Pt)
    (st : AState) (e : Entry) (heap2 : List Entry)
    (hc : CoreInv G start goal blocked st)
    (hpop : popMin st.heap = some (e, heap2)) (hncl : e.2.2 ∉ st.closed) :
    CoreInv G start goal blocked
      { st with heap := heap2, closed := e.2.2 :: st.closed } := by
  obtain ⟨hmem, herase, hmin⟩ := popMin_spec st.heap e heap2 hpop
  refine ⟨?_, hc.gLower, hc.gStart, hc.cStart, hc.domEq, hc.cameOk, ?_,
    hc.gBound, ?_, hc.keysDom, hc.keysNodup, ?_⟩
  · intro x hx
    exact hc.hEntry x (List.mem_of_mem_erase (herase ▸ hx))
  · intro p gs hgs hncl2
    rw [List.mem_cons] at hncl2
    push_neg at hncl2
    have hne : (gs + manhattan p goal, gs, p) ≠ e := by
      intro hcontra
      apply hncl2.1
      rw [← hcontra]
    rw [show ({ st with heap := heap2, closed := e.2.2 :: st.closed } : AState).heap
      = heap2 from rfl, herase]
    exact mem_erase_of_ne_val hne (hc.openH p gs hgs hncl2.2)
  · intro x hx
    exact hc.hBound x (List.mem_of_mem_erase (herase ▸ hx))
  · intro p hp
    rcases List.mem_cons.mp hp with rfl | hp
    · obtain ⟨_, _, gs, hgs, _⟩ := hc.hEntry e hmem
      rw [show ({ st with heap := heap2, closed := e.2.2 :: st.closed } : AState).gsc
        = st.gsc from rfl, hgs]
      rfl
    · exact hc.closedSub p hp

end OmuTui

namespace OmuTui

/-- The search loop terminates within fuel exceeding the potential,
preserving `CoreInv`, full expansion of closed cells, and any auxiliary
invariant `J` preserved by the expansion step; it ends either with an
empty heap and the goal never closed, or by popping and closing the
goal. -/
theorem astarLoop_spec (G : GameMap) (start goal : Pt) (blocked : List Pt)
    (cells : List Pt) (hcells : ∀ p, walkP G p → p ∈ cells)
    (hsmall : G.height * G.width + 2 < 1000000000)
    (J : AState → Prop)
    (hJexp : ∀ st e heap2, CoreInv G start goal blocked st → J st →
      ClosedExp G goal blocked st → goal ∉ st.closed →
      popMin st.heap = some (e, heap2) → e.2.2 ∉ st.closed → e.2.2 ≠ goal →
      J (nb4.foldl (expandOne G goal blocked e.2.2 e.2.1) { st with heap := heap2, closed := e.2.2 :: st.closed }))
    (hJheap : ∀ st heap2, J st → J { st with heap := heap2 }) :
    ∀ fuel st, CoreInv G start goal blocked st → ClosedExp G goal blocked st →
      J st → goal ∉ st.closed → potential st cells < fuel →
      ∃ st2, astarLoop G goal blocked fuel st = some st2 ∧
        CoreInv G start goal blocked st2 ∧ ClosedExp G goal blocked st2 ∧
        ((st2.heap = [] ∧ J st2 ∧ goal ∉ st2.closed) ∨
         (∃ st1 e heap1, CoreInv G start goal blocked st1 ∧ J st1 ∧
            goal ∉ st1.closed ∧
            popMin st1.heap = some (e, heap1) ∧ e.2.2 = goal ∧
            e.2.2 ∉ st1.closed ∧
            st2 = { st1 with heap := heap1, closed := goal :: st1.closed })) := by
  intro fuel
  induction fuel with
  | zero =>
    intro st _ _ _ _ hpot
    exact absurd hpot (Nat.not_lt_zero _)
  | succ fuel ih =>
    intro st hc hce hJ hgcl hpot
    match hpop : popMin st.heap with
    | none =>
      have hred : astarLoop G goal blocked (fuel + 1) st = some st := by
        rw [astarLoop, hpop]
      exact ⟨st, hred, hc, hce,
        Or.inl ⟨(popMin_none_iff st.heap).mp hpop, hJ, hgcl⟩⟩
    | some (e, heap2) =>
      obtain ⟨hmem, herase, hmin⟩ := popMin_spec st.heap e heap2 hpop
      have hlen2 : heap2.length + 1 = st.heap.length := by
        rw [herase, List.length_erase_of_mem hmem]
        have : 0 < st.heap.length := List.length_pos.mpr
          (fun hnil => by rw [hnil] at hmem; exact absurd hmem (List.not_mem_nil e))
        omega
      have hred : astarLoop G goal blocked (fuel + 1) st =
          (if e.2.2 ∈ st.closed then
            astarLoop G goal blocked fuel { st with heap := heap2 }
          else if e.2.2 = goal then
            some { st with heap := heap2, closed := e.2.2 :: st.closed }
          else
            astarLoop G goal blocked fuel (nb4.foldl (expandOne G goal blocked e.2.2 e.2.1) { st with heap := heap2, closed := e.2.2 :: st.closed })) := by
        rw [astarLoop, hpop]
      by_cases hcl : e.2.2 ∈ st.closed
      · rw [hred, if_pos hcl]
        have hc' := skip_step_inv G start goal blocked st e heap2 hc hpop hcl
        have hce' : ClosedExp G goal blocked { st with heap := heap2 } := hce
        have hpot' : potential { st with heap := heap2 } cells < fuel := by
          unfold potential at hpot ⊢
          simp only at hpot ⊢
          omega
        exact ih { st with heap := heap2 } hc' hce' (hJheap st heap2 hJ) hgcl hpot'
      · rw [hred, if_neg hcl]
        have hc' := close_step_inv G start goal blocked st e heap2 hc hpop hcl
        by_cases hg : e.2.2 = goal
        · rw [if_pos hg]
          refine ⟨_, rfl, hg ▸ hc', ?_, Or.inr ⟨st, e, heap2, hc, hJ, hgcl,
            hpop, hg, hcl, by rw [hg]⟩⟩
          intro p hp hpg
          rcases List.mem_cons.mp hp with rfl | hp
          · exact absurd hg hpg
          · exact hce p hp hpg
        · rw [if_neg hg]
          have hgs : alook st.gsc e.2.2 = some e.2.1 :=
            popped_g_eq_gsc G start goal blocked st e heap2 hc hpop hcl
          have hman : manhattan start e.2.2 ≤ e.2.1 := (hc.hEntry e hmem).1
          have hbig : e.2.1 + 1 < 1000000000 := by
            have h1 : e.2.1 ≤ st.gsc.length := hc.hBound e hmem
            have h2 := gsc_length_le G start goal blocked st hc
            omega
          have hgb : e.2.1 ≤ ({ st with heap := heap2, closed := e.2.2 :: st.closed } : AState).gsc.length :=
            hc.hBound e hmem
          obtain ⟨step, e3⟩ := expandFold_spec G start goal blocked e.2.2 e.2.1
            hman hbig nb4 (fun d hd => hd)
            { st with heap := heap2, closed := e.2.2 :: st.closed } hc'
            ⟨e.2.1, hgs, Nat.le_refl _⟩ hgb
          have hceF : ClosedExp G goal blocked
              (nb4.foldl (expandOne G goal blocked e.2.2 e.2.1) { st with heap := heap2, closed := e.2.2 :: st.closed }) := by
            intro p hp hpg d hd hall
            rw [step.closedEq] at hp
            rcases List.mem_cons.mp hp with rfl | hp
            · obtain ⟨v, hv, _⟩ := e3 d hd hall
              rw [hv]
              rfl
            · exact step.domMono _ (hce p hp hpg d hd hall)
          have hgclF : goal ∉ (nb4.foldl (expandOne G goal blocked e.2.2 e.2.1) { st with heap := heap2, closed := e.2.2 :: st.closed }).closed := by
            rw [step.closedEq]
            intro hcontra
            rcases List.mem_cons.mp hcontra with h | h
            · exact hg h.symm
            · exact hgcl h
          have hpotF : potential (nb4.foldl (expandOne G goal blocked e.2.2 e.2.1) { st with heap := heap2, closed := e.2.2 :: st.closed }) cells < fuel := by
            have h1 := step.potLe cells hcells
            unfold potential at h1 hpot ⊢
            simp only at h1 hpot ⊢
            omega
          exact ih _ (step.inv) hceF
            (hJexp st e heap2 hc hJ hce hgcl hpop hcl hg) hgclF hpotF

end OmuTui

namespace OmuTui

/-- `path` is a unit-step chain of allowed cells starting adjacent to
`a`. -/
def chainFrom (allow : Pt → Prop) : Pt → List Pt → Prop
  | _, [] => True
  | a, c :: t => manhattan a c = 1 ∧ allow c ∧ chainFrom allow c t

theorem getLast_snoc {α : Type} :
    ∀ (l : List α) (a : α), (l ++ [a]).getLast? = some a := by
  intro l
  induction l with
  | nil => intro a; rfl
  | cons x t ih =>
    intro a
    cases t with
    | nil => rfl
    | cons y t2 =>
      rw [List.cons_append, List.cons_append, List.getLast?_cons_cons,
        ← List.cons_append]
      exact ih a

theorem chainFrom_snoc (allow : Pt → Prop) :
    ∀ (l : List Pt) (a b c : Pt), chainFrom allow a l →
      (l = [] ∧ b = a ∨ l.getLast? = some b) →
      manhattan b c = 1 → allow c → chainFrom allow a (l ++ [c]) := by
  intro l
  induction l with
  | nil =>
    intro a b c _ hlast hm hal
    rcases hlast with ⟨_, rfl⟩ | hlast
    · exact ⟨hm, hal, trivial⟩
    · cases hlast
  | cons x t ih =>
    intro a b c hch hlast hm hal
    obtain ⟨h1, h2, h3⟩ := hch
    refine ⟨h1, h2, ih x b c h3 ?_ hm hal⟩
    rcases hlast with ⟨hnil, _⟩ | hlast
    · cases hnil
    · cases t with
      | nil =>
        left
        refine ⟨rfl, ?_⟩
        have : some x = some b := hlast
        exact (Option.some.inj this).symm
      | cons y t2 =>
        right
        rw [List.getLast?_cons_cons] at hlast
        exact hlast

theorem chainFrom_manhattan (allow : Pt → Prop) :
    ∀ (l : List Pt) (a b : Pt), chainFrom allow a l → l.getLast? = some b →
      manhattan a b ≤ l.length := by
  intro l
  induction l with
  | nil => intro a b _ hlast; cases hlast
  | cons c t ih =>
    intro a b hch hlast
    obtain ⟨h1, _, h3⟩ := hch
    cases t with
    | nil =>
      have : some c = some b := hlast
      rw [← Option.some.inj this, List.length_cons]
      omega
    | cons y t2 =>
      rw [List.getLast?_cons_cons] at hlast
      have h4 := ih c b h3 hlast
      have h5 := manhattan_triangle a c b
      simp only [List.length_cons] at h4 ⊢
      omega

theorem reach_trans (allow : Pt → Prop) {a b c : Pt}
    (h1 : Reach allow a b) (h2 : Reach allow b c) : Reach allow a c := by
  induction h2 with
  | refl => exact h1
  | tail _ hm hal ih => exact Reach.tail ih hm hal

theorem chainFrom_reach (allow : Pt → Prop) :
    ∀ (l : List Pt) (a b : Pt), chainFrom allow a l → l.getLast? = some b →
      Reach allow a b := by
  intro l
  induction l with
  | nil => intro a b _ hlast; cases hlast
  | cons c t ih =>
    intro a b hch hlast
    obtain ⟨h1, h2, h3⟩ := hch
    have hac : Reach allow a c := Reach.tail (Reach.refl a) h1 h2
    cases t with
    | nil =>
      have : some c = some b := hlast
      rw [← Option.some.inj this]
      exact hac
    | cons y t2 =>
      rw [List.getLast?_cons_cons] at hlast
      exact reach_trans allow hac (ih c b h3 hlast)

/-- Every discovered cell is reachable from `start` via its parent
chain. -/
theorem came_reach (G : GameMap) (start goal : Pt) (blocked : List Pt)
    (st : AState) (hc : CoreInv G start goal blocked st) :
    ∀ gp p, alook st.gsc p = some gp →
      Reach (allowedP G goal blocked) start p := by
  intro gp
  induction gp using Nat.strong_induction_on with
  | _ gp ih =>
    intro p hp
    by_cases hps : p = start
    · rw [hps]
      exact Reach.refl start
    · have hcame : (alook st.came p).isSome := (hc.domEq p).mp (by rw [hp]; rfl)
      obtain ⟨op, hop⟩ := Option.isSome_iff_exists.mp hcame
      obtain ⟨q, gp2, gq, _, hmqp, hgp2, hgq, hlt, _, hall⟩ :=
        hc.cameOk p op hop hps
      have hgpe : gp2 = gp := Option.some.inj (hgp2.symm.trans hp)
      exact Reach.tail (ih gq (by omega) q hgq) hmqp hall

/-- `reconstruct` follows the parent chain back to `start`, producing a
chain of allowed cells of length at most the g-score of the cursor. -/
theorem reconstruct_spec (G : GameMap) (start goal : Pt) (blocked : List Pt)
    (st : AState) (hc : CoreInv G start goal blocked st) :
    ∀ (fuel gp : Nat) (p : Pt) (acc : List Pt), alook st.gsc p = some gp →
      gp < fuel →
      ∃ pre, reconstruct st.came start fuel (some p) acc = some (pre ++ acc) ∧
        chainFrom (allowedP G goal blocked) start pre ∧
        pre.length ≤ gp ∧
        (p = start → pre = []) ∧
        (p ≠ start → pre.getLast? = some p) := by
  intro fuel
  induction fuel with
  | zero =>
    intro gp p acc _ hlt
    exact absurd hlt (Nat.not_lt_zero gp)
  | succ fuel ih =>
    intro gp p acc hp hlt
    by_cases hps : p = start
    · refine ⟨[], ?_, trivial, Nat.zero_le gp, fun _ => rfl,
        fun hne => absurd hps hne⟩
      rw [reconstruct, if_pos hps, List.nil_append]
    · have hcame : (alook st.came p).isSome := (hc.domEq p).mp (by rw [hp]; rfl)
      obtain ⟨op, hop⟩ := Option.isSome_iff_exists.mp hcame
      obtain ⟨q, gp2, gq, hopq, hmqp, hgp2, hgq, hlt2, _, hall⟩ :=
        hc.cameOk p op hop hps
      have hgpe : gp2 = gp := Option.some.inj (hgp2.symm.trans hp)
      rw [hopq] at hop
      have hred : reconstruct st.came start (fuel + 1) (some p) acc =
          reconstruct st.came start fuel (some q) (p :: acc) := by
        rw [reconstruct, if_neg hps, hop]
      obtain ⟨pre2, hrec, hch, hlen, hstart, hlast⟩ :=
        ih gq q (p :: acc) hgq (by omega)
      refine ⟨pre2 ++ [p], ?_, ?_, ?_, fun h => absurd h hps,
        fun _ => getLast_snoc pre2 p⟩
      · rw [hred, hrec, List.append_assoc, List.singleton_append]
      · refine chainFrom_snoc _ pre2 start q p hch ?_ hmqp hall
        by_cases hqs : q = start
        · exact Or.inl ⟨hstart hqs, hqs⟩
        · exact Or.inr (hlast hqs)
      · rw [List.length_append, List.length_singleton]
        omega

end OmuTui

namespace OmuTui

/-- When the loop drains the heap, reachability from a discovered cell
propagates discovery (closed cells are fully expanded). -/
theorem reach_discovered (G : GameMap) (start goal : Pt) (blocked : List Pt)
    (st : AState) (hc : CoreInv G start goal blocked st)
    (hce : ClosedExp G goal blocked st) (hheap : st.heap = [])
    (hgnone : alook st.gsc goal = none) :
    ∀ a p, Reach (allowedP G goal blocked) a p →
      (alook st.gsc a).isSome → (alook st.gsc p).isSome := by
  intro a p hr
  induction hr with
  | refl => exact fun h => h
  | @tail b c _ hm hal ih =>
    intro ha
    have hb := ih ha
    obtain ⟨gb, hgb⟩ := Option.isSome_iff_exists.mp hb
    have hbgoal : b ≠ goal := by
      intro h
      rw [h, hgnone] at hgb
      cases hgb
    have hbclosed : b ∈ st.closed := by
      by_contra hnb
      have hmem := hc.openH b gb hgb hnb
      rw [hheap] at hmem
      exact absurd hmem (List.not_mem_nil _)
    obtain ⟨d, hd, hcd⟩ := adjacent_iff_nb4 b c hm
    have hexp := hce b hbclosed hbgoal d hd (hcd ▸ hal)
    rw [← hcd] at hexp
    exact hexp

theorem init_core_inv (G : GameMap) (start goal : Pt) (blocked : List Pt) :
    CoreInv G start goal blocked { heap := [(manhattan start goal, 0, start)], came := [(start, none)], gsc := [(start, 0)], closed := [] } := by
  refine ⟨?_, ?_, ?_, ?_, ?_, ?_, ?_, ?_, ?_, ?_, ?_, ?_⟩
  · intro e he
    simp only [List.mem_singleton] at he
    subst he
    refine ⟨by simp [manhattan_self], by simp, 0, by simp [alook], Nat.le_refl 0⟩
  · intro p gs hgs
    simp only [alook] at hgs
    by_cases hp : start = p
    · rw [if_pos hp] at hgs
      have h0 : (0 : Nat) = gs := Option.some.inj hgs
      rw [← hp, ← h0, manhattan_self]
    · rw [if_neg hp] at hgs
      exact Option.noConfusion hgs
  · simp [alook]
  · simp [alook]
  · intro p
    by_cases hp : start = p <;> simp [alook, hp]
  · intro p op hop hps
    simp only [alook] at hop
    rw [if_neg (fun h => hps h.symm)] at hop
    exact Option.noConfusion hop
  · intro p gs hgs _
    simp only [alook] at hgs
    by_cases hp : start = p
    · rw [if_pos hp] at hgs
      have h0 : (0 : Nat) = gs := Option.some.inj hgs
      subst hp
      rw [← h0]
      simp
    · rw [if_neg hp] at hgs
      exact Option.noConfusion hgs
  · intro p gs hgs
    simp only [alook] at hgs
    by_cases hp : start = p
    · rw [if_pos hp] at hgs
      have h0 : (0 : Nat) = gs := Option.some.inj hgs
      rw [← h0]
      simp
    · rw [if_neg hp] at hgs
      exact Option.noConfusion hgs
  · intro e he
    simp only [List.mem_singleton] at he
    subst he
    simp
  · intro p hp
    simp only [alook] at hp
    by_cases hps : start = p
    · exact Or.inl hps.symm
    · rw [if_neg hps] at hp
      cases hp
  · simp
  · intro p hp
    exact absurd hp (List.not_mem_nil p)

theorem sum_map_le_const (f : Pt → Nat) (B : Nat) :
    ∀ l : List Pt, (∀ x ∈ l, f x ≤ B) → (l.map f).sum ≤ l.length * B := by
  intro l
  induction l with
  | nil => intro _; simp
  | cons a t ih =>
    intro h
    simp only [List.map_cons, List.sum_cons, List.length_cons]
    have h1 := h a (List.mem_cons_self a t)
    have h2 := ih (fun x hx => h x (List.mem_cons_of_mem a hx))
    have : (t.length + 1) * B = t.length * B + B := by ring
    omega

theorem init_potential_le (G : GameMap) (start goal : Pt) :
    potential { heap := [(manhattan start goal, 0, start)], came := [(start, none)], gsc := [(start, 0)], closed := [] } (start :: allCells G) ≤ 1 + (1 + G.height * G.width) * 1000000000 := by
  unfold potential
  simp only [List.length_singleton]
  have hb : ∀ x ∈ start :: allCells G, gscoreD [(start, 0)] x ≤ 1000000000 := by
    intro x _
    unfold gscoreD
    simp only [alook]
    by_cases hx : start = x
    · rw [if_pos hx]
      simp
    · rw [if_neg hx]
      simp
  have hs := sum_map_le_const (gscoreD [(start, 0)]) 1000000000
    (start :: allCells G) hb
  rw [List.length_cons, allCells_length] at hs
  have : (G.height * G.width + 1) * 1000000000 =
      (1 + G.height * G.width) * 1000000000 := by ring
  omega

end OmuTui

namespace OmuTui

/-- C6: `astar_path(start, goal, blocked)` returns the empty path exactly
when `start = goal`, the goal cell is not walkable, or the goal is
unreachable from `start` through walkable cells avoiding `blocked`
minus `{goal}`; otherwise it returns a non-empty ordered sequence of
adjacent allowed cells running from the step after `start` up to and
including `goal`. -/
theorem c6_astar_path_contract (G : GameMap) (start goal : Pt)
    (blocked : List Pt) (fuel : Nat)
    (hsmall : G.height * G.width + 2 < 1000000000)
    (hfuel : 1 + (1 + G.height * G.width) * 1000000000 < fuel) :
    ∃ path, astar_path G start goal blocked fuel = some path ∧
      (path = [] ↔ start = goal ∨ ¬ walkP G goal ∨
        ¬ Reach (allowedP G goal blocked) start goal) ∧
      (path ≠ [] → chainFrom (allowedP G goal blocked) start path ∧
        path.getLast? = some goal) := by
  by_cases hsg : start = goal
  · refine ⟨[], ?_, iff_of_true rfl (Or.inl hsg), fun h => absurd rfl h⟩
    unfold astar_path
    rw [if_pos hsg]
  by_cases hwg : is_walkable G goal.1 goal.2
  case neg =>
    refine ⟨[], ?_, iff_of_true rfl (Or.inr (Or.inl hwg)),
      fun h => absurd rfl h⟩
    unfold astar_path
    rw [if_neg hsg, if_pos hwg]
  case pos =>
    have hcells : ∀ p, walkP G p → p ∈ start :: allCells G :=
      fun p hp => List.mem_cons_of_mem _ (mem_allCells G p hp.1)
    have hpot : potential { heap := [(manhattan start goal, 0, start)], came := [(start, none)], gsc := [(start, 0)], closed := [] } (start :: allCells G) < fuel := by
      have := init_potential_le G start goal
      omega
    obtain ⟨st2, hloop, hc2, hce2, hdisj⟩ := astarLoop_spec G start goal
      blocked (start :: allCells G) hcells hsmall (fun _ => True)
      (fun _ _ _ _ _ _ _ _ _ _ => trivial) (fun _ _ _ => trivial) fuel
      { heap := [(manhattan start goal, 0, start)], came := [(start, none)], gsc := [(start, 0)], closed := [] }
      (init_core_inv G start goal blocked)
      (fun p hp _ => absurd hp (List.not_mem_nil p)) trivial
      (List.not_mem_nil goal) hpot
    have hred : astar_path G start goal blocked fuel =
        (if (alook st2.came goal).isNone then some []
         else reconstruct st2.came start fuel (some goal) []) := by
      unfold astar_path
      rw [if_neg hsg, if_neg (not_not_intro hwg), hloop]
    rcases hdisj with ⟨hheap, _, hgcl⟩ |
      ⟨st1, e, heap1, hc1, _, _, hpop, hg, _, hst2⟩
    · have hgnone : alook st2.gsc goal = none := by
        match hx : alook st2.gsc goal with
        | none => rfl
        | some gs =>
          have hmem := hc2.openH goal gs hx hgcl
          rw [hheap] at hmem
          exact absurd hmem (List.not_mem_nil _)
      have hcnone : (alook st2.came goal).isNone := by
        match hy : alook st2.came goal with
        | none => rfl
        | some op =>
          have h2 : (alook st2.gsc goal).isSome :=
            (hc2.domEq goal).mpr (by rw [hy]; rfl)
          rw [hgnone] at h2
          simp at h2
      refine ⟨[], ?_, ?_, fun h => absurd rfl h⟩
      · rw [hred, if_pos hcnone]
      · refine iff_of_true rfl (Or.inr (Or.inr fun hreach => ?_))
        have hsm := reach_discovered G start goal blocked st2 hc2 hce2 hheap
          hgnone start goal hreach (by rw [hc2.gStart]; rfl)
        rw [hgnone] at hsm
        simp at hsm
    · obtain ⟨hmem1, _, _⟩ := popMin_spec st1.heap e heap1 hpop
      obtain ⟨_, _, gs, hgs, _⟩ := hc1.hEntry e hmem1
      rw [hg] at hgs
      have hgsceq : st2.gsc = st1.gsc := by rw [hst2]
      have hgs2 : alook st2.gsc goal = some gs := by rw [hgsceq]; exact hgs
      have hcs : (alook st2.came goal).isSome :=
        (hc2.domEq goal).mp (by rw [hgs2]; rfl)
      obtain ⟨op, hop⟩ := Option.isSome_iff_exists.mp hcs
      have hgsb : gs ≤ st1.gsc.length := hc1.gBound goal gs hgs
      have hlenb := gsc_length_le G start goal blocked st1 hc1
      obtain ⟨pre, hrec, hch, _, _, hlast⟩ := reconstruct_spec G start goal
        blocked st2 hc2 fuel gs goal [] hgs2 (by omega)
      have hlast2 : pre.getLast? = some goal := hlast (fun h => hsg h.symm)
      have hprene : pre ≠ [] := by
        intro h
        rw [h] at hlast2
        cases hlast2
      refine ⟨pre, ?_, iff_of_false hprene ?_, fun _ => ⟨hch, hlast2⟩⟩
      · rw [List.append_nil] at hrec
        rw [hred, if_neg (by rw [hop]; simp), hrec]
      · intro h
        rcases h with h | h | h
        · exact hsg h
        · exact h hwg
        · exact h (came_reach G start goal blocked st2 hc2 gs goal hgs2)

end OmuTui

namespace OmuTui

theorem c6_witness :
    (allFloor 2 2).height * (allFloor 2 2).width + 2 < 1000000000 ∧
    1 + (1 + (allFloor 2 2).height * (allFloor 2 2).width) * 1000000000 <
      6000000000 ∧
    ∃ path, astar_path (allFloor 2 2) (0, 0) (1, 1) [] 6000000000 = some path ∧
      (path = [] ↔ ((0, 0) : Pt) = (1, 1) ∨ ¬ walkP (allFloor 2 2) (1, 1) ∨
        ¬ Reach (allowedP (allFloor 2 2) (1, 1) []) (0, 0) (1, 1)) ∧
      (path ≠ [] → chainFrom (allowedP (allFloor 2 2) (1, 1) []) (0, 0) path ∧
        path.getLast? = some (1, 1)) :=
  ⟨by decide, by decide,
    c6_astar_path_contract (allFloor 2 2) (0, 0) (1, 1) [] 6000000000
      (by decide) (by decide)⟩

/-- The canonical monotone (first vertical, then horizontal) path from
`start` to `goal`; `stairPt start goal k` is its `k`-th cell. -/
def stairPt (start goal : Pt) (k : Nat) : Pt :=
  if k ≤ (goal.1 - start.1).natAbs then
    (if start.1 ≤ goal.1 then start.1 + (k : Int) else start.1 - (k : Int),
      start.2)
  else
    (goal.1,
      if start.2 ≤ goal.2 then
        start.2 + ((k : Int) - (goal.1 - start.1).natAbs)
      else start.2 - ((k : Int) - (goal.1 - start.1).natAbs))

theorem stairPt_zero (start goal : Pt) : stairPt start goal 0 = start := by
  unfold stairPt
  rw [if_pos (Nat.zero_le _)]
  by_cases hy : start.1 ≤ goal.1
  · rw [if_pos hy]
    simp
  · rw [if_neg hy]
    simp

theorem stairPt_last (start goal : Pt) :
    stairPt start goal (manhattan start goal) = goal := by
  unfold stairPt manhattan
  split_ifs <;> rw [Prod.ext_iff] <;> dsimp only <;> omega

theorem stairPt_man_start (start goal : Pt) (k : Nat)
    (hk : k ≤ manhattan start goal) :
    manhattan start (stairPt start goal k) = k := by
  unfold manhattan at hk
  unfold stairPt manhattan
  split_ifs <;> dsimp only <;> omega

theorem stairPt_man_goal (start goal : Pt) (k : Nat)
    (hk : k ≤ manhattan start goal) :
    manhattan (stairPt start goal k) goal = manhattan start goal - k := by
  unfold manhattan at hk
  unfold stairPt manhattan
  split_ifs <;> dsimp only <;> omega

theorem stairPt_adj (start goal : Pt) (k : Nat)
    (hk : k < manhattan start goal) :
    manhattan (stairPt start goal k) (stairPt start goal (k + 1)) = 1 := by
  unfold manhattan at hk
  unfold stairPt manhattan
  split_ifs <;> dsimp only <;> omega

theorem stairPt_in_bounds (h w : Nat) (start goal : Pt)
    (hs : is_in_bounds (allFloor h w) start.1 start.2)
    (hg : is_in_bounds (allFloor h w) goal.1 goal.2)
    (k : Nat) (hk : k ≤ manhattan start goal) :
    is_in_bounds (allFloor h w) (stairPt start goal k).1
      (stairPt start goal k).2 := by
  unfold is_in_bounds allFloor at hs hg ⊢
  dsimp only at hs hg ⊢
  unfold manhattan at hk
  unfold stairPt
  split_ifs <;> dsimp only <;> omega

end OmuTui

namespace OmuTui

/-- Optimality invariant: closed cells carry optimal (Manhattan)
g-scores and are quantitatively relaxed, and some cell of the canonical
staircase path is discovered at its optimal score and still open. -/
def OptInv (G : GameMap) (start goal : Pt) (blocked : List Pt)
    (st : AState) : Prop :=
  (∀ p gs, p ∈ st.closed → alook st.gsc p = some gs →
    gs = manhattan start p) ∧
  (∀ p gs, p ∈ st.closed → alook st.gsc p = some gs →
    ∀ d ∈ nb4, allowedP G goal blocked (p.1 + d.1, p.2 + d.2) →
      ∃ v, alook st.gsc (p.1 + d.1, p.2 + d.2) = some v ∧ v ≤ gs + 1) ∧
  (∃ k, k ≤ manhattan start goal ∧
    alook st.gsc (stairPt start goal k) = some k ∧
    stairPt start goal k ∉ st.closed)

/-- Walking up the staircase from a discovered optimal cell reaches an
open one (the goal end of the staircase is never closed). -/
theorem stair_walk (G : GameMap) (start goal : Pt) (blocked : List Pt)
    (st : AState) (hc : CoreInv G start goal blocked st)
    (hO3 : ∀ p gs, p ∈ st.closed → alook st.gsc p = some gs →
      ∀ d ∈ nb4, allowedP G goal blocked (p.1 + d.1, p.2 + d.2) →
        ∃ v, alook st.gsc (p.1 + d.1, p.2 + d.2) = some v ∧ v ≤ gs + 1)
    (hgcl : goal ∉ st.closed)
    (hallow : ∀ j, j ≤ manhattan start goal →
      allowedP G goal blocked (stairPt start goal j)) :
    ∀ n j, n + j = manhattan start goal →
      alook st.gsc (stairPt start goal j) = some j →
      ∃ j2, j ≤ j2 ∧ j2 ≤ manhattan start goal ∧
        alook st.gsc (stairPt start goal j2) = some j2 ∧
        stairPt start goal j2 ∉ st.closed := by
  intro n
  induction n with
  | zero =>
    intro j hn hj
    have hjM : j = manhattan start goal := by omega
    refine ⟨j, Nat.le_refl j, by omega, hj, ?_⟩
    rw [hjM, stairPt_last]
    exact hgcl
  | succ n ih =>
    intro j hn hj
    by_cases hcl : stairPt start goal j ∈ st.closed
    · have hjM : j < manhattan start goal := by omega
      have hadj := stairPt_adj start goal j hjM
      obtain ⟨d, hd, hcd⟩ := adjacent_iff_nb4 _ _ hadj
      have hall : allowedP G goal blocked
          ((stairPt start goal j).1 + d.1, (stairPt start goal j).2 + d.2) := by
        rw [← hcd]
        exact hallow (j + 1) (by omega)
      obtain ⟨v, hv, hvle⟩ := hO3 _ j hcl hj d hd hall
      have hvlow : manhattan start (stairPt start goal (j + 1)) ≤ v := by
        apply hc.gLower
        rw [hcd]
        exact hv
      rw [stairPt_man_start start goal (j + 1) (by omega)] at hvlow
      have hveq : v = j + 1 := by omega
      have hj1 : alook st.gsc (stairPt start goal (j + 1)) = some (j + 1) := by
        rw [hcd, hv, hveq]
      obtain ⟨j2, h1, h2, h3, h4⟩ := ih (j + 1) (by omega) hj1
      exact ⟨j2, by omega, h2, h3, h4⟩
    · exact ⟨j, Nat.le_refl j, by omega, hj, hcl⟩

end OmuTui

namespace OmuTui

/-- The expansion step preserves the optimality invariant: the popped
node's f-value is at most the staircase entry's `f = M`, which pins its
g-score to the Manhattan optimum. -/
theorem optInv_expand (G : GameMap) (start goal : Pt) (blocked : List Pt)
    (hsmall : G.height * G.width + 2 < 1000000000)
    (hallow : ∀ j, j ≤ manhattan start goal →
      allowedP G goal blocked (stairPt start goal j)) :
    ∀ st e heap2, CoreInv G start goal blocked st →
      OptInv G start goal blocked st →
      ClosedExp G goal blocked st → goal ∉ st.closed →
      popMin st.heap = some (e, heap2) → e.2.2 ∉ st.closed → e.2.2 ≠ goal →
      OptInv G start goal blocked
        (nb4.foldl (expandOne G goal blocked e.2.2 e.2.1) { st with heap := heap2, closed := e.2.2 :: st.closed }) := by
  intro st e heap2 hc hJ hce hgcl hpop hncl hneg
  obtain ⟨hO1, hO3, k, hkM, hk, hknc⟩ := hJ
  obtain ⟨hmem, herase, hmin⟩ := popMin_spec st.heap e heap2 hpop
  have hgs : alook st.gsc e.2.2 = some e.2.1 :=
    popped_g_eq_gsc G start goal blocked st e heap2 hc hpop hncl
  have hstE : (k + manhattan (stairPt start goal k) goal, k,
      stairPt start goal k) ∈ st.heap := hc.openH _ k hk hknc
  have hminE := hmin _ hstE
  have hf : e.1 = e.2.1 + manhattan e.2.2 goal := (hc.hEntry e hmem).2.1
  have hlow : manhattan start e.2.2 ≤ e.2.1 := hc.gLower _ _ hgs
  have htri := manhattan_triangle start e.2.2 goal
  have hmg := stairPt_man_goal start goal k hkM
  have hcur_opt : e.2.1 = manhattan start e.2.2 := by
    unfold entryLe at hminE
    dsimp only at hminE
    omega
  have hc' := close_step_inv G start goal blocked st e heap2 hc hpop hncl
  have hbig : e.2.1 + 1 < 1000000000 := by
    have h1 : e.2.1 ≤ st.gsc.length := hc.hBound e hmem
    have h2 := gsc_length_le G start goal blocked st hc
    omega
  obtain ⟨step, e3⟩ := expandFold_spec G start goal blocked e.2.2 e.2.1
    hlow hbig nb4 (fun d hd => hd)
    { st with heap := heap2, closed := e.2.2 :: st.closed } hc'
    ⟨e.2.1, hgs, Nat.le_refl _⟩ (hc.hBound e hmem)
  have hO1F : ∀ p gs, p ∈ (nb4.foldl (expandOne G goal blocked e.2.2 e.2.1) { st with heap := heap2, closed := e.2.2 :: st.closed }).closed →
      alook (nb4.foldl (expandOne G goal blocked e.2.2 e.2.1) { st with heap := heap2, closed := e.2.2 :: st.closed }).gsc p = some gs →
      gs = manhattan start p := by
    intro p gs hp hpgs
    rw [step.closedEq] at hp
    have hlower : manhattan start p ≤ gs := step.inv.gLower p gs hpgs
    rcases List.mem_cons.mp hp with rfl | hp
    · obtain ⟨v2, hv2, hv2le⟩ := step.valMono _ e.2.1 hgs
      have : gs = v2 := Option.some.inj (hpgs.symm.trans hv2)
      omega
    · obtain ⟨gsc0, hgsc0⟩ := Option.isSome_iff_exists.mp (hc.closedSub p hp)
      have hopt0 : gsc0 = manhattan start p := hO1 p gsc0 hp hgsc0
      obtain ⟨v2, hv2, hv2le⟩ := step.valMono p gsc0 hgsc0
      have : gs = v2 := Option.some.inj (hpgs.symm.trans hv2)
      omega
  have hO3F : ∀ p gs, p ∈ (nb4.foldl (expandOne G goal blocked e.2.2 e.2.1) { st with heap := heap2, closed := e.2.2 :: st.closed }).closed →
      alook (nb4.foldl (expandOne G goal blocked e.2.2 e.2.1) { st with heap := heap2, closed := e.2.2 :: st.closed }).gsc p = some gs →
      ∀ d ∈ nb4, allowedP G goal blocked (p.1 + d.1, p.2 + d.2) →
      ∃ v, alook (nb4.foldl (expandOne G goal blocked e.2.2 e.2.1) { st with heap := heap2, closed := e.2.2 :: st.closed }).gsc (p.1 + d.1, p.2 + d.2) = some v ∧ v ≤ gs + 1 := by
    intro p gs hp hpgs d hd hall
    have hgseq : gs = manhattan start p := hO1F p gs hp hpgs
    rw [step.closedEq] at hp
    rcases List.mem_cons.mp hp with rfl | hp
    · obtain ⟨v, hv, hvle⟩ := e3 d hd hall
      refine ⟨v, hv, ?_⟩
      rw [hgseq, ← hcur_opt]
      omega
    · obtain ⟨gsc0, hgsc0⟩ := Option.isSome_iff_exists.mp (hc.closedSub p hp)
      have hopt0 : gsc0 = manhattan start p := hO1 p gsc0 hp hgsc0
      obtain ⟨v0, hv0, hv0le⟩ := hO3 p gsc0 hp hgsc0 d hd hall
      obtain ⟨v2, hv2, hv2le⟩ := step.valMono _ v0 hv0
      refine ⟨v2, hv2, ?_⟩
      omega
  refine ⟨hO1F, hO3F, ?_⟩
  by_cases hkc : stairPt start goal k = e.2.2
  · have hke : k = e.2.1 :=
      Option.some.inj ((hkc ▸ hk).symm.trans hgs)
    have hkM2 : k < manhattan start goal := by
      rcases Nat.lt_or_ge k (manhattan start goal) with h | h
      · exact h
      · exfalso
        have : k = manhattan start goal := by omega
        rw [this, stairPt_last] at hkc
        exact hneg hkc.symm
    have hadj := stairPt_adj start goal k hkM2
    rw [hkc] at hadj
    obtain ⟨d, hd, hcd⟩ := adjacent_iff_nb4 _ _ hadj
    have hall : allowedP G goal blocked (e.2.2.1 + d.1, e.2.2.2 + d.2) := by
      rw [← hcd]
      exact hallow (k + 1) (by omega)
    obtain ⟨v, hv, hvle⟩ := e3 d hd hall
    have hvlow : manhattan start (stairPt start goal (k + 1)) ≤ v :=
      step.inv.gLower _ _ (by rw [hcd]; exact hv)
    rw [stairPt_man_start start goal (k + 1) (by omega)] at hvlow
    have hveq : v = k + 1 := by omega
    have hk1 : alook (nb4.foldl (expandOne G goal blocked e.2.2 e.2.1) { st with heap := heap2, closed := e.2.2 :: st.closed }).gsc (stairPt start goal (k + 1)) = some (k + 1) := by
      rw [hcd, hv, hveq]
    have hgclF : goal ∉ (nb4.foldl (expandOne G goal blocked e.2.2 e.2.1) { st with heap := heap2, closed := e.2.2 :: st.closed }).closed := by
      rw [step.closedEq]
      intro hcontra
      rcases List.mem_cons.mp hcontra with h | h
      · exact hneg h.symm
      · exact hgcl h
    obtain ⟨j2, h1, h2, h3, h4⟩ := stair_walk G start goal blocked _
      step.inv hO3F hgclF hallow (manhattan start goal - (k + 1)) (k + 1)
      (by omega) hk1
    exact ⟨j2, h2, h3, h4⟩
  · obtain ⟨v2, hv2, hv2le⟩ := step.valMono _ k hk
    have hvlow : manhattan start (stairPt start goal k) ≤ v2 :=
      step.inv.gLower _ _ hv2
    rw [stairPt_man_start start goal k hkM] at hvlow
    have : v2 = k := by omega
    rw [this] at hv2
    refine ⟨k, hkM, hv2, ?_⟩
    rw [step.closedEq]
    intro hcontra
    rcases List.mem_cons.mp hcontra with h | h
    · exact hkc h
    · exact hknc h

end OmuTui

namespace OmuTui

/-- C5: on an obstacle-free grid, for walkable `start ≠ goal`,
`astar_path` returns a path whose length equals the Manhattan distance
(the true shortest-path distance on a 4-connected grid). -/
theorem c5_astar_optimal_path_length (h w : Nat) (start goal : Pt)
    (hs : is_in_bounds (allFloor h w) start.1 start.2)
    (hg : is_in_bounds (allFloor h w) goal.1 goal.2)
    (hsg : start ≠ goal)
    (hsmall : h * w + 2 < 1000000000)
    (fuel : Nat) (hfuel : 1 + (1 + h * w) * 1000000000 < fuel) :
    ∃ path, astar_path (allFloor h w) start goal [] fuel = some path ∧
      path.length = manhattan start goal := by
  have hsmallG : (allFloor h w).height * (allFloor h w).width + 2 <
      1000000000 := hsmall
  have hallow : ∀ j, j ≤ manhattan start goal →
      allowedP (allFloor h w) goal [] (stairPt start goal j) := fun j hj =>
    (allFloor_allowed_iff h w goal _).mpr
      (stairPt_in_bounds h w start goal hs hg j hj)
  have hwalk : is_walkable (allFloor h w) goal.1 goal.2 :=
    allFloor_walk h w goal hg
  have hcells : ∀ p, walkP (allFloor h w) p → p ∈ start :: allCells (allFloor h w) :=
    fun p hp => List.mem_cons_of_mem _ (mem_allCells (allFloor h w) p hp.1)
  have hpot : potential { heap := [(manhattan start goal, 0, start)], came := [(start, none)], gsc := [(start, 0)], closed := [] } (start :: allCells (allFloor h w)) < fuel := by
    have h1 := init_potential_le (allFloor h w) start goal
    have h2 : (allFloor h w).height * (allFloor h w).width = h * w := rfl
    rw [h2] at h1
    omega
  have hJinit : OptInv (allFloor h w) start goal []
      { heap := [(manhattan start goal, 0, start)], came := [(start, none)], gsc := [(start, 0)], closed := [] } := by
    refine ⟨fun p gs hp _ => absurd hp (List.not_mem_nil p),
      fun p gs hp _ => absurd hp (List.not_mem_nil p),
      0, Nat.zero_le _, ?_, ?_⟩
    · rw [stairPt_zero]
      simp [alook]
    · exact List.not_mem_nil _
  obtain ⟨st2, hloop, hc2, hce2, hdisj⟩ := astarLoop_spec (allFloor h w)
    start goal [] (start :: allCells (allFloor h w)) hcells hsmallG
    (OptInv (allFloor h w) start goal [])
    (optInv_expand (allFloor h w) start goal [] hsmallG hallow)
    (fun _ _ hJ => hJ) fuel
    { heap := [(manhattan start goal, 0, start)], came := [(start, none)], gsc := [(start, 0)], closed := [] }
    (init_core_inv (allFloor h w) start goal [])
    (fun p hp _ => absurd hp (List.not_mem_nil p)) hJinit
    (List.not_mem_nil goal) hpot
  have hred : astar_path (allFloor h w) start goal [] fuel =
      (if (alook st2.came goal).isNone then some []
       else reconstruct st2.came start fuel (some goal) []) := by
    unfold astar_path
    rw [if_neg hsg, if_neg (not_not_intro hwalk), hloop]
  rcases hdisj with ⟨hheap, hJ2, _⟩ |
    ⟨st1, e, heap1, hc1, hJ1, _, hpop, hgE, hnclE, hst2⟩
  · obtain ⟨_, _, k, hkM, hk, hknc⟩ := hJ2
    have hmem := hc2.openH _ k hk hknc
    rw [hheap] at hmem
    exact absurd hmem (List.not_mem_nil _)
  · obtain ⟨hmem, herase, hmin⟩ := popMin_spec st1.heap e heap1 hpop
    have hgs : alook st1.gsc goal = some e.2.1 := by
      have := popped_g_eq_gsc (allFloor h w) start goal [] st1 e heap1 hc1
        hpop hnclE
      rw [hgE] at this
      exact this
    obtain ⟨_, _, k, hkM, hk, hknc⟩ := hJ1
    have hstE : (k + manhattan (stairPt start goal k) goal, k,
        stairPt start goal k) ∈ st1.heap := hc1.openH _ k hk hknc
    have hminE := hmin _ hstE
    have hf : e.1 = e.2.1 + manhattan e.2.2 goal := (hc1.hEntry e hmem).2.1
    rw [hgE, manhattan_self] at hf
    have hlowg : manhattan start goal ≤ e.2.1 := hc1.gLower _ _ hgs
    have hmg := stairPt_man_goal start goal k hkM
    have he21 : e.2.1 = manhattan start goal := by
      unfold entryLe at hminE
      dsimp only at hminE
      omega
    rw [he21] at hgs
    have hgsceq : st2.gsc = st1.gsc := by rw [hst2]
    have hgs2 : alook st2.gsc goal = some (manhattan start goal) := by
      rw [hgsceq]
      exact hgs
    have hcs : (alook st2.came goal).isSome :=
      (hc2.domEq goal).mp (by rw [hgs2]; rfl)
    obtain ⟨op, hop⟩ := Option.isSome_iff_exists.mp hcs
    have hgsb : manhattan start goal ≤ st1.gsc.length :=
      hc1.gBound goal _ hgs
    have hlenb : st1.gsc.length ≤ 1 + h * w :=
      gsc_length_le (allFloor h w) start goal [] st1 hc1
    obtain ⟨pre, hrec, hch, hlen, _, hlast⟩ := reconstruct_spec (allFloor h w)
      start goal [] st2 hc2 fuel (manhattan start goal) goal [] hgs2 (by omega)
    have hlast2 : pre.getLast? = some goal := hlast (fun hx => hsg hx.symm)
    have hlow := chainFrom_manhattan (allowedP (allFloor h w) goal []) pre
      start goal hch hlast2
    refine ⟨pre, ?_, by omega⟩
    rw [List.append_nil] at hrec
    rw [hred, if_neg (by rw [hop]; simp), hrec]

end OmuTui

namespace OmuTui

theorem c5_witness :
    manhattan (0, 0) ((0, 5) : Pt) = 5 ∧
    ∃ path, astar_path (allFloor 1 7) (0, 0) (0, 5) [] 9000000000 = some path ∧
      path.length = manhattan (0, 0) ((0, 5) : Pt) :=
  ⟨by decide,
    c5_astar_optimal_path_length 1 7 (0, 0) (0, 5) (by decide) (by decide)
      (by decide) (by decide) 9000000000 (by decide)⟩

end OmuTui

namespace OmuTui

/-! ## `Game.generate_map`

Random draws are oracle parameters: `R` feeds `rnd.randint` (the draw
for `randint(lo, hi)` is rendered `lo + R n % (hi + 1 - lo)`, which
ranges over exactly `[lo, hi]`), `coin` decides each
`random.random() < 0.5` corridor orientation, and `sig` stands for
`random.shuffle` on the task-candidate floor list. -/

/-- Grid cell read (out-of-range reads default to a wall; the source
only indexes in range). -/
def gget (g : List (List Char)) (y x : Nat) : Char :=
  ((g.get? y).bind (fun row => row.get? x)).getD '#'

/-- `grid[y][x] = c`. -/
def gset (g : List (List Char)) (y x : Nat) (c : Char) : List (List Char) :=
  listSet g y (fun row => listSet row x (fun _ => c))

/-- `rnd.randint(lo, hi)` under oracle value `draw`. -/
def randint (lo hi draw : Nat) : Nat := lo + draw % (hi + 1 - lo)

/-- `carve_rect` (with its clamping to `[1, height-2] × [1, width-2]`). -/
def carve_rect (height width : Nat) (g : List (List Char))
    (y1 x1 y2 x2 : Nat) (ch : Char) : List (List Char) :=
  (List.range' (max 1 y1) (min (height - 1) (y2 + 1) - max 1 y1)).foldl
    (fun g y =>
      (List.range' (max 1 x1) (min (width - 1) (x2 + 1) - max 1 x1)).foldl
        (fun g x => gset g y x ch) g) g

/-- `carve_horiz` with the default `corridor_w = 3` (`dy ∈ [-1, 0, 1]`). -/
def carve_horiz (height width : Nat) (g : List (List Char))
    (y x1 x2 : Nat) : List (List Char) :=
  (List.range' (min x1 x2) (max x1 x2 + 1 - min x1 x2)).foldl
    (fun g x => ([-1, 0, 1] : List Int).foldl (fun g dy =>
      if 1 ≤ (y : Int) + dy ∧ (y : Int) + dy < (height : Int) - 1 ∧
          1 ≤ x ∧ x < width - 1 then
        gset g ((y : Int) + dy).toNat x '.'
      else g) g) g

/-- `carve_vert` with the default `corridor_w = 3` (`dx ∈ [-1, 0, 1]`). -/
def carve_vert (height width : Nat) (g : List (List Char))
    (x y1 y2 : Nat) : List (List Char) :=
  (List.range' (min y1 y2) (max y1 y2 + 1 - min y1 y2)).foldl
    (fun g y => ([-1, 0, 1] : List Int).foldl (fun g dx =>
      if 1 ≤ y ∧ y < height - 1 ∧ 1 ≤ (x : Int) + dx ∧
          (x : Int) + dx < (width : Int) - 1 then
        gset g y ((x : Int) + dx).toNat '.'
      else g) g) g

/-- A room rectangle `(y1, x1, y2, x2)`, inclusive corners. -/
abbrev Room := Nat × Nat × Nat × Nat

/-- `overlaps`, including the 2-cell separation padding. -/
def overlapsB (a b : Room) : Bool :=
  ! (decide (a.2.2.1 + 2 < b.1) || decide (b.2.2.1 + 2 < a.1) ||
     decide (a.2.2.2 + 2 < b.2.1) || decide (b.2.2.2 + 2 < a.2.1))

/-- The room-placement loop (`attempts < 200` is the fuel; `n` counts
oracle draws). -/
def roomsLoop (height width : Nat) (R : Nat → Nat) :
    Nat → Nat → Nat → List Room → List (List Char) →
    List Room × List (List Char)
  | 0, _, _, rooms, g => (rooms, g)
  | fuel + 1, n, target, rooms, g =>
    if rooms.length < target then
      if rooms.any (fun r => overlapsB
          (randint 2 (height - randint 5 8 (R (n + 1)) - 3) (R (n + 3)),
           randint 2 (width - randint 8 14 (R n) - 3) (R (n + 2)),
           randint 2 (height - randint 5 8 (R (n + 1)) - 3) (R (n + 3)) +
             randint 5 8 (R (n + 1)),
           randint 2 (width - randint 8 14 (R n) - 3) (R (n + 2)) +
             randint 8 14 (R n)) r) then
        roomsLoop height width R fuel (n + 4) target rooms g
      else
        roomsLoop height width R fuel (n + 4) target
          (rooms ++ [(randint 2 (height - randint 5 8 (R (n + 1)) - 3) (R (n + 3)),
            randint 2 (width - randint 8 14 (R n) - 3) (R (n + 2)),
            randint 2 (height - randint 5 8 (R (n + 1)) - 3) (R (n + 3)) +
              randint 5 8 (R (n + 1)),
            randint 2 (width - randint 8 14 (R n) - 3) (R (n + 2)) +
              randint 8 14 (R n))])
          (carve_rect height width g
            (randint 2 (height - randint 5 8 (R (n + 1)) - 3) (R (n + 3)))
            (randint 2 (width - randint 8 14 (R n) - 3) (R (n + 2)))
            (randint 2 (height - randint 5 8 (R (n + 1)) - 3) (R (n + 3)) +
              randint 5 8 (R (n + 1)))
            (randint 2 (width - randint 8 14 (R n) - 3) (R (n + 2)) +
              randint 8 14 (R n)) '.')
    else (rooms, g)

/-- `((r[0]+r[2])//2, (r[1]+r[3])//2)`. -/
def roomCenter (r : Room) : Nat × Nat :=
  ((r.1 + r.2.2.1) / 2, (r.2.1 + r.2.2.2) / 2)

/-- `abs (a - b)` over Python ints, on naturals. -/
def natDist (a b : Nat) : Nat := max a b - min a b

/-- `abs(yi - yj) + abs(xi - xj)` for centers `i`, `j`. -/
def pairDist (centers : List (Nat × Nat)) (i j : Nat) : Nat :=
  natDist (centers.getD i (0, 0)).1 (centers.getD j (0, 0)).1 +
  natDist (centers.getD i (0, 0)).2 (centers.getD j (0, 0)).2

/-- Inner fold of the nearest-pair scan (`for i in connected`). -/
def bestFoldI (centers : List (Nat × Nat)) (j : Nat) (connected : List Nat)
    (b0 : Option (Nat × Nat × Nat)) : Option (Nat × Nat × Nat) :=
  connected.foldl (fun b i =>
    match b with
    | none => some (pairDist centers i j, i, j)
    | some (bd, bi, bj) =>
      if pairDist centers i j < bd then some (pairDist centers i j, i, j)
      else some (bd, bi, bj)) b0

/-- The nearest `(d, i, j)` with `i` connected and `j` remaining
(`for j in remaining: for i in connected`). -/
def bestPair (centers : List (Nat × Nat)) (remaining connected : List Nat) :
    Option (Nat × Nat × Nat) :=
  remaining.foldl (fun b j => bestFoldI centers j connected b) none

/-- The greedy corridor loop (`while remaining`). -/
def connectLoop (height width : Nat) (coin : Nat → Bool)
    (centers : List (Nat × Nat)) :
    Nat → List Nat → List Nat → Nat → List (List Char) → List (List Char)
  | 0, _, _, _, g => g
  | fuel + 1, remaining, connected, m, g =>
    if remaining.isEmpty then g
    else
      match bestPair centers remaining connected with
      | none => g
      | some (_, i, j) =>
        connectLoop height width coin centers fuel (remaining.erase j)
          (connected ++ [j]) (m + 1)
          (if coin m then
            carve_vert height width
              (carve_horiz height width g (centers.getD i (0, 0)).1
                (centers.getD i (0, 0)).2 (centers.getD j (0, 0)).2)
              (centers.getD j (0, 0)).2 (centers.getD i (0, 0)).1
              (centers.getD j (0, 0)).1
          else
            carve_horiz height width
              (carve_vert height width g (centers.getD i (0, 0)).2
                (centers.getD i (0, 0)).1 (centers.getD j (0, 0)).1)
              (centers.getD j (0, 0)).1 (centers.getD i (0, 0)).2
              (centers.getD j (0, 0)).2)

/-- `if rooms:` — the corridor phase over the room-phase result. -/
def connectPhase (height width : Nat) (coin : Nat → Bool)
    (rg : List Room × List (List Char)) : List (List Char) :=
  if rg.1.isEmpty then rg.2
  else
    connectLoop height width coin (rg.1.map roomCenter)
      (rg.1.map roomCenter).length
      ((List.range (rg.1.map roomCenter).length).drop 1) [0] 0 rg.2

/-- The interior `'.'` cells, row-major, task candidates. -/
def floorCells (height width : Nat) (g : List (List Char)) :
    List (Nat × Nat) :=
  (List.range' 2 (height - 2 - 2)).bind (fun y =>
    ((List.range' 2 (width - 2 - 2)).filter
      (fun x => gget g y x == '.')).map (fun x => (y, x)))

/-- `random.shuffle(floor); for (ty, tx) in floor[:8]: grid[ty][tx] = 'T'`. -/
def taskPass (sig : List (Nat × Nat) → List (Nat × Nat))
    (height width : Nat) (g : List (List Char)) : List (List Char) :=
  ((sig (floorCells height width g)).take 8).foldl
    (fun g p => gset g p.1 p.2 'T') g

/-- `Game.generate_map` for the default arguments used by the game
(`corridor_w = 3`, `room_count = (5, 7)`). -/
def generate_map (R : Nat → Nat) (coin : Nat → Bool)
    (sig : List (Nat × Nat) → List (Nat × Nat)) (width height : Nat) :
    List (List Char) :=
  taskPass sig height width
    (connectPhase height width coin
      (roomsLoop height width R 200 1 (randint 5 7 (R 0)) []
        (List.replicate height (List.replicate width '#'))))

/-- The rooms placed by the same run of the generator. -/
def genRooms (R : Nat → Nat) (width height : Nat) : List Room :=
  (roomsLoop height width R 200 1 (randint 5 7 (R 0)) []
    (List.replicate height (List.replicate width '#'))).1

/-- A non-wall (Floor or Task) cell of the grid. -/
def nonWallP (g : List (List Char)) (p : Pt) : Prop :=
  0 ≤ p.1 ∧ 0 ≤ p.2 ∧ gget g p.1.toNat p.2.toNat ≠ '#'

/-- Membership of a point in a room rectangle. -/
def roomCellP (r : Room) (p : Pt) : Prop :=
  (r.1 : Int) ≤ p.1 ∧ p.1 ≤ (r.2.2.1 : Int) ∧
  (r.2.1 : Int) ≤ p.2 ∧ p.2 ≤ (r.2.2.2 : Int)

end OmuTui

namespace OmuTui

/-- All rows present and of width `width`. -/
def wfGrid (g : List (List Char)) (height width : Nat) : Prop :=
  g.length = height ∧ ∀ i row, g.get? i = some row → row.length = width

theorem listSet_length {α : Type} :
    ∀ (l : List α) (j : Nat) (f : α → α), (listSet l j f).length = l.length := by
  intro l
  induction l with
  | nil => intro j f; rfl
  | cons a t ih =>
    intro j f
    cases j with
    | zero => rfl
    | succ k => simpa [listSet] using ih k f

theorem wf_gset (g : List (List Char)) (height width : Nat) (y x : Nat)
    (c : Char) (hwf : wfGrid g height width) :
    wfGrid (gset g y x c) height width := by
  obtain ⟨hlen, hrow⟩ := hwf
  refine ⟨by rw [← hlen]; exact listSet_length g y _, ?_⟩
  intro i row hi
  by_cases hiy : i = y
  · subst hiy
    rw [gset, listSet_get?_self] at hi
    match hg : g.get? i with
    | none => rw [hg] at hi; cases hi
    | some row0 =>
      rw [hg] at hi
      have : listSet row0 x (fun _ => c) = row := Option.some.inj hi
      rw [← this, listSet_length]
      exact hrow i row0 hg
  · rw [gset, listSet_get?_ne g y i _ hiy] at hi
    exact hrow i row hi

/-- Any single write leaves a cell either holding the written character
or unchanged. -/
theorem gget_gset_cases (g : List (List Char)) (y x : Nat) (c : Char)
    (y2 x2 : Nat) :
    gget (gset g y x c) y2 x2 = c ∨ gget (gset g y x c) y2 x2 = gget g y2 x2 := by
  by_cases hy : y2 = y
  · subst hy
    unfold gget gset
    rw [listSet_get?_self]
    match hg : g.get? y2 with
    | none => exact Or.inr rfl
    | some row =>
      simp only [Option.map_some', Option.some_bind]
      by_cases hx : x2 = x
      · subst hx
        rw [listSet_get?_self]
        match hr : row.get? x2 with
        | none => exact Or.inr rfl
        | some ch => exact Or.inl rfl
      · rw [listSet_get?_ne row x x2 _ hx]
        exact Or.inr rfl
  · unfold gget gset
    rw [listSet_get?_ne g y y2 _ hy]
    exact Or.inr rfl

/-- A write to a different cell never changes a read. -/
theorem gget_gset_frame (g : List (List Char)) (y x : Nat) (c : Char)
    (y2 x2 : Nat) (h : y2 ≠ y ∨ x2 ≠ x) :
    gget (gset g y x c) y2 x2 = gget g y2 x2 := by
  rcases h with hy | hx
  · unfold gget gset
    rw [listSet_get?_ne g y y2 _ hy]
  · by_cases hy : y2 = y
    · subst hy
      unfold gget gset
      rw [listSet_get?_self]
      match hg : g.get? y2 with
      | none => rfl
      | some row =>
        simp only [Option.map_some', Option.some_bind]
        rw [listSet_get?_ne row x x2 _ hx]
    · unfold gget gset
      rw [listSet_get?_ne g y y2 _ hy]

/-- An in-bounds write lands. -/
theorem gget_gset_self (g : List (List Char)) (height width : Nat)
    (hwf : wfGrid g height width) (y x : Nat) (c : Char)
    (hy : y < height) (hx : x < width) :
    gget (gset g y x c) y x = c := by
  obtain ⟨hlen, hrow⟩ := hwf
  have hyl : y < g.length := by omega
  have hg : g.get? y = some (g.get ⟨y, hyl⟩) := List.get?_eq_get hyl
  unfold gget gset
  rw [listSet_get?_self, hg]
  simp only [Option.map_some', Option.some_bind]
  have hxl : x < (g.get ⟨y, hyl⟩).length := by
    rw [hrow y _ hg]
    exact hx
  have hr : (g.get ⟨y, hyl⟩).get? x =
      some ((g.get ⟨y, hyl⟩).get ⟨x, hxl⟩) := List.get?_eq_get hxl
  rw [listSet_get?_self, hr]
  rfl

/-- Folding a state-preserving step preserves the state predicate. -/
theorem foldl_pres {α β : Type} (P : α → Prop) (f : α → β → α)
    (h : ∀ a b, P a → P (f a b)) :
    ∀ (l : List β) (a : α), P a → P (l.foldl f a) := by
  intro l
  induction l with
  | nil => intro a ha; exact ha
  | cons b t ih =>
    intro a ha
    rw [List.foldl_cons]
    exact ih (f a b) (h a b ha)

theorem reach_mono (allow1 allow2 : Pt → Prop)
    (h : ∀ p, allow1 p → allow2 p) :
    ∀ a b, Reach allow1 a b → Reach allow2 a b := by
  intro a b hr
  induction hr with
  | refl => exact Reach.refl _
  | tail _ hm hal ih => exact Reach.tail ih hm (h _ hal)

/-- Horizontal segment of allowed cells, traversed in either
direction. -/
theorem reach_horiz (allow : Pt → Prop) (y : Int) :
    ∀ (n : Nat) (a b : Int), (b = a + n ∨ a = b + n) →
      (∀ x : Int, min a b ≤ x → x ≤ max a b → allow (y, x)) →
      Reach allow (y, a) (y, b) := by
  intro n
  induction n with
  | zero =>
    intro a b hab _
    have : a = b := by omega
    rw [this]
    exact Reach.refl _
  | succ n ih =>
    intro a b hab hall
    rcases hab with hb | ha
    · have hr : Reach allow (y, a) (y, a + n) :=
        ih a (a + n) (Or.inl rfl) (fun x h1 h2 => hall x (by omega) (by omega))
      refine Reach.tail hr ?_ (hall b (by omega) (by omega))
      unfold manhattan
      dsimp only
      omega
    · have hr : Reach allow (y, a) (y, b + 1) :=
        ih a (b + 1) (Or.inr (by omega))
          (fun x h1 h2 => hall x (by omega) (by omega))
      refine Reach.tail hr ?_ (hall b (by omega) (by omega))
      unfold manhattan
      dsimp only
      omega

/-- Vertical segment of allowed cells, traversed in either direction. -/
theorem reach_vert (allow : Pt → Prop) (x : Int) :
    ∀ (n : Nat) (a b : Int), (b = a + n ∨ a = b + n) →
      (∀ y : Int, min a b ≤ y → y ≤ max a b → allow (y, x)) →
      Reach allow (a, x) (b, x) := by
  intro n
  induction n with
  | zero =>
    intro a b hab _
    have : a = b := by omega
    rw [this]
    exact Reach.refl _
  | succ n ih =>
    intro a b hab hall
    rcases hab with hb | ha
    · have hr : Reach allow (a, x) (a + n, x) :=
        ih a (a + n) (Or.inl rfl) (fun z h1 h2 => hall z (by omega) (by omega))
      refine Reach.tail hr ?_ (hall b (by omega) (by omega))
      unfold manhattan
      dsimp only
      omega
    · have hr : Reach allow (a, x) (b + 1, x) :=
        ih a (b + 1) (Or.inr (by omega))
          (fun z h1 h2 => hall z (by omega) (by omega))
      refine Reach.tail hr ?_ (hall b (by omega) (by omega))
      unfold manhattan
      dsimp only
      omega

/-- Any two cells of a fully allowed rectangle are mutually reachable
(first along the row, then along the column). -/
theorem rect_reach (allow : Pt → Prop) (y1 x1 y2 x2 : Int)
    (hall : ∀ p : Pt, y1 ≤ p.1 → p.1 ≤ y2 → x1 ≤ p.2 → p.2 ≤ x2 → allow p)
    (p q : Pt) (hp : y1 ≤ p.1 ∧ p.1 ≤ y2 ∧ x1 ≤ p.2 ∧ p.2 ≤ x2)
    (hq : y1 ≤ q.1 ∧ q.1 ≤ y2 ∧ x1 ≤ q.2 ∧ q.2 ≤ x2) :
    Reach allow p q := by
  have h1 : Reach allow (p.1, p.2) (p.1, q.2) := by
    refine reach_horiz allow p.1 (max p.2 q.2 - min p.2 q.2).toNat p.2 q.2
      (by omega) ?_
    intro x hx1 hx2
    exact hall (p.1, x) hp.1 hp.2.1 (by omega) (by omega)
  have h2 : Reach allow (p.1, q.2) (q.1, q.2) := by
    refine reach_vert allow q.2 (max p.1 q.1 - min p.1 q.1).toNat p.1 q.1
      (by omega) ?_
    intro z hz1 hz2
    exact hall (z, q.2) (by omega) (by omega) (by omega) (by omega)
  have hpe : p = (p.1, p.2) := rfl
  have hqe : q = (q.1, q.2) := rfl
  rw [hpe, hqe]
  exact reach_trans allow h1 h2

end OmuTui

namespace OmuTui

theorem gget_gset_dot (y0 x0 : Nat) (a : List (List Char)) (y2 x2 : Nat)
    (h : gget a y0 x0 = '.') : gget (gset a y2 x2 '.') y0 x0 = '.' := by
  rcases gget_gset_cases a y2 x2 '.' y0 x0 with hc | hc
  · rw [hc]
  · rw [hc]; exact h

theorem gget_gset_nonwall (y0 x0 : Nat) (a : List (List Char)) (y2 x2 : Nat)
    (c : Char) (hc : c ≠ '#') (h : gget a y0 x0 ≠ '#') :
    gget (gset a y2 x2 c) y0 x0 ≠ '#' := by
  rcases gget_gset_cases a y2 x2 c y0 x0 with hcs | hcs
  · rw [hcs]; exact hc
  · rw [hcs]; exact h

theorem carve_rect_pres (P : List (List Char) → Prop) (height width : Nat)
    (y1 x1 y2 x2 : Nat) (ch : Char)
    (hP : ∀ g y x, P g → P (gset g y x ch)) (g : List (List Char))
    (hg : P g) : P (carve_rect height width g y1 x1 y2 x2 ch) := by
  unfold carve_rect
  refine foldl_pres P _ ?_ _ g hg
  intro a y ha
  exact foldl_pres P _ (fun a2 x ha2 => hP a2 y x ha2) _ a ha

theorem carve_horiz_pres (P : List (List Char) → Prop) (height width : Nat)
    (y x1 x2 : Nat) (hP : ∀ g yb xb, P g → P (gset g yb xb '.'))
    (g : List (List Char)) (hg : P g) :
    P (carve_horiz height width g y x1 x2) := by
  unfold carve_horiz
  refine foldl_pres P _ ?_ _ g hg
  intro a x ha
  refine foldl_pres P _ ?_ _ a ha
  intro a2 dy ha2
  split
  · exact hP a2 _ _ ha2
  · exact ha2

theorem carve_vert_pres (P : List (List Char) → Prop) (height width : Nat)
    (x y1 y2 : Nat) (hP : ∀ g yb xb, P g → P (gset g yb xb '.'))
    (g : List (List Char)) (hg : P g) :
    P (carve_vert height width g x y1 y2) := by
  unfold carve_vert
  refine foldl_pres P _ ?_ _ g hg
  intro a y ha
  refine foldl_pres P _ ?_ _ a ha
  intro a2 dx ha2
  split
  · exact hP a2 _ _ ha2
  · exact ha2

theorem fold_row_sets (height width : Nat) (y : Nat) (ch : Char) :
    ∀ (l : List Nat) (g : List (List Char)), wfGrid g height width →
      y < height → ∀ x0, x0 ∈ l → x0 < width →
      gget (l.foldl (fun g x => gset g y x ch) g) y x0 = ch := by
  intro l
  induction l with
  | nil =>
    intro g _ _ x0 h
    exact absurd h (List.not_mem_nil x0)
  | cons x t ih =>
    intro g hwf hy x0 hx0 hxW
    rw [List.foldl_cons]
    rcases List.mem_cons.mp hx0 with rfl | hmem
    · have h1 : gget (gset g y x0 ch) y x0 = ch :=
        gget_gset_self g height width hwf y x0 ch hy hxW
      refine foldl_pres (fun a => gget a y x0 = ch) _ ?_ t _ h1
      intro a x2 ha
      rcases gget_gset_cases a y x2 ch y x0 with h | h
      · rw [h]
      · rw [h]; exact ha
    · exact ih (gset g y x ch) (wf_gset g height width y x ch hwf) hy x0 hmem hxW

theorem fold_rect_go (height width : Nat) (xs : List Nat) (ch : Char)
    (y0 x0 : Nat) (hy : y0 < height) (hx : x0 < width) (hx0 : x0 ∈ xs) :
    ∀ (ys : List Nat) (g : List (List Char)), wfGrid g height width →
      y0 ∈ ys →
      gget (ys.foldl (fun g y => xs.foldl (fun g x => gset g y x ch) g) g)
        y0 x0 = ch := by
  intro ys
  induction ys with
  | nil =>
    intro g _ h
    exact absurd h (List.not_mem_nil y0)
  | cons y t ih =>
    intro g hwf hy0
    rw [List.foldl_cons]
    rcases List.mem_cons.mp hy0 with rfl | hmem
    · have h1 : gget (xs.foldl (fun g x => gset g y0 x ch) g) y0 x0 = ch :=
        fold_row_sets height width y0 ch xs g hwf hy x0 hx0 hx
      refine foldl_pres (fun a => gget a y0 x0 = ch) _ ?_ t _ h1
      intro a y2 ha
      refine foldl_pres (fun a => gget a y0 x0 = ch) _ ?_ xs a ha
      intro a2 x2 ha2
      rcases gget_gset_cases a2 y2 x2 ch y0 x0 with h | h
      · rw [h]
      · rw [h]; exact ha2
    · refine ih (xs.foldl (fun g x => gset g y x ch) g) ?_ hmem
      exact foldl_pres (fun a => wfGrid a height width) _
        (fun a2 x2 ha2 => wf_gset a2 height width y x2 ch ha2) xs g hwf

theorem carve_rect_sets (height width : Nat) (g : List (List Char))
    (hwf : wfGrid g height width) (y1 x1 y2 x2 : Nat) (ch : Char)
    (y0 x0 : Nat)
    (hy0a : max 1 y1 ≤ y0) (hy0b : y0 < min (height - 1) (y2 + 1))
    (hx0a : max 1 x1 ≤ x0) (hx0b : x0 < min (width - 1) (x2 + 1)) :
    gget (carve_rect height width g y1 x1 y2 x2 ch) y0 x0 = ch := by
  unfold carve_rect
  refine fold_rect_go height width _ ch y0 x0 (by omega) (by omega) ?_ _ g hwf ?_
  · rw [List.mem_range'_1]
    omega
  · rw [List.mem_range'_1]
    omega

theorem horiz_step_wf (height width : Nat) (y x : Nat) (dy : Int)
    (g : List (List Char)) (hwf : wfGrid g height width) :
    wfGrid (if 1 ≤ (y : Int) + dy ∧ (y : Int) + dy < (height : Int) - 1 ∧
        1 ≤ x ∧ x < width - 1 then gset g ((y : Int) + dy).toNat x '.' else g)
      height width := by
  split
  · exact wf_gset _ _ _ _ _ _ hwf
  · exact hwf

theorem vert_step_wf (height width : Nat) (x y : Nat) (dx : Int)
    (g : List (List Char)) (hwf : wfGrid g height width) :
    wfGrid (if 1 ≤ y ∧ y < height - 1 ∧ 1 ≤ (x : Int) + dx ∧
        (x : Int) + dx < (width : Int) - 1 then
      gset g y ((x : Int) + dx).toNat '.' else g) height width := by
  split
  · exact wf_gset _ _ _ _ _ _ hwf
  · exact hwf

theorem horiz_inner_sets (height width : Nat) (y x : Nat)
    (g : List (List Char)) (hwf : wfGrid g height width)
    (hy1 : 1 ≤ y) (hy2 : y + 2 ≤ height) (hx1 : 1 ≤ x) (hx2 : x + 2 ≤ width) :
    gget (([-1, 0, 1] : List Int).foldl (fun g dy =>
      if 1 ≤ (y : Int) + dy ∧ (y : Int) + dy < (height : Int) - 1 ∧
          1 ≤ x ∧ x < width - 1 then
        gset g ((y : Int) + dy).toNat x '.'
      else g) g) y x = '.' := by
  simp only [List.foldl_cons, List.foldl_nil]
  have hwf1 := horiz_step_wf height width y x (-1) g hwf
  have hcond0 : 1 ≤ (y : Int) + 0 ∧ (y : Int) + 0 < (height : Int) - 1 ∧
      1 ≤ x ∧ x < width - 1 := by
    refine ⟨by omega, by omega, by omega, by omega⟩
  rw [if_pos hcond0]
  have htn : ((y : Int) + 0).toNat = y := by omega
  rw [htn]
  split
  · refine gget_gset_dot y x _ _ _ ?_
    exact gget_gset_self _ height width hwf1 y x '.' (by omega) (by omega)
  · exact gget_gset_self _ height width hwf1 y x '.' (by omega) (by omega)

theorem vert_inner_sets (height width : Nat) (x y : Nat)
    (g : List (List Char)) (hwf : wfGrid g height width)
    (hy1 : 1 ≤ y) (hy2 : y + 2 ≤ height) (hx1 : 1 ≤ x) (hx2 : x + 2 ≤ width) :
    gget (([-1, 0, 1] : List Int).foldl (fun g dx =>
      if 1 ≤ y ∧ y < height - 1 ∧ 1 ≤ (x : Int) + dx ∧
          (x : Int) + dx < (width : Int) - 1 then
        gset g y ((x : Int) + dx).toNat '.'
      else g) g) y x = '.' := by
  simp only [List.foldl_cons, List.foldl_nil]
  have hwf1 := vert_step_wf height width x y (-1) g hwf
  have hcond0 : 1 ≤ y ∧ y < height - 1 ∧ 1 ≤ (x : Int) + 0 ∧
      (x : Int) + 0 < (width : Int) - 1 := by
    refine ⟨by omega, by omega, by omega, by omega⟩
  rw [if_pos hcond0]
  have htn : ((x : Int) + 0).toNat = x := by omega
  rw [htn]
  split
  · refine gget_gset_dot y x _ _ _ ?_
    exact gget_gset_self _ height width hwf1 y x '.' (by omega) (by omega)
  · exact gget_gset_self _ height width hwf1 y x '.' (by omega) (by omega)

theorem fold_horiz_go (height width y : Nat) (hy1 : 1 ≤ y)
    (hy2 : y + 2 ≤ height) (x0 : Nat) (hx1 : 1 ≤ x0) (hx2 : x0 + 2 ≤ width) :
    ∀ (xs : List Nat) (g : List (List Char)), wfGrid g height width →
      x0 ∈ xs →
      gget (xs.foldl (fun g x => ([-1, 0, 1] : List Int).foldl (fun g dy =>
        if 1 ≤ (y : Int) + dy ∧ (y : Int) + dy < (height : Int) - 1 ∧
            1 ≤ x ∧ x < width - 1 then
          gset g ((y : Int) + dy).toNat x '.'
        else g) g) g) y x0 = '.' := by
  intro xs
  induction xs with
  | nil =>
    intro g _ h
    exact absurd h (List.not_mem_nil x0)
  | cons x t ih =>
    intro g hwf hx0
    rw [List.foldl_cons]
    rcases List.mem_cons.mp hx0 with rfl | hmem
    · have h1 := horiz_inner_sets height width y x0 g hwf hy1 hy2 hx1 hx2
      refine foldl_pres (fun a => gget a y x0 = '.') _ ?_ t _ h1
      intro a x2b ha
      refine foldl_pres (fun a => gget a y x0 = '.') _ ?_ _ a ha
      intro a2 dy ha2
      split
      · exact gget_gset_dot y x0 a2 _ _ ha2
      · exact ha2
    · exact ih _
        (foldl_pres (fun a => wfGrid a height width) _
          (fun a2 dy ha2 => horiz_step_wf height width y x dy a2 ha2) _ g hwf)
        hmem

theorem carve_horiz_sets (height width : Nat) (g : List (List Char))
    (hwf : wfGrid g height width) (y x1 x2 : Nat)
    (hy1 : 1 ≤ y) (hy2 : y + 2 ≤ height) (x0 : Nat)
    (hmin : min x1 x2 ≤ x0) (hmax : x0 ≤ max x1 x2)
    (hx1 : 1 ≤ x0) (hx2 : x0 + 2 ≤ width) :
    gget (carve_horiz height width g y x1 x2) y x0 = '.' := by
  unfold carve_horiz
  refine fold_horiz_go height width y hy1 hy2 x0 hx1 hx2 _ g hwf ?_
  rw [List.mem_range'_1]
  omega

theorem fold_vert_go (height width x : Nat) (hx1 : 1 ≤ x)
    (hx2 : x + 2 ≤ width) (y0 : Nat) (hy1 : 1 ≤ y0) (hy2 : y0 + 2 ≤ height) :
    ∀ (ys : List Nat) (g : List (List Char)), wfGrid g height width →
      y0 ∈ ys →
      gget (ys.foldl (fun g y => ([-1, 0, 1] : List Int).foldl (fun g dx =>
        if 1 ≤ y ∧ y < height - 1 ∧ 1 ≤ (x : Int) + dx ∧
            (x : Int) + dx < (width : Int) - 1 then
          gset g y ((x : Int) + dx).toNat '.'
        else g) g) g) y0 x = '.' := by
  intro ys
  induction ys with
  | nil =>
    intro g _ h
    exact absurd h (List.not_mem_nil y0)
  | cons y t ih =>
    intro g hwf hy0
    rw [List.foldl_cons]
    rcases List.mem_cons.mp hy0 with rfl | hmem
    · have h1 := vert_inner_sets height width x y0 g hwf hy1 hy2 hx1 hx2
      refine foldl_pres (fun a => gget a y0 x = '.') _ ?_ t _ h1
      intro a y2b ha
      refine foldl_pres (fun a => gget a y0 x = '.') _ ?_ _ a ha
      intro a2 dx ha2
      split
      · exact gget_gset_dot y0 x a2 _ _ ha2
      · exact ha2
    · exact ih _
        (foldl_pres (fun a => wfGrid a height width) _
          (fun a2 dx ha2 => vert_step_wf height width x y dx a2 ha2) _ g hwf)
        hmem

theorem carve_vert_sets (height width : Nat) (g : List (List Char))
    (hwf : wfGrid g height width) (x y1 y2 : Nat)
    (hx1 : 1 ≤ x) (hx2 : x + 2 ≤ width) (y0 : Nat)
    (hmin : min y1 y2 ≤ y0) (hmax : y0 ≤ max y1 y2)
    (hy1 : 1 ≤ y0) (hy2 : y0 + 2 ≤ height) :
    gget (carve_vert height width g x y1 y2) y0 x = '.' := by
  unfold carve_vert
  refine fold_vert_go height width x hx1 hx2 y0 hy1 hy2 _ g hwf ?_
  rw [List.mem_range'_1]
  omega

end OmuTui

namespace OmuTui

theorem randint_le (lo hi draw : Nat) (h : lo ≤ hi) :
    lo ≤ randint lo hi draw ∧ randint lo hi draw ≤ hi := by
  unfold randint
  have hlt := Nat.mod_lt draw (show 0 < hi + 1 - lo by omega)
  omega

/-- Room-phase invariant: rooms sit in `[2, height-3] × [2, width-3]`
and their rectangles are fully carved. -/
structure RoomInv (height width : Nat) (rooms : List Room)
    (g : List (List Char)) : Prop where
  wf : wfGrid g height width
  bounds : ∀ r ∈ rooms, 2 ≤ r.1 ∧ r.1 ≤ r.2.2.1 ∧ r.2.2.1 + 3 ≤ height ∧
    2 ≤ r.2.1 ∧ r.2.1 ≤ r.2.2.2 ∧ r.2.2.2 + 3 ≤ width
  carved : ∀ r ∈ rooms, ∀ y x, r.1 ≤ y → y ≤ r.2.2.1 → r.2.1 ≤ x →
    x ≤ r.2.2.2 → gget g y x = '.'

theorem roomsLoop_inv (height width : Nat) (R : Nat → Nat)
    (hW : 19 ≤ width) (hH : 13 ≤ height) :
    ∀ fuel n target rooms g, RoomInv height width rooms g →
      RoomInv height width (roomsLoop height width R fuel n target rooms g).1
        (roomsLoop height width R fuel n target rooms g).2 := by
  intro fuel
  induction fuel with
  | zero =>
    intro n target rooms g h
    exact h
  | succ fuel ih =>
    intro n target rooms g h
    rw [roomsLoop]
    by_cases hlen : rooms.length < target
    · rw [if_pos hlen]
      by_cases hov : rooms.any (fun r => overlapsB
          (randint 2 (height - randint 5 8 (R (n + 1)) - 3) (R (n + 3)),
           randint 2 (width - randint 8 14 (R n) - 3) (R (n + 2)),
           randint 2 (height - randint 5 8 (R (n + 1)) - 3) (R (n + 3)) +
             randint 5 8 (R (n + 1)),
           randint 2 (width - randint 8 14 (R n) - 3) (R (n + 2)) +
             randint 8 14 (R n)) r) = true
      · rw [if_pos hov]
        exact ih (n + 4) target rooms g h
      · rw [if_neg hov]
        refine ih (n + 4) target _ _ ?_
        have hrw := randint_le 8 14 (R n) (by omega)
        have hrh := randint_le 5 8 (R (n + 1)) (by omega)
        have hrx := randint_le 2 (width - randint 8 14 (R n) - 3) (R (n + 2))
          (by omega)
        have hry := randint_le 2 (height - randint 5 8 (R (n + 1)) - 3)
          (R (n + 3)) (by omega)
        refine ⟨?_, ?_, ?_⟩
        · exact carve_rect_pres (fun a => wfGrid a height width) height width
            _ _ _ _ '.' (fun a y x ha => wf_gset a height width y x '.' ha)
            g h.wf
        · intro r hr
          rcases List.mem_append.mp hr with hr | hr
          · exact h.bounds r hr
          · rw [List.mem_singleton] at hr
            subst hr
            dsimp only
            omega
        · intro r hr y x hy1 hy2 hx1 hx2
          rcases List.mem_append.mp hr with hr | hr
          · exact carve_rect_pres (fun a => gget a y x = '.') height width
              _ _ _ _ '.' (fun a yb xb ha => gget_gset_dot y x a yb xb ha)
              g (h.carved r hr y x hy1 hy2 hx1 hx2)
          · rw [List.mem_singleton] at hr
            subst hr
            dsimp only at hy1 hy2 hx1 hx2
            refine carve_rect_sets height width g h.wf _ _ _ _ '.' y x ?_ ?_ ?_ ?_
            · omega
            · omega
            · omega
            · omega
    · rw [if_neg hlen]
      exact h

end OmuTui

namespace OmuTui

def centerPt (c : Nat × Nat) : Pt := ((c.1 : Int), (c.2 : Int))

/-- Carving an L-corridor between two interior points keeps the grid
well-formed, only grows the non-wall set, and connects the two points
in both directions. -/
theorem lcorridor_spec (height width : Nat) (g : List (List Char))
    (hwf : wfGrid g height width) (ci cj : Nat × Nat)
    (hci : 2 ≤ ci.1 ∧ ci.1 + 3 ≤ height ∧ 2 ≤ ci.2 ∧ ci.2 + 3 ≤ width)
    (hcj : 2 ≤ cj.1 ∧ cj.1 + 3 ≤ height ∧ 2 ≤ cj.2 ∧ cj.2 + 3 ≤ width)
    (b : Bool) :
    wfGrid (if b then
        carve_vert height width (carve_horiz height width g ci.1 ci.2 cj.2)
          cj.2 ci.1 cj.1
      else
        carve_horiz height width (carve_vert height width g ci.2 ci.1 cj.1)
          cj.1 ci.2 cj.2) height width ∧
    (∀ p, nonWallP g p → nonWallP (if b then
        carve_vert height width (carve_horiz height width g ci.1 ci.2 cj.2)
          cj.2 ci.1 cj.1
      else
        carve_horiz height width (carve_vert height width g ci.2 ci.1 cj.1)
          cj.1 ci.2 cj.2) p) ∧
    Reach (nonWallP (if b then
        carve_vert height width (carve_horiz height width g ci.1 ci.2 cj.2)
          cj.2 ci.1 cj.1
      else
        carve_horiz height width (carve_vert height width g ci.2 ci.1 cj.1)
          cj.1 ci.2 cj.2)) (centerPt ci) (centerPt cj) ∧
    Reach (nonWallP (if b then
        carve_vert height width (carve_horiz height width g ci.1 ci.2 cj.2)
          cj.2 ci.1 cj.1
      else
        carve_horiz height width (carve_vert height width g ci.2 ci.1 cj.1)
          cj.1 ci.2 cj.2)) (centerPt cj) (centerPt ci) := by
  cases b
  · simp only [if_neg Bool.false_ne_true]
    have hwf1 : wfGrid (carve_vert height width g ci.2 ci.1 cj.1)
        height width :=
      carve_vert_pres (fun a => wfGrid a height width) height width _ _ _
        (fun a yb xb ha => wf_gset a height width yb xb '.' ha) g hwf
    have hwf2 : wfGrid (carve_horiz height width
        (carve_vert height width g ci.2 ci.1 cj.1) cj.1 ci.2 cj.2)
        height width :=
      carve_horiz_pres (fun a => wfGrid a height width) height width _ _ _
        (fun a yb xb ha => wf_gset a height width yb xb '.' ha) _ hwf1
    have hcol : ∀ y0, min ci.1 cj.1 ≤ y0 → y0 ≤ max ci.1 cj.1 →
        gget (carve_horiz height width
          (carve_vert height width g ci.2 ci.1 cj.1) cj.1 ci.2 cj.2)
          y0 ci.2 = '.' := by
      intro y0 h1 h2
      refine carve_horiz_pres (fun a => gget a y0 ci.2 = '.') height width
        _ _ _ (fun a yb xb ha => gget_gset_dot _ _ a yb xb ha) _ ?_
      exact carve_vert_sets height width g hwf ci.2 ci.1 cj.1
        (by omega) (by omega) y0 h1 h2 (by omega) (by omega)
    have hrow : ∀ x0, min ci.2 cj.2 ≤ x0 → x0 ≤ max ci.2 cj.2 →
        gget (carve_horiz height width
          (carve_vert height width g ci.2 ci.1 cj.1) cj.1 ci.2 cj.2)
          cj.1 x0 = '.' := by
      intro x0 h1 h2
      exact carve_horiz_sets height width _ hwf1 cj.1 ci.2 cj.2
        (by omega) (by omega) x0 h1 h2 (by omega) (by omega)
    have hmono : ∀ p, nonWallP g p → nonWallP (carve_horiz height width
        (carve_vert height width g ci.2 ci.1 cj.1) cj.1 ci.2 cj.2) p := by
      intro p hp
      refine ⟨hp.1, hp.2.1, ?_⟩
      refine carve_horiz_pres (fun a => gget a p.1.toNat p.2.toNat ≠ '#')
        height width _ _ _
        (fun a yb xb ha => gget_gset_nonwall _ _ a yb xb '.' (by decide) ha)
        _ ?_
      refine carve_vert_pres (fun a => gget a p.1.toNat p.2.toNat ≠ '#')
        height width _ _ _
        (fun a yb xb ha => gget_gset_nonwall _ _ a yb xb '.' (by decide) ha)
        g hp.2.2
    have hvreach : Reach (nonWallP (carve_horiz height width
        (carve_vert height width g ci.2 ci.1 cj.1) cj.1 ci.2 cj.2))
        (centerPt ci) ((cj.1 : Int), (ci.2 : Int)) := by
      refine reach_vert _ (ci.2 : Int) (natDist ci.1 cj.1) (ci.1 : Int)
        (cj.1 : Int) (by unfold natDist; omega) ?_
      intro z h1 h2
      refine ⟨by omega, by omega, ?_⟩
      have ht1 : ((z, (ci.2 : Int)) : Pt).1.toNat = z.toNat := rfl
      have ht2 : ((z, (ci.2 : Int)) : Pt).2.toNat = ci.2 := by
        dsimp only
        omega
      rw [ht1, ht2, hcol z.toNat (by omega) (by omega)]
      decide
    have hhreach : Reach (nonWallP (carve_horiz height width
        (carve_vert height width g ci.2 ci.1 cj.1) cj.1 ci.2 cj.2))
        ((cj.1 : Int), (ci.2 : Int)) (centerPt cj) := by
      refine reach_horiz _ (cj.1 : Int) (natDist ci.2 cj.2) (ci.2 : Int)
        (cj.2 : Int) (by unfold natDist; omega) ?_
      intro x h1 h2
      refine ⟨by omega, by omega, ?_⟩
      have ht1 : (((cj.1 : Int), x) : Pt).1.toNat = cj.1 := by
        dsimp only
        omega
      have ht2 : (((cj.1 : Int), x) : Pt).2.toNat = x.toNat := rfl
      rw [ht1, ht2, hrow x.toNat (by omega) (by omega)]
      decide
    refine ⟨hwf2, hmono, reach_trans _ hvreach hhreach, ?_⟩
    exact reach_trans _
      (reach_horiz _ (cj.1 : Int) (natDist ci.2 cj.2) (cj.2 : Int)
        (ci.2 : Int) (by unfold natDist; omega) (fun x h1 h2 => by
          refine ⟨by omega, by omega, ?_⟩
          have ht1 : (((cj.1 : Int), x) : Pt).1.toNat = cj.1 := by
            dsimp only
            omega
          have ht2 : (((cj.1 : Int), x) : Pt).2.toNat = x.toNat := rfl
          rw [ht1, ht2, hrow x.toNat (by omega) (by omega)]
          decide))
      (reach_vert _ (ci.2 : Int) (natDist ci.1 cj.1) (cj.1 : Int)
        (ci.1 : Int) (by unfold natDist; omega) (fun z h1 h2 => by
          refine ⟨by omega, by omega, ?_⟩
          have ht1 : ((z, (ci.2 : Int)) : Pt).1.toNat = z.toNat := rfl
          have ht2 : ((z, (ci.2 : Int)) : Pt).2.toNat = ci.2 := by
            dsimp only
            omega
          rw [ht1, ht2, hcol z.toNat (by omega) (by omega)]
          decide))
  · simp only [eq_self_iff_true, if_true]
    have hwf1 : wfGrid (carve_horiz height width g ci.1 ci.2 cj.2)
        height width :=
      carve_horiz_pres (fun a => wfGrid a height width) height width _ _ _
        (fun a yb xb ha => wf_gset a height width yb xb '.' ha) g hwf
    have hwf2 : wfGrid (carve_vert height width
        (carve_horiz height width g ci.1 ci.2 cj.2) cj.2 ci.1 cj.1)
        height width :=
      carve_vert_pres (fun a => wfGrid a height width) height width _ _ _
        (fun a yb xb ha => wf_gset a height width yb xb '.' ha) _ hwf1
    have hrow : ∀ x0, min ci.2 cj.2 ≤ x0 → x0 ≤ max ci.2 cj.2 →
        gget (carve_vert height width
          (carve_horiz height width g ci.1 ci.2 cj.2) cj.2 ci.1 cj.1)
          ci.1 x0 = '.' := by
      intro x0 h1 h2
      refine carve_vert_pres (fun a => gget a ci.1 x0 = '.') height width
        _ _ _ (fun a yb xb ha => gget_gset_dot _ _ a yb xb ha) _ ?_
      exact carve_horiz_sets height width g hwf ci.1 ci.2 cj.2
        (by omega) (by omega) x0 h1 h2 (by omega) (by omega)
    have hcol : ∀ y0, min ci.1 cj.1 ≤ y0 → y0 ≤ max ci.1 cj.1 →
        gget (carve_vert height width
          (carve_horiz height width g ci.1 ci.2 cj.2) cj.2 ci.1 cj.1)
          y0 cj.2 = '.' := by
      intro y0 h1 h2
      exact carve_vert_sets height width _ hwf1 cj.2 ci.1 cj.1
        (by omega) (by omega) y0 h1 h2 (by omega) (by omega)
    have hmono : ∀ p, nonWallP g p → nonWallP (carve_vert height width
        (carve_horiz height width g ci.1 ci.2 cj.2) cj.2 ci.1 cj.1) p := by
      intro p hp
      refine ⟨hp.1, hp.2.1, ?_⟩
      refine carve_vert_pres (fun a => gget a p.1.toNat p.2.toNat ≠ '#')
        height width _ _ _
        (fun a yb xb ha => gget_gset_nonwall _ _ a yb xb '.' (by decide) ha)
        _ ?_
      refine carve_horiz_pres (fun a => gget a p.1.toNat p.2.toNat ≠ '#')
        height width _ _ _
        (fun a yb xb ha => gget_gset_nonwall _ _ a yb xb '.' (by decide) ha)
        g hp.2.2
    have hhreach : Reach (nonWallP (carve_vert height width
        (carve_horiz height width g ci.1 ci.2 cj.2) cj.2 ci.1 cj.1))
        (centerPt ci) ((ci.1 : Int), (cj.2 : Int)) := by
      refine reach_horiz _ (ci.1 : Int) (natDist ci.2 cj.2) (ci.2 : Int)
        (cj.2 : Int) (by unfold natDist; omega) ?_
      intro x h1 h2
      refine ⟨by omega, by omega, ?_⟩
      have ht1 : (((ci.1 : Int), x) : Pt).1.toNat = ci.1 := by
        dsimp only
        omega
      have ht2 : (((ci.1 : Int), x) : Pt).2.toNat = x.toNat := rfl
      rw [ht1, ht2, hrow x.toNat (by omega) (by omega)]
      decide
    have hvreach : Reach (nonWallP (carve_vert height width
        (carve_horiz height width g ci.1 ci.2 cj.2) cj.2 ci.1 cj.1))
        ((ci.1 : Int), (cj.2 : Int)) (centerPt cj) := by
      refine reach_vert _ (cj.2 : Int) (natDist ci.1 cj.1) (ci.1 : Int)
        (cj.1 : Int) (by unfold natDist; omega) ?_
      intro z h1 h2
      refine ⟨by omega, by omega, ?_⟩
      have ht1 : ((z, (cj.2 : Int)) : Pt).1.toNat = z.toNat := rfl
      have ht2 : ((z, (cj.2 : Int)) : Pt).2.toNat = cj.2 := by
        dsimp only
        omega
      rw [ht1, ht2, hcol z.toNat (by omega) (by omega)]
      decide
    refine ⟨hwf2, hmono, reach_trans _ hhreach hvreach, ?_⟩
    exact reach_trans _
      (reach_vert _ (cj.2 : Int) (natDist ci.1 cj.1) (cj.1 : Int)
        (ci.1 : Int) (by unfold natDist; omega) (fun z h1 h2 => by
          refine ⟨by omega, by omega, ?_⟩
          have ht1 : ((z, (cj.2 : Int)) : Pt).1.toNat = z.toNat := rfl
          have ht2 : ((z, (cj.2 : Int)) : Pt).2.toNat = cj.2 := by
            dsimp only
            omega
          rw [ht1, ht2, hcol z.toNat (by omega) (by omega)]
          decide))
      (reach_horiz _ (ci.1 : Int) (natDist ci.2 cj.2) (cj.2 : Int)
        (ci.2 : Int) (by unfold natDist; omega) (fun x h1 h2 => by
          refine ⟨by omega, by omega, ?_⟩
          have ht1 : (((ci.1 : Int), x) : Pt).1.toNat = ci.1 := by
            dsimp only
            omega
          have ht2 : (((ci.1 : Int), x) : Pt).2.toNat = x.toNat := rfl
          rw [ht1, ht2, hrow x.toNat (by omega) (by omega)]
          decide))

end OmuTui

namespace OmuTui

theorem bestFoldI_cases (centers : List (Nat × Nat)) (j : Nat) :
    ∀ (l : List Nat) (b0 : Option (Nat × Nat × Nat)),
      bestFoldI centers j l b0 = b0 ∨
      ∃ d i, i ∈ l ∧ bestFoldI centers j l b0 = some (d, i, j) := by
  intro l
  induction l with
  | nil => intro b0; exact Or.inl rfl
  | cons i t ih =>
    intro b0
    match b0 with
    | none =>
      have hred : bestFoldI centers j (i :: t) none =
          bestFoldI centers j t (some (pairDist centers i j, i, j)) := by
        unfold bestFoldI
        rw [List.foldl_cons]
      rw [hred]
      rcases ih (some (pairDist centers i j, i, j)) with h | ⟨d, i2, hi2, heq⟩
      · rw [h]
        exact Or.inr ⟨_, i, List.mem_cons_self _ _, rfl⟩
      · exact Or.inr ⟨d, i2, List.mem_cons_of_mem _ hi2, heq⟩
    | some (bd, bi, bj) =>
      by_cases hlt : pairDist centers i j < bd
      · have hred : bestFoldI centers j (i :: t) (some (bd, bi, bj)) =
            bestFoldI centers j t (some (pairDist centers i j, i, j)) := by
          unfold bestFoldI
          rw [List.foldl_cons]
          dsimp only
          rw [if_pos hlt]
        rw [hred]
        rcases ih (some (pairDist centers i j, i, j)) with h | ⟨d, i2, hi2, heq⟩
        · rw [h]
          exact Or.inr ⟨_, i, List.mem_cons_self _ _, rfl⟩
        · exact Or.inr ⟨d, i2, List.mem_cons_of_mem _ hi2, heq⟩
      · have hred : bestFoldI centers j (i :: t) (some (bd, bi, bj)) =
            bestFoldI centers j t (some (bd, bi, bj)) := by
          unfold bestFoldI
          rw [List.foldl_cons]
          dsimp only
          rw [if_neg hlt]
        rw [hred]
        rcases ih (some (bd, bi, bj)) with h | ⟨d, i2, hi2, heq⟩
        · rw [h]
          exact Or.inl rfl
        · exact Or.inr ⟨d, i2, List.mem_cons_of_mem _ hi2, heq⟩

theorem bestPair_go (centers : List (Nat × Nat)) (connected : List Nat) :
    ∀ (l : List Nat) (b0 : Option (Nat × Nat × Nat)),
      l.foldl (fun b j => bestFoldI centers j connected b) b0 = b0 ∨
      ∃ d i j, j ∈ l ∧ i ∈ connected ∧
        l.foldl (fun b j => bestFoldI centers j connected b) b0 =
          some (d, i, j) := by
  intro l
  induction l with
  | nil => intro b0; exact Or.inl rfl
  | cons j t ih =>
    intro b0
    rw [List.foldl_cons]
    rcases ih (bestFoldI centers j connected b0) with h | ⟨d, i, j2, hj2, hi, heq⟩
    · rw [h]
      rcases bestFoldI_cases centers j connected b0 with h2 | ⟨d, i, hi, h2⟩
      · rw [h2]
        exact Or.inl rfl
      · rw [h2]
        exact Or.inr ⟨d, i, j, List.mem_cons_self _ _, hi, rfl⟩
    · exact Or.inr ⟨d, i, j2, List.mem_cons_of_mem _ hj2, hi, heq⟩

theorem bestPair_mem (centers : List (Nat × Nat))
    (remaining connected : List Nat) (d : Nat) (i j : Nat)
    (h : bestPair centers remaining connected = some (d, i, j)) :
    i ∈ connected ∧ j ∈ remaining := by
  unfold bestPair at h
  rcases bestPair_go centers connected remaining none with h2 |
    ⟨d2, i2, j2, hj, hi, heq⟩
  · rw [h2] at h
    cases h
  · rw [heq] at h
    have h3 := Option.some.inj h
    rw [Prod.mk.injEq, Prod.mk.injEq] at h3
    obtain ⟨_, h4, h5⟩ := h3
    exact ⟨h4 ▸ hi, h5 ▸ hj⟩

theorem bestFoldI_isSome (centers : List (Nat × Nat)) (j : Nat) :
    ∀ (l : List Nat) (b0 : Option (Nat × Nat × Nat)),
      b0.isSome ∨ l ≠ [] → (bestFoldI centers j l b0).isSome := by
  intro l
  induction l with
  | nil =>
    intro b0 h
    rcases h with h | h
    · exact h
    · exact absurd rfl h
  | cons i t ih =>
    intro b0 _
    match b0 with
    | none =>
      have hred : bestFoldI centers j (i :: t) none =
          bestFoldI centers j t (some (pairDist centers i j, i, j)) := by
        unfold bestFoldI
        rw [List.foldl_cons]
      rw [hred]
      exact ih _ (Or.inl rfl)
    | some (bd, bi, bj) =>
      by_cases hlt : pairDist centers i j < bd
      · have hred : bestFoldI centers j (i :: t) (some (bd, bi, bj)) =
            bestFoldI centers j t (some (pairDist centers i j, i, j)) := by
          unfold bestFoldI
          rw [List.foldl_cons]
          dsimp only
          rw [if_pos hlt]
        rw [hred]
        exact ih _ (Or.inl rfl)
      · have hred : bestFoldI centers j (i :: t) (some (bd, bi, bj)) =
            bestFoldI centers j t (some (bd, bi, bj)) := by
          unfold bestFoldI
          rw [List.foldl_cons]
          dsimp only
          rw [if_neg hlt]
        rw [hred]
        exact ih _ (Or.inl rfl)

theorem bestPair_isSome (centers : List (Nat × Nat))
    (remaining connected : List Nat) (hr : remaining ≠ [])
    (hc : connected ≠ []) : (bestPair centers remaining connected).isSome := by
  unfold bestPair
  match remaining with
  | [] => exact absurd rfl hr
  | j :: t =>
    rw [List.foldl_cons]
    have h0 : (bestFoldI centers j connected none).isSome :=
      bestFoldI_isSome centers j connected none (Or.inr hc)
    refine foldl_pres (fun b : Option (Nat × Nat × Nat) => b.isSome = true) _
      ?_ t _ h0
    intro b j2 hb
    exact bestFoldI_isSome centers j2 connected b (Or.inl hb)

end OmuTui

namespace OmuTui

theorem connectLoop_spec (height width : Nat) (coin : Nat → Bool)
    (centers : List (Nat × Nat))
    (hcb : ∀ c ∈ centers, 2 ≤ c.1 ∧ c.1 + 3 ≤ height ∧ 2 ≤ c.2 ∧
      c.2 + 3 ≤ width) :
    ∀ fuel remaining connected m g,
      wfGrid g height width →
      remaining.length ≤ fuel →
      connected ≠ [] →
      (∀ i ∈ connected, i < centers.length) →
      (∀ j ∈ remaining, j < centers.length) →
      (∀ i, i < centers.length → i ∈ connected ∨ i ∈ remaining) →
      (∀ i ∈ connected, ∀ i2 ∈ connected,
        Reach (nonWallP g) (centerPt (centers.getD i (0, 0)))
          (centerPt (centers.getD i2 (0, 0)))) →
      wfGrid (connectLoop height width coin centers fuel remaining connected
        m g) height width ∧
      (∀ p, nonWallP g p →
        nonWallP (connectLoop height width coin centers fuel remaining
          connected m g) p) ∧
      (∀ i i2, i < centers.length → i2 < centers.length →
        Reach (nonWallP (connectLoop height width coin centers fuel remaining
          connected m g))
          (centerPt (centers.getD i (0, 0)))
          (centerPt (centers.getD i2 (0, 0)))) := by
  intro fuel
  induction fuel with
  | zero =>
    intro remaining connected m g hwf hlen hcne hcl hrl hpart hreach
    have hre : remaining = [] := List.length_eq_zero.mp (by omega)
    refine ⟨hwf, fun p hp => hp, ?_⟩
    intro i i2 hi hi2
    have h1 : i ∈ connected := by
      rcases hpart i hi with h | h
      · exact h
      · rw [hre] at h
        exact absurd h (List.not_mem_nil i)
    have h2 : i2 ∈ connected := by
      rcases hpart i2 hi2 with h | h
      · exact h
      · rw [hre] at h
        exact absurd h (List.not_mem_nil i2)
    exact hreach i h1 i2 h2
  | succ fuel ih =>
    intro remaining connected m g hwf hlen hcne hcl hrl hpart hreach
    by_cases hre : remaining.isEmpty = true
    · have hre2 : remaining = [] := by
        cases remaining with
        | nil => rfl
        | cons a t => simp [List.isEmpty] at hre
      have hred : connectLoop height width coin centers (fuel + 1) remaining
          connected m g = g := by
        rw [connectLoop, if_pos hre]
      rw [hred]
      refine ⟨hwf, fun p hp => hp, ?_⟩
      intro i i2 hi hi2
      have h1 : i ∈ connected := by
        rcases hpart i hi with h | h
        · exact h
        · rw [hre2] at h
          exact absurd h (List.not_mem_nil i)
      have h2 : i2 ∈ connected := by
        rcases hpart i2 hi2 with h | h
        · exact h
        · rw [hre2] at h
          exact absurd h (List.not_mem_nil i2)
      exact hreach i h1 i2 h2
    · have hrne : remaining ≠ [] := fun h => hre (by rw [h]; rfl)
      have hsome := bestPair_isSome centers remaining connected hrne hcne
      obtain ⟨trip, heq⟩ := Option.isSome_iff_exists.mp hsome
      obtain ⟨d, i0, j0⟩ := trip
      obtain ⟨hi0c, hj0r⟩ := bestPair_mem centers remaining connected d i0 j0
        heq
      have hred : connectLoop height width coin centers (fuel + 1) remaining
          connected m g =
          connectLoop height width coin centers fuel (remaining.erase j0)
            (connected ++ [j0]) (m + 1)
            (if coin m then
              carve_vert height width (carve_horiz height width g
                (centers.getD i0 (0, 0)).1 (centers.getD i0 (0, 0)).2
                (centers.getD j0 (0, 0)).2) (centers.getD j0 (0, 0)).2
                (centers.getD i0 (0, 0)).1 (centers.getD j0 (0, 0)).1
            else
              carve_horiz height width (carve_vert height width g
                (centers.getD i0 (0, 0)).2 (centers.getD i0 (0, 0)).1
                (centers.getD j0 (0, 0)).1) (centers.getD j0 (0, 0)).1
                (centers.getD i0 (0, 0)).2 (centers.getD j0 (0, 0)).2) := by
        rw [connectLoop, if_neg hre, heq]
      obtain ⟨hwf2, hmono2, hrij, hrji⟩ := lcorridor_spec height width g hwf
        (centers.getD i0 (0, 0)) (centers.getD j0 (0, 0))
        (hcb _ (getD_mem_of_lt centers i0 (0, 0) (hcl i0 hi0c)))
        (hcb _ (getD_mem_of_lt centers j0 (0, 0) (hrl j0 hj0r)))
        (coin m)
      have hel : (remaining.erase j0).length + 1 = remaining.length := by
        rw [List.length_erase_of_mem hj0r]
        have : 0 < remaining.length := List.length_pos.mpr hrne
        omega
      rw [hred]
      generalize hG2 : (if coin m then
          carve_vert height width (carve_horiz height width g
            (centers.getD i0 (0, 0)).1 (centers.getD i0 (0, 0)).2
            (centers.getD j0 (0, 0)).2) (centers.getD j0 (0, 0)).2
            (centers.getD i0 (0, 0)).1 (centers.getD j0 (0, 0)).1
        else
          carve_horiz height width (carve_vert height width g
            (centers.getD i0 (0, 0)).2 (centers.getD i0 (0, 0)).1
            (centers.getD j0 (0, 0)).1) (centers.getD j0 (0, 0)).1
            (centers.getD i0 (0, 0)).2 (centers.getD j0 (0, 0)).2) = G2
      rw [hG2] at hwf2 hmono2 hrij hrji
      have hcne2 : connected ++ [j0] ≠ [] := by
        intro h
        rcases List.append_eq_nil.mp h with ⟨_, h2⟩
        cases h2
      have hcl2 : ∀ i ∈ connected ++ [j0], i < centers.length := by
        intro i hi
        rcases List.mem_append.mp hi with h | h
        · exact hcl i h
        · rw [List.mem_singleton] at h
          subst h
          exact hrl _ hj0r
      have hrl2 : ∀ j ∈ remaining.erase j0, j < centers.length :=
        fun j hj => hrl j (List.mem_of_mem_erase hj)
      have hpart2 : ∀ i, i < centers.length →
          i ∈ connected ++ [j0] ∨ i ∈ remaining.erase j0 := by
        intro i hi
        rcases hpart i hi with h | h
        · exact Or.inl (List.mem_append_left _ h)
        · by_cases hij : i = j0
          · refine Or.inl (List.mem_append_right _ ?_)
            rw [hij]
            exact List.mem_singleton_self j0
          · exact Or.inr ((List.mem_erase_of_ne hij).mpr h)
      have hreach2 : ∀ i ∈ connected ++ [j0], ∀ i2 ∈ connected ++ [j0],
          Reach (nonWallP G2) (centerPt (centers.getD i (0, 0)))
            (centerPt (centers.getD i2 (0, 0))) := by
        intro i hi i2 hi2
        rcases List.mem_append.mp hi with h | h <;>
          rcases List.mem_append.mp hi2 with h2 | h2
        · exact reach_mono _ _ hmono2 _ _ (hreach i h i2 h2)
        · rw [List.mem_singleton] at h2
          subst h2
          exact reach_trans _ (reach_mono _ _ hmono2 _ _ (hreach i h i0 hi0c))
            hrij
        · rw [List.mem_singleton] at h
          subst h
          exact reach_trans _ hrji
            (reach_mono _ _ hmono2 _ _ (hreach i0 hi0c i2 h2))
        · rw [List.mem_singleton] at h h2
          subst h
          subst h2
          exact Reach.refl _
      obtain ⟨ha, hb, hc⟩ := ih (remaining.erase j0) (connected ++ [j0])
        (m + 1) G2 hwf2 (by omega) hcne2 hcl2 hrl2 hpart2 hreach2
      exact ⟨ha, fun p hp => hb p (hmono2 p hp), hc⟩

end OmuTui

namespace OmuTui

theorem taskPass_mono (sig : List (Nat × Nat) → List (Nat × Nat))
    (height width : Nat) (g : List (List Char)) :
    ∀ p, nonWallP g p → nonWallP (taskPass sig height width g) p := by
  intro p hp
  refine ⟨hp.1, hp.2.1, ?_⟩
  unfold taskPass
  refine foldl_pres (fun a => gget a p.1.toNat p.2.toNat ≠ '#') _ ?_ _ g hp.2.2
  intro a q ha
  exact gget_gset_nonwall _ _ a q.1 q.2 'T' (by decide) ha

theorem connectPhase_spec (height width : Nat) (coin : Nat → Bool)
    (rg : List Room × List (List Char))
    (hinv : RoomInv height width rg.1 rg.2) :
    (∀ p, nonWallP rg.2 p →
      nonWallP (connectPhase height width coin rg) p) ∧
    (∀ r1 ∈ rg.1, ∀ r2 ∈ rg.1,
      Reach (nonWallP (connectPhase height width coin rg))
        (centerPt (roomCenter r1)) (centerPt (roomCenter r2))) := by
  unfold connectPhase
  by_cases hnil : rg.1.isEmpty = true
  · rw [if_pos hnil]
    have hre : rg.1 = [] := by
      cases h : rg.1 with
      | nil => rfl
      | cons a t => rw [h] at hnil; simp [List.isEmpty] at hnil
    refine ⟨fun p hp => hp, ?_⟩
    intro r1 hr1
    rw [hre] at hr1
    exact absurd hr1 (List.not_mem_nil r1)
  · rw [if_neg hnil]
    have hlenpos : 0 < rg.1.length := by
      cases h : rg.1 with
      | nil => rw [h] at hnil; exact absurd rfl hnil
      | cons a t => simp
    have hcb : ∀ c ∈ rg.1.map roomCenter, 2 ≤ c.1 ∧ c.1 + 3 ≤ height ∧
        2 ≤ c.2 ∧ c.2 + 3 ≤ width := by
      intro c hc
      obtain ⟨r, hr, hrc⟩ := List.mem_map.mp hc
      have hb := hinv.bounds r hr
      rw [← hrc]
      unfold roomCenter
      dsimp only
      omega
    have hdrop : (List.range (rg.1.map roomCenter).length).drop 1 =
        List.range' 1 ((rg.1.map roomCenter).length - 1) := by
      rw [List.range_eq_range']
      cases hn : (rg.1.map roomCenter).length with
      | zero => rfl
      | succ k => rfl
    obtain ⟨hwfc, hmonoc, hreachc⟩ := connectLoop_spec height width coin
      (rg.1.map roomCenter) hcb (rg.1.map roomCenter).length
      ((List.range (rg.1.map roomCenter).length).drop 1) [0] 0 rg.2
      hinv.wf
      (by rw [List.length_drop, List.length_range]; omega)
      (by intro h; cases h)
      (by
        intro i hi
        rw [List.mem_singleton] at hi
        subst hi
        rw [List.length_map]
        exact hlenpos)
      (by
        intro j hj
        have := List.mem_of_mem_drop hj
        exact List.mem_range.mp this)
      (by
        intro i hi
        by_cases h0 : i = 0
        · exact Or.inl (by rw [h0]; exact List.mem_singleton_self 0)
        · refine Or.inr ?_
          rw [hdrop, List.mem_range'_1]
          omega)
      (by
        intro i hi i2 hi2
        rw [List.mem_singleton] at hi hi2
        subst hi
        subst hi2
        exact Reach.refl _)
    refine ⟨hmonoc, ?_⟩
    intro r1 hr1 r2 hr2
    obtain ⟨⟨k1, hk1⟩, hget1⟩ := List.mem_iff_get.mp hr1
    obtain ⟨⟨k2, hk2⟩, hget2⟩ := List.mem_iff_get.mp hr2
    have hc1 : (rg.1.map roomCenter).getD k1 (0, 0) = roomCenter r1 := by
      rw [List.getD_eq_get?, List.get?_map, List.get?_eq_get hk1, hget1]
      rfl
    have hc2 : (rg.1.map roomCenter).getD k2 (0, 0) = roomCenter r2 := by
      rw [List.getD_eq_get?, List.get?_map, List.get?_eq_get hk2, hget2]
      rfl
    have := hreachc k1 k2 (by rw [List.length_map]; exact hk1)
      (by rw [List.length_map]; exact hk2)
    rw [hc1, hc2] at this
    exact this

end OmuTui

namespace OmuTui

/-- C9: in every grid the generator produces (over all oracle draws, for
grids large enough for room placement), every room cell reaches every
other room cell through non-wall cells only: the carved room floor is a
single connected component. -/
theorem c9_generated_map_rooms_connected (R : Nat → Nat) (coin : Nat → Bool)
    (sig : List (Nat × Nat) → List (Nat × Nat)) (width height : Nat)
    (hW : 19 ≤ width) (hH : 13 ≤ height) :
    ∀ r1 ∈ genRooms R width height, ∀ r2 ∈ genRooms R width height,
      ∀ p q : Pt, roomCellP r1 p → roomCellP r2 q →
        Reach (nonWallP (generate_map R coin sig width height)) p q := by
  intro r1 hr1 r2 hr2 p q hp hq
  unfold genRooms at hr1 hr2
  have hinv0 : RoomInv height width []
      (List.replicate height (List.replicate width '#')) := by
    refine ⟨⟨by simp, ?_⟩, ?_, ?_⟩
    · intro i row hi
      have hm : row ∈ List.replicate height (List.replicate width '#') :=
        List.get?_mem hi
      rw [List.eq_of_mem_replicate hm]
      simp
    · intro r hr
      exact absurd hr (List.not_mem_nil r)
    · intro r hr
      exact absurd hr (List.not_mem_nil r)
  have hinv := roomsLoop_inv height width R hW hH 200 1 (randint 5 7 (R 0))
    [] _ hinv0
  obtain ⟨hmonoc, hreachc⟩ := connectPhase_spec height width coin
    (roomsLoop height width R 200 1 (randint 5 7 (R 0)) []
      (List.replicate height (List.replicate width '#'))) hinv
  have hreach12 := hreachc r1 hr1 r2 hr2
  have hb1 := hinv.bounds r1 hr1
  have hb2 := hinv.bounds r2 hr2
  -- all cells of a room rectangle are non-wall in the final grid
  have hrect : ∀ r ∈ (roomsLoop height width R 200 1 (randint 5 7 (R 0)) []
      (List.replicate height (List.replicate width '#'))).1,
      ∀ pt : Pt, (r.1 : Int) ≤ pt.1 → pt.1 ≤ (r.2.2.1 : Int) →
        (r.2.1 : Int) ≤ pt.2 → pt.2 ≤ (r.2.2.2 : Int) →
        nonWallP (generate_map R coin sig width height) pt := by
    intro r hr pt h1 h2 h3 h4
    have hbr := hinv.bounds r hr
    have hcv : gget (roomsLoop height width R 200 1 (randint 5 7 (R 0)) []
        (List.replicate height (List.replicate width '#'))).2
        pt.1.toNat pt.2.toNat = '.' :=
      hinv.carved r hr pt.1.toNat pt.2.toNat (by omega) (by omega) (by omega)
        (by omega)
    have hnw1 : nonWallP (roomsLoop height width R 200 1 (randint 5 7 (R 0))
        [] (List.replicate height (List.replicate width '#'))).2 pt := by
      refine ⟨by omega, by omega, ?_⟩
      rw [hcv]
      decide
    exact taskPass_mono sig height width _ pt (hmonoc pt hnw1)
  -- p to center of r1 inside its rectangle
  have hreachA : Reach (nonWallP (generate_map R coin sig width height)) p
      (centerPt (roomCenter r1)) := by
    refine rect_reach _ (r1.1 : Int) (r1.2.1 : Int) (r1.2.2.1 : Int)
      (r1.2.2.2 : Int) ?_ p (centerPt (roomCenter r1)) ?_ ?_
    · intro pt ha hb hc hd
      exact hrect r1 hr1 pt ha hb hc hd
    · exact ⟨hp.1, hp.2.1, hp.2.2.1, hp.2.2.2⟩
    · unfold centerPt roomCenter
      dsimp only
      refine ⟨?_, ?_, ?_, ?_⟩ <;> omega
  have hreachB : Reach (nonWallP (generate_map R coin sig width height))
      (centerPt (roomCenter r2)) q := by
    refine rect_reach _ (r2.1 : Int) (r2.2.1 : Int) (r2.2.2.1 : Int)
      (r2.2.2.2 : Int) ?_ (centerPt (roomCenter r2)) q ?_ ?_
    · intro pt ha hb hc hd
      exact hrect r2 hr2 pt ha hb hc hd
    · unfold centerPt roomCenter
      dsimp only
      refine ⟨?_, ?_, ?_, ?_⟩ <;> omega
    · exact ⟨hq.1, hq.2.1, hq.2.2.1, hq.2.2.2⟩
  have hreachM : Reach (nonWallP (generate_map R coin sig width height))
      (centerPt (roomCenter r1)) (centerPt (roomCenter r2)) := by
    refine reach_mono _ _ ?_ _ _ hreach12
    exact fun pt hpt => taskPass_mono sig height width _ pt hpt
  exact reach_trans _ (reach_trans _ hreachA hreachM) hreachB

theorem c9_witness :
    19 ≤ 40 ∧ 13 ≤ 24 ∧
    ∀ r1 ∈ genRooms (fun _ => 0) 40 24, ∀ r2 ∈ genRooms (fun _ => 0) 40 24,
      ∀ p q : Pt, roomCellP r1 p → roomCellP r2 q →
        Reach (nonWallP (generate_map (fun _ => 0) (fun _ => true) id 40 24))
          p q :=
  ⟨by decide, by decide,
    c9_generated_map_rooms_connected (fun _ => 0) (fun _ => true) id 40 24
      (by decide) (by decide)⟩

end OmuTui
